import Mathlib

/-!
Verification of the subset-growing / subset-refinement core of the weighted
BACON robust regression estimator (source files `src/wbacon_reg.c` and
`src/fitwls.c`).

The C code is shallowly embedded over an arbitrary linear ordered field `K`
(instantiated with `ℝ` or `ℚ` in the theorems).  The square root and the
hypotenuse routine of the C math library are passed as explicit function
parameters `sq` and `hyp`, so that the embedding stays executable; theorems
that need their analytic properties instantiate them with `Real.sqrt`.

Representation conventions:
* a length-`q` vector is a `List K`;
* the design matrix `x` (column-major `array[n, p]` in C) is a list of `p`
  columns, each a list of `n` entries;
* a lower-triangular `p × p` factor `L` is a list of `p` columns, column `i`
  being the pair of its diagonal entry `L[i,i]` and the list of its
  below-diagonal entries `L[i+1,i], …, L[p-1,i]`;
* subsets (`int *subset`, 0/1 valued) are `List Bool`;
* LAPACK/BLAS and Rmath collaborators (`dgels`, `dtrtri`, `dtrsm`, `qt`) and
  the routines whose sources are not part of the repository snapshot
  (`select_k`, `psort_array`, the external robust-scale estimator) are
  modelled from the spec, each with a doc comment saying so.
-/

namespace WBacon

/-- Error taxonomy of `wbacon_error_type` (spec §7: RankDeficient,
TriangularMatrixSingular, ConvergenceFailure, Ok). -/
inductive Werr where
  | ok
  | rankDeficient
  | triangMatSingular
  | convergenceFailure
  deriving DecidableEq, Repr

/-- Decidable equality on `Except`, used to evaluate the embedding on
concrete rational inputs. -/
instance {ε α : Type} [DecidableEq ε] [DecidableEq α] :
    DecidableEq (Except ε α) := fun a b =>
  match a, b with
  | .ok a, .ok b => decidable_of_iff (a = b) (by simp)
  | .error a, .error b => decidable_of_iff (a = b) (by simp)
  | .ok _, .error _ => isFalse (by simp)
  | .error _, .ok _ => isFalse (by simp)

/-- Dot product of two vectors (sum of the pointwise products). -/
def dotK {K : Type} [LinearOrderedField K] (xs ys : List K) : K :=
  (List.zipWith (· * ·) xs ys).sum

section Chol

variable {K : Type} [LinearOrderedField K]
variable (sq : K → K) (hyp : K → K → K)

/-- Transformed below-diagonal column in one step of `chol_update`
(wbacon_reg.c:543-545): with `a = hypot(d, uv)`, `b = a / d`, `c = uv / d`,
each entry becomes `(l + c * u_j) / b`. -/
def up_below (d uv : K) (below utail : List K) : List K :=
  List.zipWith (fun l uj => (l + uv / d * uj) / (hyp d uv / d)) below utail

/-- Transformed residual update vector in one step of `chol_update`
(wbacon_reg.c:546): `u_j := b * u_j - c * L[j,i]`, using the already updated
column entry. -/
def up_u (d uv : K) (below utail : List K) : List K :=
  List.zipWith (fun uj l => hyp d uv / d * uj - uv / d * l) utail
    (up_below hyp d uv below utail)

/-- Embedding of `chol_update` (wbacon_reg.c:533-550): rank-one update of the
lower-triangular Cholesky factor, Golub & Van Loan ch. 12.5.  Column `i` of
`L` (the pair of diagonal `d` and below-diagonal entries) is combined with the
update vector `u` via the hypotenuse routine `hyp`; the last diagonal entry is
`sqrt(L[p-1,p-1]^2 + u[p-1]^2)`.  The C function is `void` (no error return)
and mutates `L` in place; the embedding returns the new factor.  The final
clause (a longer factor with an exhausted update vector) cannot arise for the
`p × p` factor and `p`-vector the C routine receives. -/
def chol_update : List (K × List K) → List K → List (K × List K)
  | [], _ => []
  | [(d, below)], u => [(sq (d ^ 2 + (u.headD 0) ^ 2), below)]
  | (d, below) :: r :: rs, uv :: utail =>
      (hyp d uv, up_below hyp d uv below utail) ::
        chol_update (r :: rs) (up_u hyp d uv below utail)
  | (d, below) :: r :: rs, [] => (d, below) :: r :: rs

/-- Transformed below-diagonal column in one step of `chol_downdate`
(wbacon_reg.c:577-578): with `a = sqrt(d^2 - uv^2)`, `b = a / d`,
`c = uv / d`, each entry becomes `(l - c * u_j) / b`. -/
def dd_below (d uv : K) (below utail : List K) : List K :=
  List.zipWith (fun l uj => (l - uv / d * uj) / (sq (d ^ 2 - uv ^ 2) / d))
    below utail

/-- Transformed residual update vector in one step of `chol_downdate`
(wbacon_reg.c:579): `u_j := b * u_j - c * L[j,i]`, using the already updated
column entry. -/
def dd_u (d uv : K) (below utail : List K) : List K :=
  List.zipWith (fun uj l => sq (d ^ 2 - uv ^ 2) / d * uj - uv / d * l) utail
    (dd_below sq d uv below utail)

/-- Embedding of `chol_downdate` (wbacon_reg.c:562-589): rank-one downdate.
Each column step forms `a = L[i,i]^2 - u[i]^2`; if `a < 0` the factor would
become indefinite and the routine fails with `WBACON_ERROR_RANK_DEFICIENT`,
otherwise the new diagonal entry is `sqrt a` and the column and the update
vector are transformed as in `chol_update` but subtractively. -/
def chol_downdate : List (K × List K) → List K → Except Werr (List (K × List K))
  | [], _ => .ok []
  | [(d, below)], u =>
      if d ^ 2 - (u.headD 0) ^ 2 < 0 then .error .rankDeficient
      else .ok [(sq (d ^ 2 - (u.headD 0) ^ 2), below)]
  | (d, below) :: r :: rs, uv :: utail =>
      if d ^ 2 - uv ^ 2 < 0 then .error .rankDeficient
      else
        match chol_downdate (r :: rs) (dd_u sq d uv below utail) with
        | .ok rest' => .ok ((sq (d ^ 2 - uv ^ 2), dd_below sq d uv below utail) :: rest')
        | .error e => .error e
  | (d, below) :: r :: rs, [] => .ok ((d, below) :: r :: rs)

/-- Trace of the quantities `a = L[i,i]^2 - u[i]^2` tested against `0` by
`chol_downdate`, in execution order; the trace stops at the first negative
value (after it the C routine has already returned). -/
def chol_downdate_diffs : List (K × List K) → List K → List K
  | [], _ => []
  | [(d, _)], u => [d ^ 2 - (u.headD 0) ^ 2]
  | (d, below) :: r :: rs, uv :: utail =>
      if d ^ 2 - uv ^ 2 < 0 then [d ^ 2 - uv ^ 2]
      else (d ^ 2 - uv ^ 2) ::
        chol_downdate_diffs (r :: rs) (dd_u sq d uv below utail)
  | _ :: _ :: _, [] => []

end Chol

/-- Shape invariant of the column representation of a `p × p` lower-triangular
factor: column `i` carries `p - 1 - i` below-diagonal entries.  It mirrors the
fixed `array[p, p]` layout of the C code. -/
def trishape {K : Type} [LinearOrderedField K] : List (K × List K) → Prop
  | [] => True
  | (_, below) :: rest => below.length = rest.length ∧ trishape rest

section CholProofs

variable {K : Type} [LinearOrderedField K]

theorem length_dd_u (sq : K → K) (d uv : K) (below utail : List K) :
    (dd_u sq d uv below utail).length =
      min utail.length (min below.length utail.length) := by
  simp [dd_u, dd_below, List.length_zipWith]

theorem chol_downdate_error_rankDeficient (sq : K → K) :
    ∀ (L : List (K × List K)) (u : List K) (e : Werr),
      chol_downdate sq L u = .error e → e = .rankDeficient := by
  intro L
  induction L with
  | nil => intro u e h; simp [chol_downdate] at h
  | cons hd tl ih =>
    obtain ⟨d, below⟩ := hd
    cases tl with
    | nil =>
      intro u e h
      simp only [chol_downdate] at h
      split at h
      · exact (Except.error.inj h).symm
      · exact absurd h (by simp)
    | cons r rs =>
      intro u e h
      cases u with
      | nil => simp [chol_downdate] at h
      | cons uv utail =>
        simp only [chol_downdate] at h
        split at h
        · exact (Except.error.inj h).symm
        · split at h
          · exact absurd h (by simp)
          · next heq => exact (Except.error.inj h) ▸ ih _ _ heq

theorem chol_downdate_fail_iff (sq : K → K) :
    ∀ (L : List (K × List K)) (u : List K), trishape L → u.length = L.length →
      ((∃ e, chol_downdate sq L u = .error e) ↔
        ∃ a ∈ chol_downdate_diffs sq L u, a < 0) := by
  intro L
  induction L with
  | nil =>
    intro u _ _
    simp [chol_downdate, chol_downdate_diffs]
  | cons hd tl ih =>
    obtain ⟨d, below⟩ := hd
    cases tl with
    | nil =>
      intro u _ _
      simp only [chol_downdate, chol_downdate_diffs]
      split
      · next hlt =>
        rw [List.headD_eq_head?_getD] at hlt
        simp [hlt]
      · next hneg =>
        rw [List.headD_eq_head?_getD] at hneg
        simp [hneg]
    | cons r rs =>
      intro u hshape hlen
      cases u with
      | nil => simp at hlen
      | cons uv utail =>
        have hbl : below.length = (r :: rs).length := hshape.1
        have hul : utail.length = (r :: rs).length := by simpa using hlen
        have hnewlen : (dd_u sq d uv below utail).length = (r :: rs).length := by
          rw [length_dd_u, hbl, hul]; simp
        have hrec := ih (dd_u sq d uv below utail) hshape.2 hnewlen
        simp only [chol_downdate, chol_downdate_diffs]
        split
        · next hlt => simp [hlt]
        · next hneg =>
          cases hcd : chol_downdate sq (r :: rs) (dd_u sq d uv below utail) with
          | ok rest' =>
            rw [hcd] at hrec
            simp only [hcd]
            constructor
            · rintro ⟨e, he⟩
              exact absurd he (by simp)
            · rintro ⟨a, ha, halt⟩
              rcases List.mem_cons.mp ha with h0 | h1
              · exact absurd halt (h0 ▸ hneg)
              · exact absurd (hrec.mpr ⟨a, h1, halt⟩)
                  (by rintro ⟨e, he⟩; simp at he)
          | error e =>
            rw [hcd] at hrec
            simp only [hcd]
            constructor
            · intro _
              rcases hrec.mp ⟨e, rfl⟩ with ⟨a, ha, halt⟩
              exact ⟨a, List.mem_cons_of_mem _ ha, halt⟩
            · intro _
              exact ⟨e, rfl⟩

theorem chol_downdate_ok_diag (sq : K → K) :
    ∀ (L : List (K × List K)) (u : List K), trishape L → u.length = L.length →
      ∀ L', chol_downdate sq L u = .ok L' →
        (∀ a ∈ chol_downdate_diffs sq L u, 0 ≤ a) ∧
        L'.map Prod.fst = (chol_downdate_diffs sq L u).map sq := by
  intro L
  induction L with
  | nil =>
    intro u _ _ L' h
    simp only [chol_downdate] at h
    cases h
    simp [chol_downdate_diffs]
  | cons hd tl ih =>
    obtain ⟨d, below⟩ := hd
    cases tl with
    | nil =>
      intro u _ _ L' h
      simp only [chol_downdate] at h
      split at h
      · exact absurd h (by simp)
      · next hneg =>
        cases h
        simp only [chol_downdate_diffs]
        constructor
        · intro a ha
          rcases List.mem_singleton.mp ha with rfl
          exact le_of_not_lt hneg
        · simp
    | cons r rs =>
      intro u hshape hlen L' h
      cases u with
      | nil => simp at hlen
      | cons uv utail =>
        have hbl : below.length = (r :: rs).length := hshape.1
        have hul : utail.length = (r :: rs).length := by simpa using hlen
        have hnewlen : (dd_u sq d uv below utail).length = (r :: rs).length := by
          rw [length_dd_u, hbl, hul]; simp
        simp only [chol_downdate] at h
        split at h
        · exact absurd h (by simp)
        · next hneg =>
          cases hcd : chol_downdate sq (r :: rs) (dd_u sq d uv below utail) with
          | ok rest' =>
            rw [hcd] at h
            cases h
            have hrec := ih (dd_u sq d uv below utail) hshape.2 hnewlen rest' hcd
            simp only [chol_downdate_diffs, if_neg hneg]
            constructor
            · intro a ha
              rcases List.mem_cons.mp ha with h0 | h1
              · exact h0 ▸ le_of_not_lt hneg
              · exact hrec.1 a h1
            · simpa using hrec.2
          | error e =>
            rw [hcd] at h
            exact absurd h (by simp)

end CholProofs

/-- Claim C4: the rank-one Cholesky downdate fails with RankDeficient exactly
when at some column step the squared diagonal entry minus the squared
update-vector entry is negative; when every such quantity is nonnegative the
downdate succeeds and each new diagonal entry is the square root of the
corresponding difference.  The hypotheses fix the shapes the C routine
receives: a `p × p` factor and a length-`p` update vector. -/
theorem claim_C4_chol_downdate (K : Type) [LinearOrderedField K] (sq : K → K)
    (L : List (K × List K)) (u : List K)
    (hshape : trishape L) (hlen : u.length = L.length) :
    ((∃ e, chol_downdate sq L u = .error e) ↔
        ∃ a ∈ chol_downdate_diffs sq L u, a < 0) ∧
    (∀ e, chol_downdate sq L u = .error e → e = .rankDeficient) ∧
    (∀ L', chol_downdate sq L u = .ok L' →
        (∀ a ∈ chol_downdate_diffs sq L u, 0 ≤ a) ∧
        L'.map Prod.fst = (chol_downdate_diffs sq L u).map sq) :=
  ⟨chol_downdate_fail_iff sq L u hshape hlen,
   fun e he => chol_downdate_error_rankDeficient sq L u e he,
   fun L' hL' => chol_downdate_ok_diag sq L u hshape hlen L' hL'⟩

/-- Witness for C4 at a concrete input: the `2 × 2` factor with diagonal
`(2, 1)` and subdiagonal `0`, downdated by `u = (1, 0)` (with the square root
modelled by the identity on the rational test values), succeeds and rewrites
the diagonal to the square roots of the step differences `(3, 1)`. -/
theorem claim_C4_chol_downdate_witness :
    (trishape [((2 : ℚ), [(0 : ℚ)]), ((1 : ℚ), ([] : List ℚ))] ∧
      ([(1 : ℚ), 0].length = [((2 : ℚ), [(0 : ℚ)]), ((1 : ℚ), ([] : List ℚ))].length)) ∧
    (((∃ e, chol_downdate (fun q : ℚ => q) [((2 : ℚ), [(0 : ℚ)]), ((1 : ℚ), [])] [1, 0]
          = .error e) ↔
        ∃ a ∈ chol_downdate_diffs (fun q : ℚ => q)
          [((2 : ℚ), [(0 : ℚ)]), ((1 : ℚ), [])] [1, 0], a < 0) ∧
      (∀ e, chol_downdate (fun q : ℚ => q)
          [((2 : ℚ), [(0 : ℚ)]), ((1 : ℚ), [])] [1, 0] = .error e →
            e = .rankDeficient) ∧
      (∀ L', chol_downdate (fun q : ℚ => q)
          [((2 : ℚ), [(0 : ℚ)]), ((1 : ℚ), [])] [1, 0] = .ok L' →
        (∀ a ∈ chol_downdate_diffs (fun q : ℚ => q)
            [((2 : ℚ), [(0 : ℚ)]), ((1 : ℚ), [])] [1, 0], 0 ≤ a) ∧
        L'.map Prod.fst = (chol_downdate_diffs (fun q : ℚ => q)
            [((2 : ℚ), [(0 : ℚ)]), ((1 : ℚ), [])] [1, 0]).map (fun q : ℚ => q))) :=
  ⟨⟨by simp [trishape], by simp⟩,
   claim_C4_chol_downdate ℚ (fun q => q) _ _ (by simp [trishape]) (by simp)⟩

section UpdateProofs

variable {K : Type} [LinearOrderedField K]

theorem length_up_u (hyp : K → K → K) (d uv : K) (below utail : List K) :
    (up_u hyp d uv below utail).length =
      min utail.length (min below.length utail.length) := by
  simp [up_u, up_below, List.length_zipWith]

theorem chol_update_shape (sq : K → K) (hyp : K → K → K) :
    ∀ (L : List (K × List K)) (u : List K), trishape L → u.length = L.length →
      (chol_update sq hyp L u).length = L.length ∧
      ∀ dv ∈ (chol_update sq hyp L u).map Prod.fst,
        (∃ x, dv = sq x) ∨ (∃ x z, dv = hyp x z) := by
  intro L
  induction L with
  | nil =>
    intro u _ _
    simp [chol_update]
  | cons hd tl ih =>
    obtain ⟨d, below⟩ := hd
    cases tl with
    | nil =>
      intro u _ _
      refine ⟨by simp [chol_update], ?_⟩
      intro dv hdv
      simp only [chol_update, List.map_cons, List.map_nil,
        List.mem_singleton] at hdv
      exact Or.inl ⟨_, hdv⟩
    | cons r rs =>
      intro u hshape hlen
      cases u with
      | nil => simp at hlen
      | cons uv utail =>
        have hbl : below.length = (r :: rs).length := hshape.1
        have hul : utail.length = (r :: rs).length := by simpa using hlen
        have hnewlen : (up_u hyp d uv below utail).length = (r :: rs).length := by
          rw [length_up_u, hbl, hul]; simp
        have hrec := ih (up_u hyp d uv below utail) hshape.2 hnewlen
        constructor
        · simp only [chol_update, List.length_cons, hrec.1]
        · intro dv hdv
          simp only [chol_update, List.map_cons, List.mem_cons] at hdv
          rcases hdv with h0 | h1
          · exact Or.inr ⟨_, _, h0⟩
          · exact hrec.2 dv (by simpa using h1)

end UpdateProofs

/-- Claim C10: the rank-one Cholesky update is total — it takes every `p × p`
factor and `p`-vector (`p ≥ 1`) to a full `p`-column factor with no error
signal (its C prototype returns `void`, unlike `chol_downdate`), and every
diagonal entry it writes is nonnegative, being either a hypotenuse
`hypot(L[i,i], u[i]) = sqrt(L[i,i]^2 + u[i]^2)` or the final
`sqrt(L[p-1,p-1]^2 + u[p-1]^2)`. -/
theorem claim_C10_chol_update_total (L : List (ℝ × List ℝ)) (u : List ℝ)
    (hL : L ≠ []) (hshape : trishape L) (hlen : u.length = L.length) :
    (chol_update Real.sqrt (fun a b => Real.sqrt (a ^ 2 + b ^ 2)) L u).length
        = L.length ∧
    ∀ dv ∈ (chol_update Real.sqrt (fun a b => Real.sqrt (a ^ 2 + b ^ 2)) L u).map
        Prod.fst, 0 ≤ dv := by
  have h := chol_update_shape Real.sqrt
    (fun a b => Real.sqrt (a ^ 2 + b ^ 2)) L u hshape hlen
  refine ⟨h.1, ?_⟩
  intro dv hdv
  rcases h.2 dv hdv with ⟨x, rfl⟩ | ⟨x, z, rfl⟩
  · exact Real.sqrt_nonneg x
  · exact Real.sqrt_nonneg _

/-- Witness for C10 at a concrete input: a `2 × 2` factor with a negative
diagonal entry is still mapped to a full factor with nonnegative diagonal. -/
theorem claim_C10_chol_update_total_witness :
    (([((1 : ℝ), [(2 : ℝ)]), ((-3 : ℝ), ([] : List ℝ))] : List (ℝ × List ℝ)) ≠ [] ∧
      trishape [((1 : ℝ), [(2 : ℝ)]), ((-3 : ℝ), ([] : List ℝ))] ∧
      ([(5 : ℝ), 7].length
        = [((1 : ℝ), [(2 : ℝ)]), ((-3 : ℝ), ([] : List ℝ))].length)) ∧
    ((chol_update Real.sqrt (fun a b => Real.sqrt (a ^ 2 + b ^ 2))
        [((1 : ℝ), [(2 : ℝ)]), ((-3 : ℝ), [])] [5, 7]).length
      = [((1 : ℝ), [(2 : ℝ)]), ((-3 : ℝ), ([] : List ℝ))].length ∧
     ∀ dv ∈ (chol_update Real.sqrt (fun a b => Real.sqrt (a ^ 2 + b ^ 2))
        [((1 : ℝ), [(2 : ℝ)]), ((-3 : ℝ), [])] [5, 7]).map Prod.fst, 0 ≤ dv) :=
  ⟨⟨by simp, by simp [trishape], by simp⟩,
   claim_C10_chol_update_total _ _ (by simp) (by simp [trishape]) (by simp)⟩

section Select

variable {K : Type} [LinearOrderedField K]

/-- Modelled from the spec: `select_k` (from partial_sort.c, whose source is
not part of this repository snapshot) "locates the m-th order statistic via a
partial-selection procedure"; after the call `x[m-1]` holds the m-th smallest
element, which `select_subset` reads as the threshold.  The embedding obtains
that order statistic as entry `m-1` of the sorted array. -/
def kthSmallest (xs : List K) (m : ℕ) : K :=
  (xs.mergeSort (fun a b => decide (a ≤ b))).getD (m - 1) 0

/-- Embedding of `select_subset` (wbacon_reg.c:436-449): the threshold is the
m-th smallest score, and observation `i` is marked as a member exactly when
`x[i] <= threshold`. -/
def select_subset (x : List K) (m n : ℕ) : List Bool :=
  (List.range n).map (fun i => decide (x.getD i 0 ≤ kthSmallest x m))

theorem map_getD_range (x : List K) :
    (List.range x.length).map (fun i => x.getD i 0) = x := by
  apply List.ext_getElem
  · simp
  · intro i h1 h2
    simp only [List.getElem_map, List.getElem_range]
    exact List.getD_eq_getElem x 0 h2

theorem count_true_select (x : List K) (m : ℕ) :
    (select_subset x m x.length).count true =
      x.countP (fun v => decide (v ≤ kthSmallest x m)) := by
  rw [select_subset, List.count, List.countP_map]
  have : ((fun b => b == true) ∘ fun i => decide (x.getD i 0 ≤ kthSmallest x m))
      = ((fun v => decide (v ≤ kthSmallest x m)) ∘ fun i => x.getD i 0) := by
    funext i
    simp
  rw [this, ← List.countP_map, map_getD_range]

end Select

/-- Claim C5: for every score array `x` of length `n` and target size `m` with
`1 ≤ m ≤ n`, the selector marks as members exactly the observations whose
score is `≤` the m-th smallest score (ties at the threshold included), so the
realized subset cardinality is at least `m`. -/
theorem claim_C5_select_subset (K : Type) [LinearOrderedField K]
    (x : List K) (m : ℕ) (h1 : 1 ≤ m) (h2 : m ≤ x.length) :
    (∀ i < x.length, (select_subset x m x.length).getD i false
        = decide (x.getD i 0 ≤ kthSmallest x m)) ∧
    m ≤ (select_subset x m x.length).count true := by
  constructor
  · intro i hi
    rw [select_subset, List.getD_eq_getElem _ _ (by simpa using hi)]
    simp
  · rw [count_true_select]
    set s := x.mergeSort (fun a b => decide (a ≤ b)) with hs
    have hperm : s.Perm x := List.mergeSort_perm x _
    have hslen : s.length = x.length := hperm.length_eq
    have hsorted : List.Pairwise (fun a b => decide (a ≤ b) = true) s :=
      @List.sorted_mergeSort K (fun a b => decide (a ≤ b))
        (by intro a b c hab hbc
            simp only [decide_eq_true_iff] at *
            exact le_trans hab hbc)
        (by intro a b
            simp only [Bool.or_eq_true, decide_eq_true_iff]
            exact le_total a b) x
    have hm1 : m - 1 < s.length := by omega
    have hthr : kthSmallest x m = s[m - 1] := by
      rw [kthSmallest, ← hs]
      exact List.getD_eq_getElem s 0 hm1
    rw [← hperm.countP_eq]
    have hsplit := List.take_append_drop m s
    calc m = (s.take m).length := by
              rw [List.length_take]; omega
      _ = (s.take m).countP (fun v => decide (v ≤ kthSmallest x m)) := by
              rw [eq_comm, List.countP_eq_length]
              intro a ha
              rcases List.mem_iff_getElem.mp ha with ⟨i, hilen, hieq⟩
              have hitake : i < m := by
                have := hilen; rw [List.length_take] at this; omega
              have his : i < s.length := by omega
              have hval : (s.take m)[i] = s[i] := List.getElem_take _
              rw [← hieq, hval, hthr]
              simp only [decide_eq_true_iff]
              rcases Nat.lt_or_ge i (m - 1) with hlt | hge
              · exact of_decide_eq_true
                  ((List.pairwise_iff_getElem.mp hsorted) i (m - 1) his hm1 hlt)
              · have hieq2 : i = m - 1 := by omega
                subst hieq2
                exact le_refl _
      _ ≤ s.countP (fun v => decide (v ≤ kthSmallest x m)) := by
              conv_rhs => rw [← hsplit]
              rw [List.countP_append]
              exact Nat.le_add_right _ _

/-- Witness for C5 at a concrete input: scores `[3, 1, 2, 1]` with `m = 2`
select exactly the two (tied) scores `≤ 1`, a subset of size `2 ≥ m`. -/
theorem claim_C5_select_subset_witness :
    ((1 : ℕ) ≤ 2 ∧ 2 ≤ ([(3 : ℚ), 1, 2, 1] : List ℚ).length) ∧
    ((∀ i < ([(3 : ℚ), 1, 2, 1] : List ℚ).length,
        (select_subset [(3 : ℚ), 1, 2, 1] 2 ([(3 : ℚ), 1, 2, 1] : List ℚ).length).getD i false
          = decide (([(3 : ℚ), 1, 2, 1] : List ℚ).getD i 0
              ≤ kthSmallest [(3 : ℚ), 1, 2, 1] 2)) ∧
      2 ≤ (select_subset [(3 : ℚ), 1, 2, 1] 2
            ([(3 : ℚ), 1, 2, 1] : List ℚ).length).count true) :=
  ⟨⟨by decide, by decide⟩, claim_C5_select_subset ℚ _ 2 (by decide) (by decide)⟩

/-- Embedding of the `regdata` struct: problem dimensions, the design matrix
`x` (list of `p` columns, each of length `n`, matching the column-major
`array[n, p]` layout), the response `y` and the weights `w`.  The derived
fields `wx`, `wy`, `w_sqrt` of the C struct are recomputed where used. -/
structure regdata (K : Type) where
  n : ℕ
  p : ℕ
  x : List (List K)
  y : List K
  w : List K

/-- Entry `x[i + j*n]` of the design matrix: row `i` of column `j`. -/
def xentry {K : Type} [LinearOrderedField K] (dat : regdata K) (i j : ℕ) : K :=
  (dat.x.getD j []).getD i 0

section Solve

variable {K : Type} [LinearOrderedField K]

/-- Forward substitution solving `L z = b` for a lower-triangular factor in
column representation; models the BLAS `dtrsm("L","L","N","N", ...)` call of
`cholesky_reg` (wbacon_reg.c:638), which by the BLAS contract overwrites the
right-hand side with the solution of the non-transposed triangular system. -/
def forwardSolve : List (K × List K) → List K → List K
  | [], _ => []
  | (d, below) :: rest, b =>
      (b.headD 0 / d) ::
        forwardSolve rest
          (List.zipWith (fun bi li => bi - b.headD 0 / d * li) b.tail below)

/-- Backward substitution solving `Lᵀ z = b`; models the
`dtrsm("L","L","T","N", ...)` call of `cholesky_reg` (wbacon_reg.c:641). -/
def backwardSolve : List (K × List K) → List K → List K
  | [], _ => []
  | (d, below) :: rest, b =>
      ((b.headD 0 - dotK below (backwardSolve rest b.tail)) / d) ::
        backwardSolve rest b.tail

/-- Embedding of `cholesky_reg` (wbacon_reg.c:630-642): the coefficient vector
solves the normal equations `L Lᵀ beta = xty` via two triangular solves — the
first `dtrsm` solves `L a = xty`, the second solves `Lᵀ beta = a`.  (The C
routine also receives the design matrix `x`, which its body does not use.) -/
def cholesky_reg (L : List (K × List K)) (xty : List K) : List K :=
  backwardSolve L (forwardSolve L xty)

/-- Inverse of a lower-triangular factor in column representation; models the
LAPACK `dtrtri("L","N", ...)` call of `hat_matrix` (wbacon_reg.c:661) by exact
forward substitution: column `j` of the inverse solves `L z = e_j`. -/
def trinv : List (K × List K) → List (K × List K)
  | [] => []
  | (d, below) :: rest =>
      (1 / d, forwardSolve rest (below.map (fun l => -(l / d)))) :: trinv rest

/-- Entry `(r, c)` of a lower-triangular factor in column representation. -/
def triEntry (L : List (K × List K)) (r c : ℕ) : K :=
  if r = c then (L.getD c (0, [])).1
  else if c < r then (L.getD c (0, [])).2.getD (r - c - 1) 0
  else 0

/-- Embedding of `hat_matrix` (wbacon_reg.c:651-687): invert the triangular
factor `L` (LAPACK `dtrtri`, which by its contract reports a nonzero `info`
exactly when a diagonal entry is zero — then the routine fails with
`WBACON_ERROR_TRIANG_MAT_SINGULAR`), multiply `x * L^{-T}` (`dtrmm`), and
return the weighted squared row norms `hat[i] = w[i] * sum_j (x L^{-T})[i,j]^2`. -/
def hat_matrix (dat : regdata K) (L : List (K × List K)) : Except Werr (List K) :=
  if (L.map Prod.fst).any (fun d => decide (d = 0)) then .error .triangMatSingular
  else
    .ok ((List.range dat.n).map (fun i =>
      dat.w.getD i 0 *
        ((List.range dat.p).map (fun j =>
          ((List.range dat.p).map (fun k =>
            xentry dat i k * triEntry (trinv L) j k)).sum ^ 2)).sum))

/-- Embedding of `compute_ti` (wbacon_reg.c:600-620), the discrepancy measure
of Billor et al. (2000, Eq. 6): the hat diagonal is computed by `hat_matrix`
(propagating its failure), and the branchless score is
`t[i] = |resid[i]| / (sigma * sqrt(1 + (1 - 2*subset[i]) * hat[i]))`.
The robust scale `sigma` is supplied from outside (modelled from the spec:
`est->sigma` is maintained by an external robust-scale estimator and must be
valid for the current subset). -/
def compute_ti (sq : K → K) (dat : regdata K) (L : List (K × List K))
    (subset : List Bool) (resid : List K) (sigma : K) : Except Werr (List K) :=
  match hat_matrix dat L with
  | .error e => .error e
  | .ok hat => .ok ((List.range dat.n).map (fun i =>
      |resid.getD i 0| /
        (sigma * sq (1 + (1 - 2 * (if subset.getD i false then (1 : K) else 0))
          * hat.getD i 0))))

end Solve

section Fitwls

variable {K : Type} [LinearOrderedField K]
variable (sq : K → K)

/-- Machine epsilon of IEEE double precision, `DBL_EPSILON = 2^-52` (float.h),
whose square root is the rank-detection threshold of `fitwls`. -/
def dblEpsilon (K : Type) [LinearOrderedField K] : K := ((2 : K) ^ (52 : ℕ))⁻¹

/-- Cholesky factorization of a `q × q` Gram matrix by the outer-product
recursion (column representation).  Modelled from the spec: LAPACK `dgels`
factors the scaled design matrix by a QR decomposition (`dgeqrf`) whose
triangular factor `R` satisfies `RᵀR = wxᵀwx`, so the magnitudes of its
diagonal — the only thing the rank check of `fitwls` inspects — coincide with
the diagonal of the Cholesky factor of the Gram matrix computed here. -/
def cholOfGram : (q : ℕ) → (ℕ → ℕ → K) → List (K × List K)
  | 0, _ => []
  | q + 1, A =>
      (sq (A 0 0), (List.range q).map (fun i => A (i + 1) 0 / sq (A 0 0))) ::
        cholOfGram q (fun i j =>
          A (i + 1) (j + 1) - A (i + 1) 0 / sq (A 0 0) * (A (j + 1) 0 / sq (A 0 0)))

/-- Result of `fitwls`: the returned error flag (`info`), the coefficient and
residual buffers (written only on success), and the triangular factor left in
the `wx` buffer by the QR factorization (always written, read back by
`initial_reg` and `algorithm_5` as the lower-triangular `L`). -/
structure fitwlsResult (K : Type) where
  info : Bool
  beta : List K
  resid : List K
  R : List (K × List K)

/-- Embedding of `fitwls` (fitwls.c:38-89), solve path (`lwork ≥ 0`): scale
the design matrix and response by the square roots of the weights, solve the
weighted least-squares problem (LAPACK `dgels`, modelled from the spec as the
exact least-squares solution, i.e. the solution of the normal equations
`RᵀR beta = wxᵀwy` through two exact triangular solves against the Cholesky
factor of the Gram matrix), then check the diagonal of the triangular factor:
if any `|R[i,i]| < sqrt(DBL_EPSILON)` the routine returns `1` *before* the
coefficient and residual buffers are written, otherwise it writes the
coefficients and the residuals `y - x*beta` (unweighted units) and returns
`0`.  The driver passes the per-observation effective weight; a zero weight
excludes the observation. -/
def fitwls (dat : regdata K) (weight : List K) (beta resid : List K) :
    fitwlsResult K :=
  let wx := dat.x.map (fun col =>
    (List.range dat.n).map (fun i => sq (weight.getD i 0) * col.getD i 0))
  let R := cholOfGram sq dat.p (fun i j => dotK (wx.getD i []) (wx.getD j []))
  if (List.range dat.p).any
      (fun i => decide (|(R.getD i (0, [])).1| < sq (dblEpsilon K))) then
    { info := true, beta := beta, resid := resid, R := R }
  else
    let wy := (List.range dat.n).map
      (fun i => sq (weight.getD i 0) * dat.y.getD i 0)
    let betaN := cholesky_reg R ((List.range dat.p).map
      (fun j => dotK (wx.getD j []) wy))
    { info := false, beta := betaN,
      resid := (List.range dat.n).map (fun i =>
        dat.y.getD i 0 - ((List.range dat.p).map
          (fun j => xentry dat i j * betaN.getD j 0)).sum),
      R := R }

end Fitwls

/-- Claim C6: after the QR-based weighted solve, `fitwls` signals rank
deficiency (nonzero return) exactly when some diagonal entry `R[i,i]` of the
triangular factor satisfies `|R[i,i]| < sqrt(DBL_EPSILON)`; in that case it
abandons the result and leaves the coefficient and residual output buffers
unmodified. -/
theorem claim_C6_fitwls (K : Type) [LinearOrderedField K] (sq : K → K)
    (dat : regdata K) (weight beta resid : List K) :
    ((fitwls sq dat weight beta resid).info = true ↔
      ∃ i < dat.p,
        |((fitwls sq dat weight beta resid).R.getD i (0, [])).1|
          < sq (dblEpsilon K)) ∧
    ((fitwls sq dat weight beta resid).info = true →
      (fitwls sq dat weight beta resid).beta = beta ∧
      (fitwls sq dat weight beta resid).resid = resid) := by
  rw [fitwls]
  split
  · next hany =>
    simp only [List.any_eq_true, List.mem_range, decide_eq_true_iff] at hany
    exact ⟨⟨fun _ => hany, fun _ => rfl⟩, fun _ => ⟨rfl, rfl⟩⟩
  · next hany =>
    simp only [List.any_eq_true, List.mem_range, decide_eq_true_iff] at hany
    refine ⟨⟨fun h => absurd h (by simp), fun h => absurd h hany⟩, ?_⟩
    intro h
    exact absurd h (by simp)

/-- Claim C1: the discrepancy score of observation `i` equals
`|resid_i| / (sigma * sqrt(1 + h_i))` when `i` is outside the current subset
and `|resid_i| / (sigma * sqrt(1 - h_i))` when inside, where `h_i` is the
weighted hat diagonal produced by `hat_matrix`: the sign applied to `h_i` is
`+1` exactly outside and `-1` exactly inside the subset. -/
theorem claim_C1_compute_ti (K : Type) [LinearOrderedField K] (sq : K → K)
    (dat : regdata K) (L : List (K × List K)) (subset : List Bool)
    (resid : List K) (sigma : K) (hat tis : List K)
    (hhat : hat_matrix dat L = .ok hat)
    (hti : compute_ti sq dat L subset resid sigma = .ok tis) :
    ∀ i < dat.n,
      (subset.getD i false = false →
        tis.getD i 0 = |resid.getD i 0| / (sigma * sq (1 + hat.getD i 0))) ∧
      (subset.getD i false = true →
        tis.getD i 0 = |resid.getD i 0| / (sigma * sq (1 - hat.getD i 0))) := by
  rw [compute_ti, hhat] at hti
  have htis : tis = (List.range dat.n).map (fun i =>
      |resid.getD i 0| /
        (sigma * sq (1 + (1 - 2 * (if subset.getD i false then (1 : K) else 0))
          * hat.getD i 0))) := (Except.ok.inj hti).symm
  intro i hi
  have hval : tis.getD i 0 = |resid.getD i 0| /
      (sigma * sq (1 + (1 - 2 * (if subset.getD i false then (1 : K) else 0))
        * hat.getD i 0)) := by
    rw [htis, List.getD_eq_getElem _ _ (by simpa using hi)]
    simp
  constructor
  · intro hout
    rw [hval, hout]
    norm_num
  · intro hin
    rw [hval, hin]
    have harg : 1 + (1 - 2 * (1 : K)) * hat.getD i 0 = 1 - hat.getD i 0 := by
      ring
    simp only [if_true, harg]

/-- Witness for C1 at a concrete input: one observation (`n = p = 1`), design
entry `1`, weight `1`, factor `L = [1]`, residual `2`, `sigma = 1`, subset
`[false]`: the hat value is `1` and the score is `2 / sqrt(1 + 1)` (with the
square root modelled by the identity on the rational test values). -/
theorem claim_C1_compute_ti_witness :
    (hat_matrix ⟨1, 1, [[(1 : ℚ)]], [0], [1]⟩ [((1 : ℚ), [])] = .ok [1] ∧
     compute_ti (fun q : ℚ => q) ⟨1, 1, [[(1 : ℚ)]], [0], [1]⟩ [((1 : ℚ), [])]
        [false] [2] 1 = .ok [1]) ∧
    ∀ i < (1 : ℕ),
      (([false] : List Bool).getD i false = false →
        ([(1 : ℚ)] : List ℚ).getD i 0 =
          |([(2 : ℚ)] : List ℚ).getD i 0| /
            (1 * (fun q : ℚ => q) (1 + ([(1 : ℚ)] : List ℚ).getD i 0))) ∧
      (([false] : List Bool).getD i false = true →
        ([(1 : ℚ)] : List ℚ).getD i 0 =
          |([(2 : ℚ)] : List ℚ).getD i 0| /
            (1 * (fun q : ℚ => q) (1 - ([(1 : ℚ)] : List ℚ).getD i 0))) :=
  ⟨⟨by norm_num [hat_matrix, trinv, forwardSolve, triEntry, xentry, List.range_succ],
    by norm_num [compute_ti, hat_matrix, trinv, forwardSolve, triEntry, xentry,
      List.range_succ]⟩,
   claim_C1_compute_ti ℚ (fun q => q) ⟨1, 1, [[(1 : ℚ)]], [0], [1]⟩
     [((1 : ℚ), [])] [false] [2] 1 [1] [1]
     (by norm_num [hat_matrix, trinv, forwardSolve, triEntry, xentry, List.range_succ])
     (by norm_num [compute_ti, hat_matrix, trinv, forwardSolve, triEntry, xentry,
       List.range_succ])⟩

section UpdateCholXty

variable {K : Type} [LinearOrderedField K]
variable (sq : K → K) (hyp : K → K → K)

/-- Rank-one vector of observation `i`, `xtx_update[j] = x[i + j*n] * sqrt(w[i])`
(wbacon_reg.c:485 and 505). -/
def xtx_update (dat : regdata K) (i : ℕ) : List K :=
  (List.range dat.p).map (fun j => xentry dat i j * sq (dat.w.getD i 0))

/-- One iteration of the first pass of `update_chol_xty` (wbacon_reg.c:481-497):
an observation entering the subset (`subset1[i] > subset0[i]`) contributes a
rank-one Cholesky update and adds `x[i+j*n] * y[i] * w[i]` to `xty`; an
observation leaving the subset (`subset1[i] < subset0[i]`) is pushed onto the
downdate stack (which physically is a prefix of the shared index work array
`work->iarray`). -/
def ucx_pass1_step (dat : regdata K) (subset0 subset1 : List Bool)
    (st : List (K × List K) × List K × List ℕ) (i : ℕ) :
    List (K × List K) × List K × List ℕ :=
  if subset1.getD i false && ! subset0.getD i false then
    (chol_update sq hyp st.1 (xtx_update sq dat i),
     (List.range dat.p).map (fun j =>
        st.2.1.getD j 0 + xentry dat i j * dat.y.getD i 0 * dat.w.getD i 0),
     st.2.2)
  else if subset0.getD i false && ! subset1.getD i false then
    (st.1, st.2.1, st.2.2 ++ [i])
  else st

/-- Second pass of `update_chol_xty` (wbacon_reg.c:499-517): the stacked
downdates are applied in order, each subtracting the observation from `xty`
and downdating the factor; the first failing downdate aborts the pass. -/
def ucx_pass2 (dat : regdata K) :
    List ℕ → List (K × List K) → List K → Except Werr (List (K × List K) × List K)
  | [], L, xty => .ok (L, xty)
  | i :: rest, L, xty =>
      match chol_downdate sq L (xtx_update sq dat i) with
      | .ok L' => ucx_pass2 dat rest L'
          ((List.range dat.p).map (fun j =>
            xty.getD j 0 - xentry dat i j * dat.y.getD i 0 * dat.w.getD i 0))
      | .error e => .error e

/-- Embedding of `update_chol_xty` (wbacon_reg.c:462-522): snapshot `L` and
`xty`, run the update pass then the downdate pass; if a downdate fails,
restore the snapshots and propagate the error.  The returned index list is
the content of the shared work array `work->iarray` after the call: the
downdate stack overwrites its prefix (the C routine uses `work->iarray` as
the stack), the rest keeps its previous content. -/
def update_chol_xty (dat : regdata K) (subset0 subset1 : List Bool)
    (L : List (K × List K)) (xty : List K) (iarray : List ℕ) :
    Werr × List (K × List K) × List K × List ℕ :=
  let p1 := (List.range dat.n).foldl
    (ucx_pass1_step sq hyp dat subset0 subset1) (L, xty, [])
  let iarray' := p1.2.2 ++ iarray.drop p1.2.2.length
  match ucx_pass2 sq dat p1.2.2 p1.1 p1.2.1 with
  | .ok (L2, xty2) => (.ok, L2, xty2, iarray')
  | .error e => (e, L, xty, iarray')

theorem ucx_pass2_error_rankDeficient (dat : regdata K) :
    ∀ (stack : List ℕ) (L : List (K × List K)) (xty : List K) (e : Werr),
      ucx_pass2 sq dat stack L xty = .error e → e = .rankDeficient := by
  intro stack
  induction stack with
  | nil => intro L xty e h; simp [ucx_pass2] at h
  | cons i rest ih =>
    intro L xty e h
    simp only [ucx_pass2] at h
    split at h
    · exact ih _ _ _ h
    · next heq =>
      exact (Except.error.inj h) ▸ chol_downdate_error_rankDeficient sq _ _ _ heq

end UpdateCholXty

/-- Driver state threading the buffers owned by `wbacon_reg`: the factor `L`
and cross-product vector `xty` (struct `estimate`), the coefficient, residual
and discrepancy buffers, the two subset arrays, the current subset size `m`,
and the shared index work array `work->iarray`. -/
structure Wstate (K : Type) where
  L : List (K × List K)
  xty : List K
  beta : List K
  resid : List K
  dist : List K
  subset0 : List Bool
  subset1 : List Bool
  m : ℕ
  iarray : List ℕ

section Driver

variable {K : Type} [LinearOrderedField K]
variable (sq : K → K) (hyp : K → K → K)
variable (qtL : K → K → K)
variable (sigmaOf : List Bool → List K → K)

/-- Effective weight handed to `fitwls` by the driver: observation `i` keeps
its weight `w[i]` when in the subset and gets weight `0` otherwise.  Modelled
from the spec (§4.1: a zero effective weight excludes an observation from the
fit); the fitwls.h prototype that lets the driver pass the subset directly is
not part of the repository snapshot. -/
def effweight (subset : List Bool) (w : List K) : List K :=
  List.zipWith (fun s wi => if s then wi else 0) subset w

/-- Modelled from the spec: `psort_array` (partial_sort.c, not part of this
repository snapshot) sorts the discrepancies in ascending order and records
the sorting permutation in `iarray`, so `iarray[k]` is the index of the
`(k+1)`-th smallest discrepancy. -/
def argsortAsc (dist : List K) : List ℕ :=
  (List.range dist.length).mergeSort
    (fun i j => decide (dist.getD i 0 ≤ dist.getD j 0))

/-- Recovery loop of `initial_reg` (wbacon_reg.c:228-240): while `m < n`, add
the observation with the next-smallest initial discrepancy (`iarray[m-1]`
after the `psort_array` call) to the subset and refit, until `fitwls` reports
full rank or all `n` observations are included.  Returns the state, the last
`fitwls` result (whose factor the caller extracts) and the loop status —
which the caller then overwrites (see `initial_reg`). -/
def initial_grow (dat : regdata K) :
    ℕ → Wstate K → fitwlsResult K → Wstate K × fitwlsResult K × Werr
  | 0, st, f => (st, f, .rankDeficient)
  | fuel + 1, st, f =>
      if st.m < dat.n then
        let m' := st.m + 1
        let s0' := st.subset0.set (st.iarray.getD (m' - 1) 0) true
        let f' := fitwls sq dat (effweight s0' dat.w) st.beta st.resid
        let st' := { st with
          m := m'
          subset0 := s0'
          beta := f'.beta
          resid := f'.resid }
        if f'.info = false then (st', f', .ok)
        else initial_grow dat fuel st' f'
      else (st, f, .rankDeficient)

/-- Embedding of `initial_reg` (wbacon_reg.c:203-261): fit on the seed subset;
on rank deficiency sort the discrepancies and grow the subset one observation
at a time; then extract the triangular factor `L` from the (possibly failed)
fit, accumulate the weighted cross products `xty` over the subset, and compute
the discrepancies.  Note the returned status is the `compute_ti` status — the
C code assigns `status = compute_ti(...)` last (wbacon_reg.c:258), overwriting
any rank-deficiency status the growth loop left. -/
def initial_reg (dat : regdata K) (st : Wstate K) : Werr × Wstate K :=
  let f := fitwls sq dat (effweight st.subset0 dat.w) st.beta st.resid
  let st1 := { st with beta := f.beta, resid := f.resid }
  let grown :=
    if f.info then
      initial_grow sq dat (dat.n - st1.m)
        { st1 with iarray := argsortAsc st1.dist } f
    else (st1, f, .ok)
  let st2 := grown.1
  let xty := (List.range dat.p).map (fun i =>
    ((List.range dat.n).map (fun j =>
      if st2.subset0.getD j false then
        dat.w.getD j 0 * xentry dat j i * dat.y.getD j 0
      else 0)).sum)
  let st3 := { st2 with L := grown.2.1.R, xty := xty }
  match compute_ti sq dat st3.L st3.subset0 st3.resid
      (sigmaOf st3.subset0 st3.resid) with
  | .error e => (e, st3)
  | .ok tis => (.ok, { st3 with dist := tis })

/-- Recovery loop of `algorithm_4` (wbacon_reg.c:296-312): after a failed
Cholesky transition, repeatedly increment `m`, set `subset1[iarray[m-1]] = 1`
and retry `update_chol_xty`; break on success, and return the error when `m`
reaches the growth ceiling `p * collect`.  Note `iarray` here is the shared
work array whose prefix `update_chol_xty` has just overwritten with its
downdate stack. -/
def alg4_recover (dat : regdata K) (collect : ℕ) :
    ℕ → Werr → Wstate K → Werr × Wstate K
  | 0, err, st => (err, st)
  | fuel + 1, _, st =>
      let m' := st.m + 1
      let s1' := st.subset1.set (st.iarray.getD (m' - 1) 0) true
      let upd := update_chol_xty sq hyp dat st.subset0 s1' st.L st.xty st.iarray
      let st' := { st with
        m := m'
        subset1 := s1'
        L := upd.2.1
        xty := upd.2.2.1
        iarray := upd.2.2.2 }
      if upd.1 = .ok then (.ok, st')
      else if st'.m = dat.p * collect then (upd.1, st')
      else alg4_recover dat collect fuel upd.1 st'

/-- Embedding of `algorithm_4` (wbacon_reg.c:275-342), the subset-growth
phase: transition the factor to the candidate subset (recovering from failures
via `alg4_recover`), adopt the candidate (`subset0 := subset1`), solve for the
coefficients by two triangular solves against the updated factor, recompute
residuals and discrepancies, increment the target size and reselect the
smallest-discrepancy observations, until `m` reaches `p * collect + 1`. -/
def algorithm_4 (dat : regdata K) (collect : ℕ) :
    ℕ → Wstate K → Werr × Wstate K
  | 0, st => (.ok, st)
  | fuel + 1, st =>
      let upd := update_chol_xty sq hyp dat st.subset0 st.subset1 st.L st.xty
        st.iarray
      let stA := { st with L := upd.2.1, xty := upd.2.2.1, iarray := upd.2.2.2 }
      let rec1 :=
        if upd.1 = .ok then (.ok, stA)
        else alg4_recover sq hyp dat collect (dat.p * collect - stA.m) upd.1 stA
      if rec1.1 ≠ .ok then rec1
      else
        let stB := { rec1.2 with subset0 := rec1.2.subset1 }
        let beta := cholesky_reg stB.L stB.xty
        let resid := (List.range dat.n).map (fun i =>
          dat.y.getD i 0 - ((List.range dat.p).map
            (fun j => xentry dat i j * beta.getD j 0)).sum)
        let stC := { stB with beta := beta, resid := resid }
        match compute_ti sq dat stC.L stC.subset1 stC.resid
            (sigmaOf stC.subset1 stC.resid) with
        | .error e => (e, stC)
        | .ok tis =>
            let stD := { stC with dist := tis, m := stC.m + 1 }
            if stD.m = dat.p * collect + 1 then (.ok, stD)
            else
              algorithm_4 dat collect fuel
                { stD with subset1 := select_subset stD.dist stD.m dat.n }

/-- Embedding of `algorithm_5` (wbacon_reg.c:358-427), the refinement phase.
Each iteration refits from scratch on the current subset (propagating a rank
failure), extracts `L`, recomputes the discrepancies, computes the cutoff
`qt(alpha / (2*(m+1)), m - p, lower_tail = 0)` — i.e. the
`1 - alpha/(2*(m+1))` lower-tail quantile of the Student-t distribution with
`m - p` degrees of freedom, obtained from the external Rmath quantile oracle
`qtL` — forms the next subset as the observations with discrepancy strictly
below the cutoff, and returns CONVERGED with the current iteration count when
the new subset is bit-identical to the current one.  The `fuel` argument
models the remaining `maxiter - iter + 1` allowed iterations; when it reaches
`0` the C loop exits with `WBACON_ERROR_CONVERGENCE_FAILURE` and leaves
`*maxiter` (returned here as `iter - 1`) untouched. -/
def algorithm_5 (dat : regdata K) (alpha : K) :
    ℕ → ℕ → Wstate K → Werr × ℕ × Wstate K
  | 0, iter, st => (.convergenceFailure, iter - 1, st)
  | fuel + 1, iter, st =>
      let f := fitwls sq dat (effweight st.subset0 dat.w) st.beta st.resid
      if f.info then (.rankDeficient, iter, st)
      else
        let st1 := { st with beta := f.beta, resid := f.resid, L := f.R }
        match compute_ti sq dat st1.L st1.subset0 st1.resid
            (sigmaOf st1.subset0 st1.resid) with
        | .error e => (e, iter, st1)
        | .ok tis =>
            let st2 := { st1 with dist := tis }
            let cutoff := qtL (1 - alpha / (2 * ((st2.m : K) + 1)))
              ((st2.m : K) - (dat.p : K))
            let s1 := (List.range dat.n).map
              (fun i => decide (st2.dist.getD i 0 < cutoff))
            let st3 := { st2 with subset1 := s1, m := s1.count true }
            if st3.subset0 = st3.subset1 then (.ok, iter, st3)
            else algorithm_5 dat alpha fuel (iter + 1)
              { st3 with subset0 := st3.subset1 }

/-- Outputs of `wbacon_reg`: the caller-owned buffers as left on return, the
success flag, and the realized iteration count (`*maxiter`, which the C code
updates only on convergence). -/
structure WbaconOut (K : Type) where
  beta : List K
  resid : List K
  subset : List Bool
  dist : List K
  m : ℕ
  success : Bool
  iter : ℕ

/-- Steps 0 and 1 of `wbacon_reg` (wbacon_reg.c:86-190): initialize the state
(`subset1` and `iarray` are `Calloc`ed to zero), run `initial_reg`, then
select the `p + 1` smallest discrepancies and run `algorithm_4`.  Returns the
phase error and the state reached. -/
def wbacon_steps01 (dat : regdata K) (subset0 : List Bool) (dist0 : List K)
    (beta0 resid0 : List K) (m0 collect : ℕ) : Werr × Wstate K :=
  let st0 : Wstate K :=
    { L := List.replicate dat.p ((0 : K), []), xty := List.replicate dat.p 0,
      beta := beta0, resid := resid0, dist := dist0, subset0 := subset0,
      subset1 := List.replicate dat.n false, m := m0,
      iarray := List.replicate dat.n 0 }
  let r0 := initial_reg sq sigmaOf dat st0
  if r0.1 ≠ .ok then r0
  else
    let st2 := { r0.2 with
      m := dat.p + 1
      subset1 := select_subset r0.2.dist (dat.p + 1) dat.n }
    algorithm_4 sq hyp sigmaOf dat collect (dat.p * collect + 2) st2

/-- Embedding of `wbacon_reg` (wbacon_reg.c:86-190): run steps 0 and 1; on
failure return with `success = 0` and the buffers as the failing phase left
them.  Otherwise run `algorithm_5` — the C call swaps the two subset arrays
(`algorithm_5(dat, work, est, subset1, subset0, ...)`), so the caller-visible
subset buffer is `algorithm_5`'s candidate array `subset1` — and report
`success` exactly when it converged, with the buffers as last written. -/
def wbacon_reg (dat : regdata K) (subset0 : List Bool) (dist0 : List K)
    (beta0 resid0 : List K) (m0 collect : ℕ) (alpha : K) (maxiter : ℕ) :
    WbaconOut K :=
  let r01 := wbacon_steps01 sq hyp sigmaOf dat subset0 dist0 beta0 resid0 m0
    collect
  if r01.1 ≠ .ok then
    ⟨r01.2.beta, r01.2.resid, r01.2.subset0, r01.2.dist, r01.2.m, false,
      maxiter⟩
  else
    let st4 := { r01.2 with
      subset0 := r01.2.subset1
      subset1 := r01.2.subset0 }
    let r5 := algorithm_5 sq qtL sigmaOf dat alpha maxiter 1 st4
    ⟨r5.2.2.beta, r5.2.2.resid, r5.2.2.subset1, r5.2.2.dist, r5.2.2.m,
      decide (r5.1 = .ok), if r5.1 = .ok then r5.2.1 else maxiter⟩

end Driver

/-- Claim C3: whenever the subset transition of `update_chol_xty` hits a
failing rank-one downdate, the routine returns with the factor `L` and the
cross-product vector `xty` exactly equal to their values at entry (the
snapshots taken before the passes are restored) and propagates RankDeficient
to the caller. -/
theorem claim_C3_update_chol_xty (K : Type) [LinearOrderedField K]
    (sq : K → K) (hyp : K → K → K) (dat : regdata K)
    (subset0 subset1 : List Bool) (L : List (K × List K)) (xty : List K)
    (iarray : List ℕ) (e : Werr) (L' : List (K × List K)) (xty' : List K)
    (iarray' : List ℕ)
    (hrun : update_chol_xty sq hyp dat subset0 subset1 L xty iarray
      = (e, L', xty', iarray'))
    (hfail : e ≠ .ok) :
    e = .rankDeficient ∧ L' = L ∧ xty' = xty := by
  rw [update_chol_xty] at hrun
  split at hrun
  · next heq =>
    have he : Werr.ok = e := congrArg Prod.fst hrun
    exact absurd he.symm hfail
  · next e0 heq =>
    have h1 : e0 = e := congrArg Prod.fst hrun
    have h2 : L = L' := congrArg (fun t => t.2.1) hrun
    have h3 : xty = xty' := congrArg (fun t => t.2.2.1) hrun
    refine ⟨?_, h2.symm, h3.symm⟩
    rw [← h1]
    exact ucx_pass2_error_rankDeficient sq dat _ _ _ _ heq

/-- Witness for C3 at a concrete input (`n = 2`, `p = 1`, square root
modelled by the identity on the rational test values): moving from subset
`{0}` to subset `{1}` first updates the factor `1` to `1 + (3/4)^2 = 25/16`
and then downdates by observation 0 with `u = 2`, which fails since
`(25/16)^2 - 4 < 0`; the routine returns RankDeficient with `L` and `xty`
restored to their entry values. -/
theorem claim_C3_update_chol_xty_witness :
    (update_chol_xty (fun q : ℚ => q) (fun a b : ℚ => a + b)
        ⟨2, 1, [[2, 3 / 4]], [0, 0], [1, 1]⟩
        [true, false] [false, true] [((1 : ℚ), [])] [5] [9, 9]
      = (.rankDeficient, [((1 : ℚ), [])], [5], [0, 9]) ∧
      (Werr.rankDeficient ≠ Werr.ok)) ∧
    (Werr.rankDeficient = Werr.rankDeficient ∧
      ([((1 : ℚ), [])] : List (ℚ × List ℚ)) = [((1 : ℚ), [])] ∧
      ([(5 : ℚ)] : List ℚ) = [5]) :=
  ⟨⟨by norm_num [update_chol_xty, ucx_pass1_step, ucx_pass2, xtx_update,
      chol_update, chol_downdate, xentry, List.range_succ],
    by decide⟩,
   claim_C3_update_chol_xty ℚ (fun q => q) (fun a b => a + b)
     ⟨2, 1, [[2, 3 / 4]], [0, 0], [1, 1]⟩
     [true, false] [false, true] [((1 : ℚ), [])] [5] [9, 9]
     .rankDeficient [((1 : ℚ), [])] [5] [0, 9]
     (by norm_num [update_chol_xty, ucx_pass1_step, ucx_pass2, xtx_update,
       chol_update, chol_downdate, xentry, List.range_succ])
     (by decide)⟩

section Alg5Proofs

variable {K : Type} [LinearOrderedField K]
variable (sq : K → K) (qtL : K → K → K) (sigmaOf : List Bool → List K → K)

theorem hat_matrix_error (dat : regdata K) (L : List (K × List K)) (e : Werr)
    (h : hat_matrix dat L = .error e) : e = .triangMatSingular := by
  rw [hat_matrix] at h
  split at h
  · exact (Except.error.inj h).symm
  · exact absurd h (by simp)

theorem compute_ti_error (dat : regdata K) (L : List (K × List K))
    (subset : List Bool) (resid : List K) (sigma : K) (e : Werr)
    (h : compute_ti sq dat L subset resid sigma = .error e) :
    e = .triangMatSingular := by
  rw [compute_ti] at h
  split at h
  · next e' heq =>
    exact (Except.error.inj h) ▸ hat_matrix_error dat L e' heq
  · exact absurd h (by simp)

theorem alg5_iter_ge (dat : regdata K) (alpha : K) :
    ∀ (fuel iter : ℕ) (st : Wstate K) (e : Werr) (k : ℕ) (st' : Wstate K),
      algorithm_5 sq qtL sigmaOf dat alpha fuel iter st = (e, k, st') →
      e = .ok → iter ≤ k := by
  intro fuel
  induction fuel with
  | zero =>
    intro iter st e k st' h hok
    simp only [algorithm_5] at h
    have : Werr.convergenceFailure = e := congrArg Prod.fst h
    rw [← this] at hok
    exact absurd hok (by simp)
  | succ fuel ih =>
    intro iter st e k st' h hok
    simp only [algorithm_5] at h
    split at h
    · have : Werr.rankDeficient = e := congrArg Prod.fst h
      rw [← this] at hok
      exact absurd hok (by simp)
    · split at h
      · next e' heq =>
        have h1 : e' = Werr.triangMatSingular := compute_ti_error sq dat _ _ _ _ _ heq
        have h2 : e' = e := congrArg Prod.fst h
        rw [h2, hok] at h1
        exact absurd h1 (by simp)
      · next tis heq =>
        split at h
        · have hk : iter = k := congrArg (fun t => t.2.1) h
          omega
        · have := ih (iter + 1) _ e k st' h hok
          omega

end Alg5Proofs

/-- Claim C2: in each refinement iteration of `algorithm_5` the cutoff is the
`1 - alpha/(2*(m+1))` lower-tail Student-t quantile with `m - p` degrees of
freedom (the C call `qt(alpha/(2*(m+1)), m - p, lower_tail = 0, 0)` on the
external Rmath quantile oracle), the next candidate subset consists exactly of
the observations whose discrepancy is strictly below that cutoff, and the
phase transitions to CONVERGED — returning `WBACON_ERROR_OK` and recording
the current iteration count — precisely when that candidate subset is
bit-identical to the current subset. -/
theorem claim_C2_algorithm_5 (K : Type) [LinearOrderedField K] (sq : K → K)
    (qtL : K → K → K) (sigmaOf : List Bool → List K → K) (dat : regdata K)
    (alpha : K) (fuel iter : ℕ) (st : Wstate K) (tis : List K)
    (hinfo : (fitwls sq dat (effweight st.subset0 dat.w) st.beta st.resid).info
      = false)
    (hti : compute_ti sq dat
      (fitwls sq dat (effweight st.subset0 dat.w) st.beta st.resid).R
      st.subset0
      (fitwls sq dat (effweight st.subset0 dat.w) st.beta st.resid).resid
      (sigmaOf st.subset0
        (fitwls sq dat (effweight st.subset0 dat.w) st.beta st.resid).resid)
      = .ok tis) :
    (∀ i < dat.n,
      (((List.range dat.n).map (fun i => decide (tis.getD i 0 <
          qtL (1 - alpha / (2 * ((st.m : K) + 1)))
            ((st.m : K) - (dat.p : K))))).getD i false = true
        ↔ tis.getD i 0 < qtL (1 - alpha / (2 * ((st.m : K) + 1)))
            ((st.m : K) - (dat.p : K)))) ∧
    ((∃ st', algorithm_5 sq qtL sigmaOf dat alpha (fuel + 1) iter st
        = (.ok, iter, st'))
      ↔ (List.range dat.n).map (fun i => decide (tis.getD i 0 <
          qtL (1 - alpha / (2 * ((st.m : K) + 1)))
            ((st.m : K) - (dat.p : K)))) = st.subset0) ∧
    (∀ st', algorithm_5 sq qtL sigmaOf dat alpha (fuel + 1) iter st
        = (.ok, iter, st') →
      st'.subset1 = (List.range dat.n).map (fun i => decide (tis.getD i 0 <
          qtL (1 - alpha / (2 * ((st.m : K) + 1)))
            ((st.m : K) - (dat.p : K)))) ∧
      st'.m = ((List.range dat.n).map (fun i => decide (tis.getD i 0 <
          qtL (1 - alpha / (2 * ((st.m : K) + 1)))
            ((st.m : K) - (dat.p : K))))).count true) := by
  refine ⟨?_, ?_, ?_⟩
  · intro i hi
    rw [List.getD_eq_getElem _ _ (by simpa using hi)]
    simp
  · constructor
    · rintro ⟨st', hrun⟩
      simp only [algorithm_5, hinfo, Bool.false_eq_true, if_false, hti] at hrun
      split at hrun
      · next hconv => exact hconv.symm
      · exact absurd (alg5_iter_ge sq qtL sigmaOf dat alpha fuel (iter + 1) _
          _ _ _ hrun rfl) (by omega)
    · intro hconv
      exact ⟨_, by
        simp only [algorithm_5, hinfo, Bool.false_eq_true, if_false, hti]
        rw [if_pos hconv.symm]⟩
  · intro st' hrun
    simp only [algorithm_5, hinfo, Bool.false_eq_true, if_false, hti] at hrun
    split at hrun
    · next hconv =>
      have hst : _ = st' := congrArg (fun t => t.2.2) hrun
      rw [← hst]
      exact ⟨rfl, rfl⟩
    · exact absurd (alg5_iter_ge sq qtL sigmaOf dat alpha fuel (iter + 1) _
        _ _ _ hrun rfl) (by omega)

/-- Witness for C2 at a concrete input (`n = 2`, `p = 1`, unit weights, zero
response, quantile oracle constantly `1`): the fit succeeds, both scores are
`0 < 1`, the candidate subset `[true, true]` is bit-identical to the current
one, and the refinement converges at iteration `1`. -/
theorem claim_C2_algorithm_5_witness :
    ((fitwls (fun q : ℚ => q) ⟨2, 1, [[1, 1]], [0, 0], [1, 1]⟩
        (effweight [true, true] [1, 1]) [7] [7, 7]).info = false ∧
      compute_ti (fun q : ℚ => q) ⟨2, 1, [[1, 1]], [0, 0], [1, 1]⟩
        (fitwls (fun q : ℚ => q) ⟨2, 1, [[1, 1]], [0, 0], [1, 1]⟩
          (effweight [true, true] [1, 1]) [7] [7, 7]).R
        [true, true]
        (fitwls (fun q : ℚ => q) ⟨2, 1, [[1, 1]], [0, 0], [1, 1]⟩
          (effweight [true, true] [1, 1]) [7] [7, 7]).resid
        ((fun _ _ => 1) [true, true]
          (fitwls (fun q : ℚ => q) ⟨2, 1, [[1, 1]], [0, 0], [1, 1]⟩
            (effweight [true, true] [1, 1]) [7] [7, 7]).resid)
        = .ok [0, 0]) ∧
    (∃ st', algorithm_5 (fun q : ℚ => q) (fun _ _ => 1) (fun _ _ => 1)
        ⟨2, 1, [[1, 1]], [0, 0], [1, 1]⟩ (1 / 2) 1 1
        ⟨[((0 : ℚ), [])], [0], [7], [7, 7], [0, 0], [true, true], [true, true],
          2, [0, 0]⟩
        = (.ok, 1, st')) := by
  have h1 : (fitwls (fun q : ℚ => q) ⟨2, 1, [[1, 1]], [0, 0], [1, 1]⟩
      (effweight [true, true] [1, 1]) [7] [7, 7]).info = false := by
    norm_num [fitwls, cholOfGram, cholesky_reg, forwardSolve, backwardSolve,
      dotK, effweight, dblEpsilon, xentry, List.range_succ]
  have h2 : compute_ti (fun q : ℚ => q) ⟨2, 1, [[1, 1]], [0, 0], [1, 1]⟩
      (fitwls (fun q : ℚ => q) ⟨2, 1, [[1, 1]], [0, 0], [1, 1]⟩
        (effweight [true, true] [1, 1]) [7] [7, 7]).R
      [true, true]
      (fitwls (fun q : ℚ => q) ⟨2, 1, [[1, 1]], [0, 0], [1, 1]⟩
        (effweight [true, true] [1, 1]) [7] [7, 7]).resid
      ((fun _ _ => 1) [true, true]
        (fitwls (fun q : ℚ => q) ⟨2, 1, [[1, 1]], [0, 0], [1, 1]⟩
          (effweight [true, true] [1, 1]) [7] [7, 7]).resid)
      = .ok [0, 0] := by
    norm_num [compute_ti, hat_matrix, trinv, triEntry, fitwls, cholOfGram,
      cholesky_reg, forwardSolve, backwardSolve, dotK, effweight, dblEpsilon,
      xentry, List.range_succ]
  refine ⟨⟨h1, h2⟩, ?_⟩
  refine ((claim_C2_algorithm_5 ℚ (fun q => q) (fun _ _ => 1) (fun _ _ => 1)
    ⟨2, 1, [[1, 1]], [0, 0], [1, 1]⟩ (1 / 2) 0 1
    ⟨[((0 : ℚ), [])], [0], [7], [7, 7], [0, 0], [true, true], [true, true],
      2, [0, 0]⟩ [0, 0] h1 h2).2.1).mpr ?_
  norm_num [List.range_succ]

section Alg5Exhaust

variable {K : Type} [LinearOrderedField K]
variable (sq : K → K) (qtL : K → K → K) (sigmaOf : List Bool → List K → K)

/-- Specification device for C8: the state `algorithm_5` passes to the next
iteration after a successful, non-converged refinement step. -/
def alg5_next (dat : regdata K) (alpha : K) (st : Wstate K) : Wstate K :=
  let f := fitwls sq dat (effweight st.subset0 dat.w) st.beta st.resid
  let tis := (compute_ti sq dat f.R st.subset0 f.resid
    (sigmaOf st.subset0 f.resid)).toOption.getD st.dist
  let s1 := (List.range dat.n).map (fun i => decide (tis.getD i 0 <
    qtL (1 - alpha / (2 * ((st.m : K) + 1))) ((st.m : K) - (dat.p : K))))
  { st with
    beta := f.beta
    resid := f.resid
    L := f.R
    dist := tis
    subset1 := s1
    m := s1.count true
    subset0 := s1 }

/-- Specification device for C8: the state after `fuel` refinement steps. -/
def alg5_iterate (dat : regdata K) (alpha : K) : ℕ → Wstate K → Wstate K
  | 0, st => st
  | fuel + 1, st =>
      alg5_iterate dat alpha fuel (alg5_next sq qtL sigmaOf dat alpha st)

/-- Specification device for C8: the refinement loop runs `fuel` full
iterations without converging — each iteration's fit succeeds, its
discrepancy computation succeeds, and the newly formed candidate subset
differs from the current one. -/
def alg5Continues (dat : regdata K) (alpha : K) : ℕ → Wstate K → Prop
  | 0, _ => True
  | fuel + 1, st =>
      (fitwls sq dat (effweight st.subset0 dat.w) st.beta st.resid).info
        = false ∧
      (∃ tis, compute_ti sq dat
        (fitwls sq dat (effweight st.subset0 dat.w) st.beta st.resid).R
        st.subset0
        (fitwls sq dat (effweight st.subset0 dat.w) st.beta st.resid).resid
        (sigmaOf st.subset0
          (fitwls sq dat (effweight st.subset0 dat.w) st.beta st.resid).resid)
        = .ok tis) ∧
      (alg5_next sq qtL sigmaOf dat alpha st).subset0 ≠ st.subset0 ∧
      alg5Continues dat alpha fuel (alg5_next sq qtL sigmaOf dat alpha st)

theorem alg5_exhaust (dat : regdata K) (alpha : K) :
    ∀ (fuel iter : ℕ) (st : Wstate K),
      alg5Continues sq qtL sigmaOf dat alpha fuel st →
      algorithm_5 sq qtL sigmaOf dat alpha fuel iter st
        = (.convergenceFailure, iter + fuel - 1,
           alg5_iterate sq qtL sigmaOf dat alpha fuel st) := by
  intro fuel
  induction fuel with
  | zero =>
    intro iter st _
    simp [algorithm_5, alg5_iterate]
  | succ fuel ih =>
    intro iter st hcont
    obtain ⟨hinfo, ⟨tis, hti⟩, hneq, hrest⟩ := hcont
    have hneq' : (List.range dat.n).map (fun i => decide (tis.getD i 0 <
        qtL (1 - alpha / (2 * ((st.m : K) + 1))) ((st.m : K) - (dat.p : K))))
        ≠ st.subset0 := by
      simpa [alg5_next, hti] using hneq
    simp only [algorithm_5, hinfo, Bool.false_eq_true, if_false, hti]
    rw [if_neg (fun h => hneq' h.symm)]
    rw [show iter + (fuel + 1) - 1 = (iter + 1) + fuel - 1 by omega]
    simp only [alg5_iterate]
    convert ih (iter + 1) (alg5_next sq qtL sigmaOf dat alpha st) hrest using 3
    all_goals simp [alg5_next, hti, Except.toOption]

end Alg5Exhaust

theorem cleanRun_steps01 :
    wbacon_steps01 (fun q : ℚ => q) (fun a b => a + b) (fun _ _ => 1)
      ⟨2, 1, [[1, 1]], [0, 0], [1, 1]⟩ [true, true] [0, 0] [7] [7, 7] 2 2
      = (.ok, ⟨[((2 : ℚ), [])], [0], [0], [0, 0], [0, 0], [true, true],
          [true, true], 3, [0, 0]⟩) := by
  norm_num [wbacon_steps01, initial_reg, initial_grow, fitwls, cholOfGram,
    cholesky_reg, forwardSolve, backwardSolve, dotK, effweight, dblEpsilon,
    xentry, compute_ti, hat_matrix, trinv, triEntry, select_subset,
    kthSmallest, algorithm_4, alg4_recover, update_chol_xty, ucx_pass1_step,
    ucx_pass2, xtx_update, chol_update, chol_downdate, argsortAsc,
    List.range_succ, List.mergeSort, List.replicate]

/-- Claim C8: if the refinement phase completes all `maxiter` iterations with
every fit succeeding and the candidate subset never becoming identical to the
current one, `algorithm_5` terminates with ConvergenceFailure, `wbacon_reg`
reports it via `success = false`, and the last computed coefficients,
residuals, subset membership, subset size and discrepancy vector remain in
the output buffers. -/
theorem claim_C8_wbacon_reg (K : Type) [LinearOrderedField K]
    (sq : K → K) (hyp : K → K → K) (qtL : K → K → K)
    (sigmaOf : List Bool → List K → K) (dat : regdata K)
    (subset0 : List Bool) (dist0 beta0 resid0 : List K)
    (m0 collect maxiter : ℕ) (alpha : K) (st3 : Wstate K)
    (hsteps : wbacon_steps01 sq hyp sigmaOf dat subset0 dist0 beta0 resid0 m0
      collect = (.ok, st3))
    (hcont : alg5Continues sq qtL sigmaOf dat alpha maxiter
      { st3 with subset0 := st3.subset1, subset1 := st3.subset0 }) :
    algorithm_5 sq qtL sigmaOf dat alpha maxiter 1
        { st3 with subset0 := st3.subset1, subset1 := st3.subset0 }
      = (.convergenceFailure, maxiter,
          alg5_iterate sq qtL sigmaOf dat alpha maxiter
            { st3 with subset0 := st3.subset1, subset1 := st3.subset0 }) ∧
    wbacon_reg sq hyp qtL sigmaOf dat subset0 dist0 beta0 resid0 m0 collect
        alpha maxiter
      = ⟨(alg5_iterate sq qtL sigmaOf dat alpha maxiter
            { st3 with subset0 := st3.subset1, subset1 := st3.subset0 }).beta,
         (alg5_iterate sq qtL sigmaOf dat alpha maxiter
            { st3 with subset0 := st3.subset1, subset1 := st3.subset0 }).resid,
         (alg5_iterate sq qtL sigmaOf dat alpha maxiter
            { st3 with subset0 := st3.subset1, subset1 := st3.subset0 }).subset1,
         (alg5_iterate sq qtL sigmaOf dat alpha maxiter
            { st3 with subset0 := st3.subset1, subset1 := st3.subset0 }).dist,
         (alg5_iterate sq qtL sigmaOf dat alpha maxiter
            { st3 with subset0 := st3.subset1, subset1 := st3.subset0 }).m,
         false, maxiter⟩ := by
  have h5 := alg5_exhaust sq qtL sigmaOf dat alpha maxiter 1
    { st3 with subset0 := st3.subset1, subset1 := st3.subset0 } hcont
  rw [show 1 + maxiter - 1 = maxiter by omega] at h5
  refine ⟨h5, ?_⟩
  rw [wbacon_reg, hsteps]
  simp only [ne_eq, not_true_eq_false, if_false, ite_false, reduceIte]
  rw [h5]
  simp

/-- Witness for C8 with `maxiter = 0` on the clean `n = 2` run: the loop body
never executes, `algorithm_5` returns ConvergenceFailure at once, and the
buffers left by step 1 are reported with `success = false`. -/
theorem claim_C8_wbacon_reg_witness :
    (wbacon_steps01 (fun q : ℚ => q) (fun a b => a + b) (fun _ _ => 1)
        ⟨2, 1, [[1, 1]], [0, 0], [1, 1]⟩ [true, true] [0, 0] [7] [7, 7] 2 2
      = (.ok, ⟨[((2 : ℚ), [])], [0], [0], [0, 0], [0, 0], [true, true],
          [true, true], 3, [0, 0]⟩) ∧
      alg5Continues (fun q : ℚ => q) (fun _ _ => 1) (fun _ _ => 1)
        ⟨2, 1, [[1, 1]], [0, 0], [1, 1]⟩ 1 0
        { (⟨[((2 : ℚ), [])], [0], [0], [0, 0], [0, 0], [true, true],
            [true, true], 3, [0, 0]⟩ : Wstate ℚ) with
          subset0 := [true, true], subset1 := [true, true] }) ∧
    (algorithm_5 (fun q : ℚ => q) (fun _ _ => 1) (fun _ _ => 1)
        ⟨2, 1, [[1, 1]], [0, 0], [1, 1]⟩ 1 0 1
        { (⟨[((2 : ℚ), [])], [0], [0], [0, 0], [0, 0], [true, true],
            [true, true], 3, [0, 0]⟩ : Wstate ℚ) with
          subset0 := [true, true], subset1 := [true, true] }
      = (.convergenceFailure, 0,
          alg5_iterate (fun q : ℚ => q) (fun _ _ => 1) (fun _ _ => 1)
            ⟨2, 1, [[1, 1]], [0, 0], [1, 1]⟩ 1 0
            { (⟨[((2 : ℚ), [])], [0], [0], [0, 0], [0, 0], [true, true],
                [true, true], 3, [0, 0]⟩ : Wstate ℚ) with
              subset0 := [true, true], subset1 := [true, true] }) ∧
      wbacon_reg (fun q : ℚ => q) (fun a b => a + b) (fun _ _ => 1)
          (fun _ _ => 1) ⟨2, 1, [[1, 1]], [0, 0], [1, 1]⟩ [true, true] [0, 0]
          [7] [7, 7] 2 2 1 0
        = ⟨(alg5_iterate (fun q : ℚ => q) (fun _ _ => 1) (fun _ _ => 1)
              ⟨2, 1, [[1, 1]], [0, 0], [1, 1]⟩ 1 0
              { (⟨[((2 : ℚ), [])], [0], [0], [0, 0], [0, 0], [true, true],
                  [true, true], 3, [0, 0]⟩ : Wstate ℚ) with
                subset0 := [true, true], subset1 := [true, true] }).beta,
           (alg5_iterate (fun q : ℚ => q) (fun _ _ => 1) (fun _ _ => 1)
              ⟨2, 1, [[1, 1]], [0, 0], [1, 1]⟩ 1 0
              { (⟨[((2 : ℚ), [])], [0], [0], [0, 0], [0, 0], [true, true],
                  [true, true], 3, [0, 0]⟩ : Wstate ℚ) with
                subset0 := [true, true], subset1 := [true, true] }).resid,
           (alg5_iterate (fun q : ℚ => q) (fun _ _ => 1) (fun _ _ => 1)
              ⟨2, 1, [[1, 1]], [0, 0], [1, 1]⟩ 1 0
              { (⟨[((2 : ℚ), [])], [0], [0], [0, 0], [0, 0], [true, true],
                  [true, true], 3, [0, 0]⟩ : Wstate ℚ) with
                subset0 := [true, true], subset1 := [true, true] }).subset1,
           (alg5_iterate (fun q : ℚ => q) (fun _ _ => 1) (fun _ _ => 1)
              ⟨2, 1, [[1, 1]], [0, 0], [1, 1]⟩ 1 0
              { (⟨[((2 : ℚ), [])], [0], [0], [0, 0], [0, 0], [true, true],
                  [true, true], 3, [0, 0]⟩ : Wstate ℚ) with
                subset0 := [true, true], subset1 := [true, true] }).dist,
           (alg5_iterate (fun q : ℚ => q) (fun _ _ => 1) (fun _ _ => 1)
              ⟨2, 1, [[1, 1]], [0, 0], [1, 1]⟩ 1 0
              { (⟨[((2 : ℚ), [])], [0], [0], [0, 0], [0, 0], [true, true],
                  [true, true], 3, [0, 0]⟩ : Wstate ℚ) with
                subset0 := [true, true], subset1 := [true, true] }).m,
           false, 0⟩) :=
  ⟨⟨cleanRun_steps01, by simp [alg5Continues]⟩,
   claim_C8_wbacon_reg ℚ (fun q => q) (fun a b => a + b) (fun _ _ => 1)
     (fun _ _ => 1) ⟨2, 1, [[1, 1]], [0, 0], [1, 1]⟩ [true, true] [0, 0] [7]
     [7, 7] 2 2 0 1
     ⟨[((2 : ℚ), [])], [0], [0], [0, 0], [0, 0], [true, true], [true, true],
       3, [0, 0]⟩
     cleanRun_steps01 (by simp [alg5Continues])⟩

/-- Claim C7 (code bug): when the Cholesky transition fails, the recovery
loop of `algorithm_4` adds observation `work->iarray[m-1]` — but `iarray` at
that point holds the downdate stack that `update_chol_xty` just wrote over
its prefix, or all zeros from `Calloc` when the initial fit succeeded and
`initial_reg` never ran `psort_array`; it does not hold the
ascending-discrepancy order.  Concrete run (`n = 3`, `p = 1`, current scores
`dist = [5, 1, 1/10]`, failed candidate `subset1 = [false, true, false]`,
`iarray = [0, 0, 0]`): the spec's rule would add observation `2`, the
non-member with the smallest score, but the code adds observation `0` — the
very observation whose removal was being attempted — and returns with
`subset1 = [true, true, false]`.  (The square root is modelled by a function
agreeing with the exact square root on the values the run takes.) -/
theorem claim_C7_alg4_recover_bug :
    ((alg4_recover (fun q : ℚ => if q = 1 then 1 else if q = 25 / 16 then 5 / 4 else 0)
        (fun _ _ : ℚ => 0) ⟨3, 1, [[2, 3 / 4, 5]], [0, 0, 0], [1, 1, 1]⟩ 4 2
        .rankDeficient
        ⟨[((1 : ℚ), [])], [0], [0], [0, 0, 0], [5, 1, 1 / 10],
          [true, false, false], [false, true, false], 2, [0, 0, 0]⟩).1
      = .ok ∧
     (alg4_recover (fun q : ℚ => if q = 1 then 1 else if q = 25 / 16 then 5 / 4 else 0)
        (fun _ _ : ℚ => 0) ⟨3, 1, [[2, 3 / 4, 5]], [0, 0, 0], [1, 1, 1]⟩ 4 2
        .rankDeficient
        ⟨[((1 : ℚ), [])], [0], [0], [0, 0, 0], [5, 1, 1 / 10],
          [true, false, false], [false, true, false], 2, [0, 0, 0]⟩).2.subset1
      = [true, true, false]) ∧
    (([(5 : ℚ), 1, 1 / 10].getD 2 0 < [(5 : ℚ), 1, 1 / 10].getD 0 0) ∧
     ([false, true, false].getD 2 false = false ∧
      [false, true, false].getD 0 false = false)) := by
  constructor
  · constructor
    · norm_num [alg4_recover, update_chol_xty, ucx_pass1_step, ucx_pass2,
        xtx_update, chol_update, chol_downdate, xentry, List.range_succ]
    · norm_num [alg4_recover, update_chol_xty, ucx_pass1_step, ucx_pass2,
        xtx_update, chol_update, chol_downdate, xentry, List.range_succ]
  · refine ⟨by norm_num, by simp, by simp⟩

/-!
Concrete two-run development for claim C9.  The runs use `n = 3`, `p = 1`,
design column `(t, 1, t)` with `t = 2^-27`, response `(0, 1, 0)`, seed subset
`{0, 2}`, `collect = 2`, and the real square root.  With unit weights the
subset `{0, 2}` has Gram matrix `2 t^2 = 2^-53`, whose Cholesky diagonal
`sqrt(2^-53)` fails the rank test `< sqrt(DBL_EPSILON) = 2^-26`; with all
weights doubled the Gram matrix is `2^-52` and the test passes.  The two runs
then take different paths and return different coefficient vectors.
-/

/-- Hypotenuse routine at `ℝ` (libm `hypot`). -/
noncomputable def rhyp (a b : ℝ) : ℝ := Real.sqrt (a ^ 2 + b ^ 2)

/-- Tiny design entry `t = 2^-27`: weighted Gram matrices built from a few
such entries sit at the rank-detection threshold `sqrt(DBL_EPSILON) = 2^-26`
of `fitwls`, which is where the weight-scale sensitivity of claim C9 enters. -/
noncomputable def cxt : ℝ := ((2 : ℝ) ^ (27 : ℕ))⁻¹

/-- Gram matrix `2 t^2 + 1` of the full subset of the demonstration data
`cxDatA`. -/
noncomputable def cxg : ℝ := 2 * cxt ^ 2 + 1

/-- Small demonstration data (`n = 3`, `p = 1`): two tiny-leverage
observations and one central observation.  Used to exhibit the rank-test
behaviour of `fitwls` near the threshold (`cx_fitwls_A_02` fails on the
subset `{0, 2}`, `cx_fitwls_A_all` passes on the full subset) and to
exercise a complete refinement iteration of `algorithm_5` (`cx_alg5_A`). -/
noncomputable def cxDatA : regdata ℝ := ⟨3, 1, [[cxt, 1, cxt]], [0, 1, 0], [1, 1, 1]⟩

/-- Artificial constant cutoff `(5/4) t`, strictly between the two nonzero
discrepancy levels of the full-subset fit of `cxDatA`.  Running
`algorithm_5` with the constant oracle `fun _ _ => cxC` (`cx_alg5_A`)
exercises one full refinement iteration — cutoff comparison, subset change,
re-iteration — followed by a rank-deficient exit.  (This constant is a loop
driver for that demonstration only; the faithful Student-t instantiation
used by the C9 counterexample is `qt2` below.) -/
noncomputable def cxC : ℝ := 5 * ((2 : ℝ) ^ (29 : ℕ))⁻¹

theorem cxt_pos : 0 < cxt := by
  rw [cxt]; positivity

theorem cxg_pos : 0 < cxg := by
  have := cxt_pos
  rw [cxg]; positivity

theorem cxg_ge_one : 1 ≤ cxg := by
  have h := cxt_pos
  rw [cxg]; nlinarith

theorem sqrt_dblEpsilon_le_one : Real.sqrt (dblEpsilon ℝ) ≤ 1 := by
  rw [show (1 : ℝ) = Real.sqrt 1 by rw [Real.sqrt_one]]
  apply Real.sqrt_le_sqrt
  rw [dblEpsilon]
  norm_num

theorem cx_fitwls_A_all (b r : List ℝ) :
    fitwls Real.sqrt cxDatA (effweight [true, true, true] [1, 1, 1]) b r
      = ⟨false, [1 / cxg],
         [-(cxt / cxg), 2 * cxt ^ 2 / cxg, -(cxt / cxg)],
         [(Real.sqrt cxg, [])]⟩ := by
  have ht := cxt_pos
  have hg := cxg_pos
  have hgram : cxt * cxt + (1 * 1 + (cxt * cxt + 0)) = cxg := by
    rw [cxg]; ring
  have hsg : Real.sqrt cxg ≠ 0 := by
    positivity
  have hcheck : ¬ (|Real.sqrt cxg| < Real.sqrt (dblEpsilon ℝ)) := by
    push_neg
    rw [abs_of_nonneg (Real.sqrt_nonneg _)]
    calc Real.sqrt (dblEpsilon ℝ) ≤ 1 := sqrt_dblEpsilon_le_one
      _ = Real.sqrt 1 := (Real.sqrt_one).symm
      _ ≤ Real.sqrt cxg := Real.sqrt_le_sqrt cxg_ge_one
  have hgram2 : cxt * cxt + (1 + cxt * cxt) = cxg := by
    rw [cxg]; ring
  rw [fitwls]
  norm_num [cxDatA, effweight, cholOfGram, dotK, cholesky_reg, forwardSolve,
    backwardSolve, xentry, List.range_succ, Real.sqrt_one, hgram2, hcheck]
  have hss : Real.sqrt cxg * Real.sqrt cxg = cxg := Real.mul_self_sqrt hg.le
  have h1 : (Real.sqrt cxg)⁻¹ / Real.sqrt cxg = cxg⁻¹ := by
    rw [div_eq_mul_inv, ← mul_inv, hss]
  have hgne : cxg ≠ 0 := ne_of_gt hg
  refine ⟨h1, by rw [h1, div_eq_mul_inv], ?_, by rw [h1, div_eq_mul_inv]⟩
  rw [h1]
  field_simp
  rw [cxg]
  ring

theorem sqrt_cxt_sq : Real.sqrt (cxt ^ 2) = cxt := Real.sqrt_sq cxt_pos.le

theorem sqrt_dblEpsilon_eq : Real.sqrt (dblEpsilon ℝ)
    = ((2 : ℝ) ^ (26 : ℕ))⁻¹ := by
  rw [show dblEpsilon ℝ = (((2 : ℝ) ^ (26 : ℕ))⁻¹) ^ 2 by
    rw [dblEpsilon]; norm_num]
  exact Real.sqrt_sq (by positivity)

theorem cx_fitwls_A_02 (b r : List ℝ) :
    fitwls Real.sqrt cxDatA (effweight [true, false, true] [1, 1, 1]) b r
      = ⟨true, b, r, [(Real.sqrt 2 * cxt, [])]⟩ := by
  have hgram2 : cxt * cxt + cxt * cxt = 2 * cxt ^ 2 := by ring
  have hsqrt2c : Real.sqrt (2 * cxt ^ 2) = Real.sqrt 2 * cxt := by
    rw [Real.sqrt_mul (by norm_num) (cxt ^ 2), sqrt_cxt_sq]
  have hcheck : |Real.sqrt 2 * cxt| < Real.sqrt (dblEpsilon ℝ) := by
    rw [abs_of_nonneg (mul_nonneg (Real.sqrt_nonneg 2) cxt_pos.le),
      sqrt_dblEpsilon_eq]
    have h2 : Real.sqrt 2 < 2 := by
      nlinarith [Real.sq_sqrt (show (0:ℝ) ≤ 2 by norm_num), Real.sqrt_nonneg 2]
    calc Real.sqrt 2 * cxt < 2 * cxt := by
          exact mul_lt_mul_of_pos_right h2 cxt_pos
      _ = ((2 : ℝ) ^ (26 : ℕ))⁻¹ := by rw [cxt]; norm_num
  rw [fitwls]
  norm_num [cxDatA, effweight, cholOfGram, dotK, xentry, List.range_succ,
    Real.sqrt_one, Real.sqrt_zero, hgram2, hsqrt2c, sqrt_cxt_sq, hcheck]

/-- Discrepancy of the two tiny-leverage observations of `cxDatA` on the
full subset. -/
noncomputable def cxT0 : ℝ := cxt / cxg / Real.sqrt (1 - cxt ^ 2 / cxg)

/-- Discrepancy of the central observation of `cxDatA` on the full subset. -/
noncomputable def cxT1 : ℝ := 2 * cxt ^ 2 / cxg / Real.sqrt (1 - 1 / cxg)

theorem cx_hat_Ag :
    hat_matrix cxDatA [(Real.sqrt cxg, [])]
      = .ok [cxt ^ 2 / cxg, 1 / cxg, cxt ^ 2 / cxg] := by
  have hgpos := cxg_pos
  have hne : Real.sqrt cxg ≠ 0 := by
    rw [Real.sqrt_ne_zero' ]
    exact hgpos
  have hinv : ((Real.sqrt cxg)⁻¹) ^ 2 = cxg⁻¹ := by
    rw [inv_pow, Real.sq_sqrt hgpos.le]
  rw [hat_matrix]
  norm_num [hne, trinv, forwardSolve, triEntry, xentry, cxDatA,
    List.range_succ, hinv]
  rw [mul_pow, hinv, div_eq_mul_inv]

theorem cx_ct_A_main :
    compute_ti Real.sqrt cxDatA [(Real.sqrt cxg, [])] [true, true, true]
      [-(cxt / cxg), 2 * cxt ^ 2 / cxg, -(cxt / cxg)] 1
      = .ok [cxT0, cxT1, cxT0] := by
  have habs0 : |(-(cxt / cxg))| = cxt / cxg := by
    rw [abs_neg, abs_of_pos (div_pos cxt_pos cxg_pos)]
  have habs1 : |(2 * cxt ^ 2 / cxg)| = 2 * cxt ^ 2 / cxg := by
    rw [abs_of_pos]
    apply div_pos _ cxg_pos
    have := cxt_pos
    positivity
  rw [compute_ti, cx_hat_Ag]
  norm_num [cxT0, cxT1, habs0, habs1, cxDatA, List.range_succ]
  norm_num [sub_eq_add_neg]

theorem update_chol_xty_self {K : Type} [LinearOrderedField K]
    (sq : K → K) (hyp : K → K → K) (dat : regdata K) (s : List Bool)
    (L : List (K × List K)) (xty : List K) (ia : List ℕ) :
    update_chol_xty sq hyp dat s s L xty ia = (.ok, L, xty, ia) := by
  have hstep : ∀ (st : List (K × List K) × List K × List ℕ) (i : ℕ),
      ucx_pass1_step sq hyp dat s s st i = st := by
    intro st i
    rw [ucx_pass1_step]
    rcases h : s.getD i false <;> simp [h]
  have hfold : ∀ (l : List ℕ) st,
      l.foldl (ucx_pass1_step sq hyp dat s s) st = st := by
    intro l
    induction l with
    | nil => intro st; rfl
    | cons a l ih =>
      intro st
      rw [List.foldl_cons, hstep]
      exact ih st
  rw [update_chol_xty]
  simp [hfold, ucx_pass2]

theorem cxDatA_n : cxDatA.n = 3 := rfl

theorem cxDatA_p : cxDatA.p = 1 := rfl

theorem cxDatA_w : cxDatA.w = [1, 1, 1] := rfl

theorem cxDatA_y : cxDatA.y = [0, 1, 0] := rfl

theorem cx_C_pos : (0 : ℝ) < cxC := by
  rw [cxC]
  norm_num

theorem cx_T0_lt : cxT0 < cxC := by
  have hd : (4 / 5 : ℝ) < Real.sqrt (1 - cxt ^ 2 / cxg) := by
    rw [show (4 / 5 : ℝ) = Real.sqrt ((4 / 5) ^ 2) by
      rw [Real.sqrt_sq (by norm_num)]]
    apply Real.sqrt_lt_sqrt (by norm_num)
    have h1 : cxt ^ 2 / cxg ≤ cxt ^ 2 := div_le_self (sq_nonneg _) cxg_ge_one
    have h2 : cxt ^ 2 < 9 / 25 := by
      rw [cxt]
      norm_num
    nlinarith
  have hD : (0 : ℝ) < Real.sqrt (1 - cxt ^ 2 / cxg) :=
    lt_trans (by norm_num) hd
  have h1 : cxT0 ≤ cxt / Real.sqrt (1 - cxt ^ 2 / cxg) := by
    rw [cxT0]
    exact (div_le_div_right hD).mpr (div_le_self cxt_pos.le cxg_ge_one)
  have h2 : cxt / Real.sqrt (1 - cxt ^ 2 / cxg) < cxt / (4 / 5) :=
    div_lt_div_of_pos_left cxt_pos (by norm_num) hd
  have h3 : cxt / (4 / 5 : ℝ) = cxC := by
    rw [cxt, cxC]
    norm_num
  linarith

theorem cx_C_le_T1 : cxC ≤ cxT1 := by
  have hgne : cxg ≠ 0 := ne_of_gt cxg_pos
  have h1g : (1 : ℝ) - 1 / cxg = 2 * cxt ^ 2 / cxg := by
    field_simp
    rw [cxg]
    ring
  have hT1 : cxT1 = Real.sqrt (2 * cxt ^ 2 / cxg) := by
    rw [cxT1, h1g, Real.div_sqrt]
  rw [hT1,
    show cxC = Real.sqrt (cxC ^ 2) from
      (Real.sqrt_sq cx_C_pos.le).symm]
  apply Real.sqrt_le_sqrt
  rw [cxC, cxg, cxt]
  norm_num

theorem cx_alg5_A :
    algorithm_5 Real.sqrt (fun _ _ => cxC) (fun _ _ => (1 : ℝ)) cxDatA
      (1 / 2) 50 1
      ⟨[(Real.sqrt cxg, [])], [1], [cxg⁻¹],
        [-(cxt / cxg), 2 * cxt ^ 2 / cxg, -(cxt / cxg)],
        [cxT0, cxT1, cxT0], [true, true, true], [true, true, true], 3,
        [0, 1, 2]⟩
      = (.rankDeficient, 2, ⟨[(Real.sqrt cxg, [])], [1], [cxg⁻¹],
          [-(cxt / cxg), 2 * cxt ^ 2 / cxg, -(cxt / cxg)],
          [cxT0, cxT1, cxT0], [true, false, true], [true, false, true], 2,
          [0, 1, 2]⟩) := by
  have hT0 : cxT0 < cxC := cx_T0_lt
  have hT1 : ¬ (cxT1 < cxC) := not_lt.mpr cx_C_le_T1
  rw [show (50 : ℕ) = 49 + 1 from rfl, algorithm_5]
  norm_num [cxDatA_n, cxDatA_p, cxDatA_w, cx_fitwls_A_all, cx_ct_A_main,
    List.range_succ, hT0, hT1]
  rw [show (49 : ℕ) = 48 + 1 from rfl, algorithm_5]
  norm_num [cxDatA_w, cx_fitwls_A_02]

/-! ### The C9 counterexample

Two runs of `wbacon_reg` on the same design matrix and response, the second
run with all weights uniformly doubled, return different coefficient vectors
and different subsets.  The external collaborators are instantiated
faithfully: the Student-t quantile oracle is the exact closed-form
2-degrees-of-freedom quantile `qt2` — and `m - p = 2` is the only
degrees-of-freedom value either run ever queries — and the robust-scale
oracle is the root-mean-square residual estimator `sigmaRMSE`. -/

/-- The lower-tail Student-t quantile with 2 degrees of freedom, in exact
closed form: the t-distribution with 2 degrees of freedom has CDF
`F(x) = 1/2 + x / (2 * sqrt(2 + x^2))`, whose inverse at probability `p` is
`a * sqrt(2 / (1 - a^2))` with `a = 2p - 1`.  Modelled from the spec: the C
code obtains its cutoff from the external Rmath quantile collaborator; the
counterexample passes `fun prob _ => qt2 prob` as the oracle, which agrees
with the exact Student-t quantile at every point the two runs evaluate it,
since both runs only ever query degrees of freedom `m - p = 2` (at
probability `159/160`, where `qt2 (159/160) = sqrt(12482/159) ≈ 8.8602`, the
textbook value of `qt(0.99375, 2)`). -/
noncomputable def qt2 (prob : ℝ) : ℝ :=
  (2 * prob - 1) * Real.sqrt (2 / (1 - (2 * prob - 1) ^ 2))

/-- Modelled from the spec (§6: the robust-scale value "must already be
valid for the current subset before each discrepancy computation", its
computation being out of scope): the concrete instantiation of the external
scale collaborator used by the counterexample — the
degrees-of-freedom-corrected root mean square of the current subset's
residuals, `sqrt(sum_{i in subset} resid_i^2 / (m - 1))` (with `p = 1` in
the counterexample data). -/
noncomputable def sigmaRMSE (subset : List Bool) (resid : List ℝ) : ℝ :=
  Real.sqrt
    ((List.zipWith (fun s ri => if s then ri ^ 2 else (0 : ℝ)) subset resid).sum
      / ((subset.count true : ℝ) - 1))

/-- Unscaled data of the C9 counterexample: `n = 4`, `p = 1`, all four
design entries equal to the tiny value `t = 2^-27` — so the Gram matrix of a
subset `S` is `(sum of S's weights) * t^2`, straddling the rank threshold
`DBL_EPSILON = 2^-52` of `fitwls` as the weights are rescaled — response
`(1, -1, 100, 100)` (two small observations, two gross outliers) and unit
weights. -/
noncomputable def cyDatA : regdata ℝ :=
  ⟨4, 1, [[cxt, cxt, cxt, cxt]], [1, -1, 100, 100], [1, 1, 1, 1]⟩

/-- Data of the C9 counterexample with every weight doubled (design matrix
and response identical to `cyDatA`). -/
noncomputable def cyDatB : regdata ℝ :=
  ⟨4, 1, [[cxt, cxt, cxt, cxt]], [1, -1, 100, 100], [2, 2, 2, 2]⟩

/-- Common denominator `sigma * sqrt(1 - h) = sqrt(3334) * sqrt(3/4)
= sqrt(5001/2)` of the full-subset discrepancy scores of the unit-weight
run. -/
noncomputable def cyD : ℝ := Real.sqrt (5001 / 2)

theorem cyDatA_n : cyDatA.n = 4 := rfl

theorem cyDatA_p : cyDatA.p = 1 := rfl

theorem cyDatA_x : cyDatA.x = [[cxt, cxt, cxt, cxt]] := rfl

theorem cyDatA_y : cyDatA.y = [1, -1, 100, 100] := rfl

theorem cyDatA_w : cyDatA.w = [1, 1, 1, 1] := rfl

theorem cyDatB_n : cyDatB.n = 4 := rfl

theorem cyDatB_p : cyDatB.p = 1 := rfl

theorem cyDatB_x : cyDatB.x = [[cxt, cxt, cxt, cxt]] := rfl

theorem cyDatB_y : cyDatB.y = [1, -1, 100, 100] := rfl

theorem cyDatB_w : cyDatB.w = [2, 2, 2, 2] := rfl

theorem cy_fit_01_A (b r : List ℝ) :
    fitwls Real.sqrt cyDatA (effweight [true, true, false, false] [1, 1, 1, 1])
      b r = ⟨true, b, r, [(Real.sqrt 2 * cxt, [])]⟩ := by
  have hgram2 : cxt * cxt + cxt * cxt = 2 * cxt ^ 2 := by ring
  have hsqrt2c : Real.sqrt (2 * cxt ^ 2) = Real.sqrt 2 * cxt := by
    rw [Real.sqrt_mul (by norm_num) (cxt ^ 2), sqrt_cxt_sq]
  have hcheck : |Real.sqrt 2 * cxt| < Real.sqrt (dblEpsilon ℝ) := by
    rw [abs_of_nonneg (mul_nonneg (Real.sqrt_nonneg 2) cxt_pos.le),
      sqrt_dblEpsilon_eq]
    have h2 : Real.sqrt 2 < 2 := by
      nlinarith [Real.sq_sqrt (show (0:ℝ) ≤ 2 by norm_num), Real.sqrt_nonneg 2]
    calc Real.sqrt 2 * cxt < 2 * cxt := by
          exact mul_lt_mul_of_pos_right h2 cxt_pos
      _ = ((2 : ℝ) ^ (26 : ℕ))⁻¹ := by rw [cxt]; norm_num
  rw [fitwls]
  norm_num [cyDatA, effweight, cholOfGram, dotK, xentry, List.range_succ,
    Real.sqrt_one, Real.sqrt_zero, hgram2, hsqrt2c, sqrt_cxt_sq, hcheck]

theorem cy_fit_012_A (b r : List ℝ) :
    fitwls Real.sqrt cyDatA (effweight [true, true, true, false] [1, 1, 1, 1])
      b r = ⟨true, b, r, [(Real.sqrt 3 * cxt, [])]⟩ := by
  have hgram3 : cxt * cxt + (cxt * cxt + cxt * cxt) = 3 * cxt ^ 2 := by ring
  have hsqrt3c : Real.sqrt (3 * cxt ^ 2) = Real.sqrt 3 * cxt := by
    rw [Real.sqrt_mul (by norm_num) (cxt ^ 2), sqrt_cxt_sq]
  have hcheck : |Real.sqrt 3 * cxt| < Real.sqrt (dblEpsilon ℝ) := by
    rw [abs_of_nonneg (mul_nonneg (Real.sqrt_nonneg 3) cxt_pos.le),
      sqrt_dblEpsilon_eq]
    have h3 : Real.sqrt 3 < 2 := by
      nlinarith [Real.sq_sqrt (show (0:ℝ) ≤ 3 by norm_num), Real.sqrt_nonneg 3]
    calc Real.sqrt 3 * cxt < 2 * cxt := by
          exact mul_lt_mul_of_pos_right h3 cxt_pos
      _ = ((2 : ℝ) ^ (26 : ℕ))⁻¹ := by rw [cxt]; norm_num
  rw [fitwls]
  norm_num [cyDatA, effweight, cholOfGram, dotK, xentry, List.range_succ,
    Real.sqrt_one, Real.sqrt_zero, hgram3, hsqrt3c, sqrt_cxt_sq, hcheck]

theorem cy_fit_023_A (b r : List ℝ) :
    fitwls Real.sqrt cyDatA (effweight [true, false, true, true] [1, 1, 1, 1])
      b r = ⟨true, b, r, [(Real.sqrt 3 * cxt, [])]⟩ := by
  have hgram3 : cxt * cxt + (cxt * cxt + cxt * cxt) = 3 * cxt ^ 2 := by ring
  have hsqrt3c : Real.sqrt (3 * cxt ^ 2) = Real.sqrt 3 * cxt := by
    rw [Real.sqrt_mul (by norm_num) (cxt ^ 2), sqrt_cxt_sq]
  have hcheck : |Real.sqrt 3 * cxt| < Real.sqrt (dblEpsilon ℝ) := by
    rw [abs_of_nonneg (mul_nonneg (Real.sqrt_nonneg 3) cxt_pos.le),
      sqrt_dblEpsilon_eq]
    have h3 : Real.sqrt 3 < 2 := by
      nlinarith [Real.sq_sqrt (show (0:ℝ) ≤ 3 by norm_num), Real.sqrt_nonneg 3]
    calc Real.sqrt 3 * cxt < 2 * cxt := by
          exact mul_lt_mul_of_pos_right h3 cxt_pos
      _ = ((2 : ℝ) ^ (26 : ℕ))⁻¹ := by rw [cxt]; norm_num
  rw [fitwls]
  norm_num [cyDatA, effweight, cholOfGram, dotK, xentry, List.range_succ,
    Real.sqrt_one, Real.sqrt_zero, hgram3, hsqrt3c, sqrt_cxt_sq, hcheck]

theorem cy_fit_full_A (b r : List ℝ) :
    fitwls Real.sqrt cyDatA (effweight [true, true, true, true] [1, 1, 1, 1])
      b r = ⟨false, [50 / cxt], [-49, -51, 50, 50], [(2 * cxt, [])]⟩ := by
  have ht := cxt_pos
  have htne : cxt ≠ 0 := ne_of_gt ht
  have hgram4 : cxt * cxt + (cxt * cxt + (cxt * cxt + cxt * cxt))
      = 4 * cxt ^ 2 := by ring
  have hsqrt4 : Real.sqrt (4 * cxt ^ 2) = 2 * cxt := by
    rw [show 4 * cxt ^ 2 = (2 * cxt) ^ 2 by ring]
    exact Real.sqrt_sq (mul_nonneg (by norm_num) cxt_pos.le)
  have hcheck : ¬ (|2 * cxt| < Real.sqrt (dblEpsilon ℝ)) := by
    rw [abs_of_nonneg (mul_nonneg (by norm_num) cxt_pos.le),
      sqrt_dblEpsilon_eq, cxt]
    norm_num
  have hbeta2 : (cxt * 100 + cxt * 100) / (2 * cxt) / (2 * cxt)
      = 50 / cxt := by
    field_simp
    ring
  have hc50 : cxt * (50 / cxt) = 50 := by
    field_simp
  rw [fitwls]
  norm_num [cyDatA, effweight, cholOfGram, dotK, cholesky_reg, forwardSolve,
    backwardSolve, xentry, List.range_succ, Real.sqrt_one, hgram4, hsqrt4,
    hcheck]
  refine ⟨hbeta2, ?_, ?_, ?_⟩ <;> (rw [hbeta2, hc50]; norm_num)

theorem cy_fit_01_B (b r : List ℝ) :
    fitwls Real.sqrt cyDatB (effweight [true, true, false, false] [2, 2, 2, 2])
      b r = ⟨false, [0], [1, -1, 100, 100], [(2 * cxt, [])]⟩ := by
  have hs2 : Real.sqrt 2 * Real.sqrt 2 = 2 := Real.mul_self_sqrt (by norm_num)
  have hgram2 : Real.sqrt 2 * cxt * (Real.sqrt 2 * cxt)
      + Real.sqrt 2 * cxt * (Real.sqrt 2 * cxt) = 4 * cxt ^ 2 := by
    have h : Real.sqrt 2 * cxt * (Real.sqrt 2 * cxt)
        = Real.sqrt 2 * Real.sqrt 2 * cxt ^ 2 := by ring
    rw [h, hs2]
    ring
  have hsqrt4 : Real.sqrt (4 * cxt ^ 2) = 2 * cxt := by
    rw [show 4 * cxt ^ 2 = (2 * cxt) ^ 2 by ring]
    exact Real.sqrt_sq (mul_nonneg (by norm_num) cxt_pos.le)
  have hcheck : ¬ (|2 * cxt| < Real.sqrt (dblEpsilon ℝ)) := by
    rw [abs_of_nonneg (mul_nonneg (by norm_num) cxt_pos.le),
      sqrt_dblEpsilon_eq, cxt]
    norm_num
  have hxty : Real.sqrt 2 * cxt * Real.sqrt 2 = 2 * cxt := by
    rw [show Real.sqrt 2 * cxt * Real.sqrt 2
      = Real.sqrt 2 * Real.sqrt 2 * cxt by ring, hs2]
  rw [fitwls]
  norm_num [cyDatB, effweight, cholOfGram, dotK, cholesky_reg, forwardSolve,
    backwardSolve, xentry, List.range_succ, Real.sqrt_zero, hgram2, hsqrt4,
    hcheck, hxty, sqrt_cxt_sq]

theorem cy_sigma_full : sigmaRMSE [true, true, true, true] [-49, -51, 50, 50]
    = Real.sqrt 3334 := by
  norm_num [sigmaRMSE]

theorem cy_sigma_023 : sigmaRMSE [true, false, true, true] [-66, -68, 33, 33]
    = Real.sqrt 3267 := by
  norm_num [sigmaRMSE]

theorem cy_sigma_01 : sigmaRMSE [true, true, false, false] [1, -1, 100, 100]
    = Real.sqrt 2 := by
  norm_num [sigmaRMSE]

theorem cy_hat_2c_A : hat_matrix cyDatA [(2 * cxt, [])]
    = .ok [1 / 4, 1 / 4, 1 / 4, 1 / 4] := by
  have ht := cxt_pos
  have hne : 2 * cxt ≠ 0 := by positivity
  rw [hat_matrix]
  norm_num [hne, trinv, forwardSolve, triEntry, xentry, cyDatA,
    List.range_succ]
  rw [← mul_assoc, mul_inv_cancel₀ (ne_of_gt ht), one_mul]
  norm_num

theorem cy_hat_3c_A : hat_matrix cyDatA [(Real.sqrt 3 * cxt, [])]
    = .ok [1 / 3, 1 / 3, 1 / 3, 1 / 3] := by
  have ht := cxt_pos
  have h3 : Real.sqrt 3 * Real.sqrt 3 = 3 := Real.mul_self_sqrt (by norm_num)
  have hs3 : (0 : ℝ) < Real.sqrt 3 := Real.sqrt_pos.mpr (by norm_num)
  have hne : Real.sqrt 3 * cxt ≠ 0 := by positivity
  rw [hat_matrix]
  norm_num [hne, trinv, forwardSolve, triEntry, xentry, cyDatA,
    List.range_succ]
  rw [← mul_assoc, mul_inv_cancel₀ (ne_of_gt ht), one_mul, inv_pow,
    Real.sq_sqrt (show (0:ℝ) ≤ 3 by norm_num)]
  norm_num

theorem cy_hat_2c_B : hat_matrix cyDatB [(2 * cxt, [])]
    = .ok [1 / 2, 1 / 2, 1 / 2, 1 / 2] := by
  have ht := cxt_pos
  have hne : 2 * cxt ≠ 0 := by positivity
  rw [hat_matrix]
  norm_num [hne, trinv, forwardSolve, triEntry, xentry, cyDatB,
    List.range_succ]
  rw [← mul_assoc, mul_inv_cancel₀ (ne_of_gt ht), one_mul]
  norm_num


theorem cyD_pos : 0 < cyD := Real.sqrt_pos.mpr (by norm_num)

theorem cy_ct_full_A :
    compute_ti Real.sqrt cyDatA [(2 * cxt, [])] [true, true, true, true]
      [-49, -51, 50, 50] (Real.sqrt 3334)
      = .ok [49 / cyD, 51 / cyD, 50 / cyD, 50 / cyD] := by
  have h4 : Real.sqrt 4 = 2 := by
    rw [show (4 : ℝ) = 2 ^ 2 by norm_num, Real.sqrt_sq (by norm_num)]
  have hD : Real.sqrt 3334 * (Real.sqrt 3 / Real.sqrt 4) = cyD := by
    rw [h4, cyD, show (5001 : ℝ) / 2 = 10002 / 4 by norm_num,
      Real.sqrt_div (by norm_num) 4,
      show Real.sqrt 3334 * (Real.sqrt 3 / 2)
        = Real.sqrt 3334 * Real.sqrt 3 / 2 by ring,
      ← Real.sqrt_mul (by norm_num), show (3334 : ℝ) * 3 = 10002 by norm_num,
      h4]
  rw [compute_ti, cy_hat_2c_A]
  norm_num [cyDatA, List.range_succ, hD]

theorem cy_ct_023_A :
    compute_ti Real.sqrt cyDatA [(Real.sqrt 3 * cxt, [])]
      [true, false, true, true] [-66, -68, 33, 33] (Real.sqrt 3267)
      = .ok [Real.sqrt 2, 34 / 33, (Real.sqrt 2)⁻¹, (Real.sqrt 2)⁻¹] := by
  have hs2ne : Real.sqrt 2 ≠ 0 := by positivity
  have hs3ne : Real.sqrt 3 ≠ 0 := by positivity
  have h3267 : Real.sqrt 3267 = 33 * Real.sqrt 3 := by
    rw [show (3267 : ℝ) = 33 ^ 2 * 3 by norm_num,
      Real.sqrt_mul (by positivity), Real.sqrt_sq (by norm_num)]
  have h4 : Real.sqrt 4 = 2 := by
    rw [show (4 : ℝ) = 2 ^ 2 by norm_num, Real.sqrt_sq (by norm_num)]
  have hm : Real.sqrt 3267 * (Real.sqrt 2 / Real.sqrt 3)
      = 33 * Real.sqrt 2 := by
    rw [h3267, show 33 * Real.sqrt 3 * (Real.sqrt 2 / Real.sqrt 3)
      = 33 * Real.sqrt 2 * (Real.sqrt 3 / Real.sqrt 3) by ring,
      div_self hs3ne, mul_one]
  have ho : Real.sqrt 3267 * (Real.sqrt 4 / Real.sqrt 3) = 66 := by
    rw [h3267, h4, show 33 * Real.sqrt 3 * (2 / Real.sqrt 3)
      = 66 * (Real.sqrt 3 / Real.sqrt 3) by ring, div_self hs3ne, mul_one]
  have h66 : 66 / (33 * Real.sqrt 2) = Real.sqrt 2 := by
    rw [eq_comm, eq_div_iff (by positivity : (33 : ℝ) * Real.sqrt 2 ≠ 0),
      show Real.sqrt 2 * (33 * Real.sqrt 2)
        = 33 * (Real.sqrt 2 * Real.sqrt 2) by ring,
      Real.mul_self_sqrt (by norm_num)]
    norm_num
  have h33 : 33 / (33 * Real.sqrt 2) = (Real.sqrt 2)⁻¹ := by
    rw [eq_comm, eq_div_iff (by positivity : (33 : ℝ) * Real.sqrt 2 ≠ 0),
      show (Real.sqrt 2)⁻¹ * (33 * Real.sqrt 2)
        = 33 * (Real.sqrt 2 * (Real.sqrt 2)⁻¹) by ring,
      mul_inv_cancel₀ hs2ne, mul_one]
  rw [compute_ti, cy_hat_3c_A]
  norm_num [cyDatA, List.range_succ, hm, ho, h66, h33]

theorem cy_ct_01_B :
    compute_ti Real.sqrt cyDatB [(2 * cxt, [])] [true, true, false, false]
      [1, -1, 100, 100] (Real.sqrt 2)
      = .ok [1, 1, 100 / Real.sqrt 3, 100 / Real.sqrt 3] := by
  have hm : Real.sqrt 2 * Real.sqrt (1 / 2) = 1 := by
    rw [← Real.sqrt_mul (by norm_num)]
    norm_num [Real.sqrt_one]
  have hs2ne : Real.sqrt 2 ≠ 0 := by positivity
  have ho : Real.sqrt 2 * (Real.sqrt 3 / Real.sqrt 2) = Real.sqrt 3 := by
    rw [show Real.sqrt 2 * (Real.sqrt 3 / Real.sqrt 2)
      = Real.sqrt 3 * (Real.sqrt 2 / Real.sqrt 2) by ring, div_self hs2ne,
      mul_one]
  rw [compute_ti, cy_hat_2c_B]
  norm_num [cyDatB, List.range_succ, hm, ho]

theorem cy_argsort : argsortAsc ([0, 0, 0, 0] : List ℝ) = [0, 1, 2, 3] := by
  have h00 : decide ((0 : ℝ) ≤ 0) = true := by simp
  norm_num [argsortAsc, List.mergeSort, h00, List.range_succ]

theorem cy_sel_A : select_subset [49 / cyD, 51 / cyD, 50 / cyD, 50 / cyD] 2 4
    = [true, false, true, true] := by
  have hD := cyD_pos
  have d4951 : decide ((49 : ℝ) / cyD ≤ 51 / cyD) = true := by
    rw [decide_eq_true_eq]
    exact (div_le_div_iff_of_pos_right hD).mpr (by norm_num)
  have d4950 : decide ((49 : ℝ) / cyD ≤ 50 / cyD) = true := by
    rw [decide_eq_true_eq]
    exact (div_le_div_iff_of_pos_right hD).mpr (by norm_num)
  have d5049 : decide ((50 : ℝ) / cyD ≤ 49 / cyD) = false := by
    rw [decide_eq_false_iff_not]
    exact not_le.mpr ((div_lt_div_iff_of_pos_right hD).mpr (by norm_num))
  have d5150 : decide ((51 : ℝ) / cyD ≤ 50 / cyD) = false := by
    rw [decide_eq_false_iff_not]
    exact not_le.mpr ((div_lt_div_iff_of_pos_right hD).mpr (by norm_num))
  have d5051 : decide ((50 : ℝ) / cyD ≤ 51 / cyD) = true := by
    rw [decide_eq_true_eq]
    exact (div_le_div_iff_of_pos_right hD).mpr (by norm_num)
  have d5050 : decide ((50 : ℝ) / cyD ≤ 50 / cyD) = true := by
    rw [decide_eq_true_eq]
  have d5149 : decide ((51 : ℝ) / cyD ≤ 49 / cyD) = false := by
    rw [decide_eq_false_iff_not]
    exact not_le.mpr ((div_lt_div_iff_of_pos_right hD).mpr (by norm_num))
  have d4949 : decide ((49 : ℝ) / cyD ≤ 49 / cyD) = true := by
    rw [decide_eq_true_eq]
  have d5151 : decide ((51 : ℝ) / cyD ≤ 51 / cyD) = true := by
    rw [decide_eq_true_eq]
  norm_num [select_subset, kthSmallest, List.mergeSort, List.range_succ,
    d4951, d4950, d5049, d5150, d5051, d5050, d5149, d4949, d5151]

theorem sqrt3_le_100 : Real.sqrt 3 ≤ 100 := by
  nlinarith [Real.sq_sqrt (show (0:ℝ) ≤ 3 by norm_num), Real.sqrt_nonneg 3]

theorem cy_one_le_od : (1 : ℝ) ≤ 100 / Real.sqrt 3 := by
  rw [le_div_iff₀ (Real.sqrt_pos.mpr (by norm_num))]
  simpa using sqrt3_le_100

theorem cy_sel_B :
    select_subset [1, 1, 100 / Real.sqrt 3, 100 / Real.sqrt 3] 2 4
      = [true, true, false, false] := by
  have h11 : decide ((1 : ℝ) ≤ 1) = true := by simp
  have h1o : decide ((1 : ℝ) ≤ 100 / Real.sqrt 3) = true := by
    rw [decide_eq_true_eq]; exact cy_one_le_od
  have ho1 : decide ((100 : ℝ) / Real.sqrt 3 ≤ 1) = false := by
    rw [decide_eq_false_iff_not]
    push_neg
    rw [lt_div_iff₀ (Real.sqrt_pos.mpr (by norm_num))]
    nlinarith [Real.sq_sqrt (show (0:ℝ) ≤ 3 by norm_num), Real.sqrt_nonneg 3]
  have hoo : decide ((100 : ℝ) / Real.sqrt 3 ≤ 100 / Real.sqrt 3) = true := by
    simp
  norm_num [select_subset, kthSmallest, List.mergeSort, List.range_succ,
    h11, h1o, ho1, hoo]

theorem cy_Q_eq : qt2 (159 / 160) = (79 / 80) * Real.sqrt (12800 / 159) := by
  rw [qt2]
  norm_num

theorem cy_Q_sq : qt2 (159 / 160) = Real.sqrt (12482 / 159) := by
  rw [cy_Q_eq, show (79 / 80 : ℝ) = Real.sqrt ((79 / 80) ^ 2) by
    rw [Real.sqrt_sq (by norm_num)],
    ← Real.sqrt_mul (by positivity)]
  norm_num

theorem cy_one_lt_Q : (1 : ℝ) < qt2 (159 / 160) := by
  rw [cy_Q_sq, show (1 : ℝ) = Real.sqrt 1 by rw [Real.sqrt_one]]
  apply Real.sqrt_lt_sqrt (by norm_num)
  norm_num

theorem cy_Q_le_od : qt2 (159 / 160) ≤ 100 / Real.sqrt 3 := by
  have h : (100 : ℝ) / Real.sqrt 3 = Real.sqrt (10000 / 3) := by
    rw [Real.sqrt_div' 10000 (by norm_num),
      show (10000 : ℝ) = 100 ^ 2 by norm_num, Real.sqrt_sq (by norm_num)]
  rw [cy_Q_sq, h]
  exact Real.sqrt_le_sqrt (by norm_num)

theorem cy_init_A :
    initial_reg Real.sqrt sigmaRMSE cyDatA
      ⟨[((0 : ℝ), [])], [0], [0], [0, 0, 0, 0], [0, 0, 0, 0],
        [true, true, false, false], List.replicate 4 false, 2,
        List.replicate 4 0⟩
      = (.ok, ⟨[(2 * cxt, [])], [200 * cxt], [50 / cxt], [-49, -51, 50, 50],
          [49 / cyD, 51 / cyD, 50 / cyD, 50 / cyD], [true, true, true, true],
          List.replicate 4 false, 4, [0, 1, 2, 3]⟩) := by
  have hxty : cxt * 100 + cxt * 100 = 200 * cxt := by ring
  rw [initial_reg]
  norm_num [cy_fit_01_A, cy_fit_012_A, cy_fit_full_A, cy_argsort,
    initial_grow, cy_sigma_full, cy_ct_full_A, cyDatA_n, cyDatA_p, cyDatA_w,
    cyDatA_y, cyDatA_x, xentry, List.range_succ, hxty]

theorem cy_solve_023 :
    cholesky_reg [(Real.sqrt 3 * cxt, [])] [201 * cxt] = [67 / cxt] := by
  have ht := cxt_pos
  have h3 : Real.sqrt 3 * Real.sqrt 3 = 3 := Real.mul_self_sqrt (by norm_num)
  have hden : Real.sqrt 3 * cxt * (Real.sqrt 3 * cxt) = 3 * cxt ^ 2 := by
    rw [show Real.sqrt 3 * cxt * (Real.sqrt 3 * cxt)
      = Real.sqrt 3 * Real.sqrt 3 * cxt ^ 2 by ring, h3]
  have hval : 201 * cxt / (Real.sqrt 3 * cxt) / (Real.sqrt 3 * cxt)
      = 67 / cxt := by
    rw [div_div, hden]
    field_simp
    ring
  norm_num [cholesky_reg, forwardSolve, backwardSolve, dotK, hval]

theorem cy_upd_A :
    update_chol_xty Real.sqrt rhyp cyDatA [true, true, true, true]
      [true, false, true, true] [(2 * cxt, [])] [200 * cxt] [0, 1, 2, 3]
      = (.ok, [(Real.sqrt 3 * cxt, [])], [201 * cxt], [1, 1, 2, 3]) := by
  have ht := cxt_pos
  have hnonneg : ¬ ((3 : ℝ) * cxt ^ 2 < 0) := by
    push_neg
    positivity
  have hdd : (2 * cxt) ^ 2 - cxt ^ 2 = 3 * cxt ^ 2 := by ring
  have hsqrt3c : Real.sqrt (3 * cxt ^ 2) = Real.sqrt 3 * cxt := by
    rw [Real.sqrt_mul (by norm_num) (cxt ^ 2), sqrt_cxt_sq]
  have h201 : 200 * cxt + cxt = 201 * cxt := by ring
  rw [update_chol_xty]
  norm_num [ucx_pass1_step, ucx_pass2, xtx_update, chol_downdate, xentry,
    cyDatA_n, cyDatA_p, cyDatA_w, cyDatA_y, cyDatA_x, List.range_succ,
    Real.sqrt_one, hnonneg, hdd, hsqrt3c, h201]

theorem cy_alg4_A :
    algorithm_4 Real.sqrt rhyp sigmaRMSE cyDatA 2 4
      ⟨[(2 * cxt, [])], [200 * cxt], [50 / cxt], [-49, -51, 50, 50],
        [49 / cyD, 51 / cyD, 50 / cyD, 50 / cyD], [true, true, true, true],
        [true, false, true, true], 2, [0, 1, 2, 3]⟩
      = (.ok, ⟨[(Real.sqrt 3 * cxt, [])], [201 * cxt], [67 / cxt],
          [-66, -68, 33, 33],
          [Real.sqrt 2, 34 / 33, (Real.sqrt 2)⁻¹, (Real.sqrt 2)⁻¹],
          [true, false, true, true], [true, false, true, true], 3,
          [1, 1, 2, 3]⟩) := by
  have ht := cxt_pos
  have hc67 : cxt * (67 / cxt) = 67 := by field_simp
  rw [algorithm_4]
  norm_num [cy_upd_A, cy_solve_023, cy_sigma_023, cy_ct_023_A, cyDatA_n,
    cyDatA_p, cyDatA_w, cyDatA_y, cyDatA_x, xentry, List.range_succ, hc67]

theorem cy_steps_A :
    wbacon_steps01 Real.sqrt rhyp sigmaRMSE cyDatA [true, true, false, false]
      [0, 0, 0, 0] [0] [0, 0, 0, 0] 2 2
      = (.ok, ⟨[(Real.sqrt 3 * cxt, [])], [201 * cxt], [67 / cxt],
          [-66, -68, 33, 33],
          [Real.sqrt 2, 34 / 33, (Real.sqrt 2)⁻¹, (Real.sqrt 2)⁻¹],
          [true, false, true, true], [true, false, true, true], 3,
          [1, 1, 2, 3]⟩) := by
  have hinit := cy_init_A
  rw [wbacon_steps01]
  norm_num [cyDatA_n, cyDatA_p, hinit, cy_sel_A, cy_alg4_A]

theorem cy_alg5_A :
    algorithm_5 Real.sqrt (fun prob _ => qt2 prob) sigmaRMSE cyDatA (1 / 20)
      50 1
      ⟨[(Real.sqrt 3 * cxt, [])], [201 * cxt], [67 / cxt], [-66, -68, 33, 33],
        [Real.sqrt 2, 34 / 33, (Real.sqrt 2)⁻¹, (Real.sqrt 2)⁻¹],
        [true, false, true, true], [true, false, true, true], 3, [1, 1, 2, 3]⟩
      = (.rankDeficient, 1,
          ⟨[(Real.sqrt 3 * cxt, [])], [201 * cxt], [67 / cxt],
            [-66, -68, 33, 33],
            [Real.sqrt 2, 34 / 33, (Real.sqrt 2)⁻¹, (Real.sqrt 2)⁻¹],
            [true, false, true, true], [true, false, true, true], 3,
            [1, 1, 2, 3]⟩) := by
  rw [show (50 : ℕ) = 49 + 1 from rfl, algorithm_5]
  norm_num [cyDatA_w, cy_fit_023_A]

theorem cy_run_A :
    wbacon_reg Real.sqrt rhyp (fun prob _ => qt2 prob) sigmaRMSE cyDatA
      [true, true, false, false] [0, 0, 0, 0] [0] [0, 0, 0, 0] 2 2 (1 / 20) 50
      = ⟨[67 / cxt], [-66, -68, 33, 33], [true, false, true, true],
          [Real.sqrt 2, 34 / 33, (Real.sqrt 2)⁻¹, (Real.sqrt 2)⁻¹], 3, false,
          50⟩ := by
  rw [wbacon_reg, cy_steps_A]
  norm_num [cy_alg5_A]
  decide

theorem cy_init_B :
    initial_reg Real.sqrt sigmaRMSE cyDatB
      ⟨[((0 : ℝ), [])], [0], [0], [0, 0, 0, 0], [0, 0, 0, 0],
        [true, true, false, false], List.replicate 4 false, 2,
        List.replicate 4 0⟩
      = (.ok, ⟨[(2 * cxt, [])], [0], [0], [1, -1, 100, 100],
          [1, 1, 100 / Real.sqrt 3, 100 / Real.sqrt 3],
          [true, true, false, false], List.replicate 4 false, 2,
          List.replicate 4 0⟩) := by
  rw [initial_reg]
  norm_num [cy_fit_01_B, cy_sigma_01, cy_ct_01_B, cyDatB_n, cyDatB_p,
    cyDatB_w, cyDatB_y, cyDatB_x, xentry, List.range_succ]

theorem cy_alg4_B :
    algorithm_4 Real.sqrt rhyp sigmaRMSE cyDatB 2 4
      ⟨[(2 * cxt, [])], [0], [0], [1, -1, 100, 100],
        [1, 1, 100 / Real.sqrt 3, 100 / Real.sqrt 3],
        [true, true, false, false], [true, true, false, false], 2,
        List.replicate 4 0⟩
      = (.ok, ⟨[(2 * cxt, [])], [0], [0], [1, -1, 100, 100],
          [1, 1, 100 / Real.sqrt 3, 100 / Real.sqrt 3],
          [true, true, false, false], [true, true, false, false], 3,
          List.replicate 4 0⟩) := by
  rw [algorithm_4]
  norm_num [update_chol_xty_self, cholesky_reg, forwardSolve, backwardSolve,
    dotK, cy_sigma_01, cy_ct_01_B, cyDatB_n, cyDatB_p, cyDatB_w, cyDatB_y,
    cyDatB_x, xentry, List.range_succ]

theorem cy_steps_B :
    wbacon_steps01 Real.sqrt rhyp sigmaRMSE cyDatB [true, true, false, false]
      [0, 0, 0, 0] [0] [0, 0, 0, 0] 2 2
      = (.ok, ⟨[(2 * cxt, [])], [0], [0], [1, -1, 100, 100],
          [1, 1, 100 / Real.sqrt 3, 100 / Real.sqrt 3],
          [true, true, false, false], [true, true, false, false], 3,
          List.replicate 4 0⟩) := by
  have hinit := cy_init_B
  rw [wbacon_steps01]
  norm_num [cyDatB_n, cyDatB_p, hinit, cy_sel_B, cy_alg4_B]

theorem cy_alg5_B :
    algorithm_5 Real.sqrt (fun prob _ => qt2 prob) sigmaRMSE cyDatB (1 / 20)
      50 1
      ⟨[(2 * cxt, [])], [0], [0], [1, -1, 100, 100],
        [1, 1, 100 / Real.sqrt 3, 100 / Real.sqrt 3],
        [true, true, false, false], [true, true, false, false], 3,
        List.replicate 4 0⟩
      = (.ok, 1, ⟨[(2 * cxt, [])], [0], [0], [1, -1, 100, 100],
          [1, 1, 100 / Real.sqrt 3, 100 / Real.sqrt 3],
          [true, true, false, false], [true, true, false, false], 2,
          List.replicate 4 0⟩) := by
  have h1Q : (1 : ℝ) < qt2 (159 / 160) := cy_one_lt_Q
  have hoQ : ¬ (100 / Real.sqrt 3 < qt2 (159 / 160)) := not_lt.mpr cy_Q_le_od
  rw [show (50 : ℕ) = 49 + 1 from rfl, algorithm_5]
  norm_num [cyDatB_n, cyDatB_p, cyDatB_w, cy_fit_01_B, cy_sigma_01,
    cy_ct_01_B, List.range_succ, h1Q, hoQ]

theorem cy_run_B :
    wbacon_reg Real.sqrt rhyp (fun prob _ => qt2 prob) sigmaRMSE cyDatB
      [true, true, false, false] [0, 0, 0, 0] [0] [0, 0, 0, 0] 2 2 (1 / 20) 50
      = ⟨[0], [1, -1, 100, 100], [true, true, false, false],
          [1, 1, 100 / Real.sqrt 3, 100 / Real.sqrt 3], 2, true, 1⟩ := by
  rw [wbacon_reg, cy_steps_B]
  norm_num [cy_alg5_B]

/-- Claim C9, counterexample: doubling all weights uniformly is *not*
neutral.  `cyDatB` is `cyDatA` with every weight doubled (identical design
matrix and response); both runs use the same seed subset `{0, 1}`, the same
initial buffers, `collect = 2`, `alpha = 1/20`, `maxiter = 50` and the same
faithfully instantiated collaborators (the exact Student-t quantile `qt2`
and the residual scale estimator `sigmaRMSE`); yet both the returned
coefficient vectors and the returned subsets differ.  The sensitivity enters
through the absolute rank test `|R[i,i]| < sqrt(DBL_EPSILON)` of `fitwls` on
the seed fit: the seed Gram matrix is `2 t^2` with `t = 2^-27`, so its
factor is `sqrt(2) * 2^-27 < 2^-26` under unit weights (rank-deficient) but
exactly `2^-26` (full rank) under doubled weights.  The unit-weight run
therefore takes `initial_reg`'s growth detour to the full subset, selects
the candidate `{0, 2, 3}` — whose Gram `3 t^2` is also sub-threshold, which
the Cholesky path of `algorithm_4` does not test — and aborts in its first
refinement iteration, returning the growth-phase coefficients `[67/t]` with
subset `{0, 2, 3}` and `success = false`; the doubled-weight run fits the
seed subset, converges in one refinement iteration, and returns
coefficients `[0]` with subset `{0, 1}`.  The single cutoff evaluation
(probability `159/160`, 2 degrees of freedom, cutoff `≈ 8.8602`) and every
subset selection are decided by margins of an order of magnitude (scores
`1` and `100/sqrt(3) ≈ 57.7`), so the divergence does not hinge on fine
collaborator values. -/
theorem claim_C9_weight_scaling_counterexample :
    cyDatB.n = cyDatA.n ∧ cyDatB.p = cyDatA.p ∧ cyDatB.x = cyDatA.x ∧
    cyDatB.y = cyDatA.y ∧ cyDatB.w = cyDatA.w.map (fun wi => 2 * wi) ∧
    ¬ ((wbacon_reg Real.sqrt rhyp (fun prob _ => qt2 prob) sigmaRMSE cyDatB
          [true, true, false, false] [0, 0, 0, 0] [0] [0, 0, 0, 0] 2 2
          (1 / 20) 50).beta
        = (wbacon_reg Real.sqrt rhyp (fun prob _ => qt2 prob) sigmaRMSE
          cyDatA [true, true, false, false] [0, 0, 0, 0] [0] [0, 0, 0, 0] 2 2
          (1 / 20) 50).beta) ∧
    ¬ ((wbacon_reg Real.sqrt rhyp (fun prob _ => qt2 prob) sigmaRMSE cyDatB
          [true, true, false, false] [0, 0, 0, 0] [0] [0, 0, 0, 0] 2 2
          (1 / 20) 50).subset
        = (wbacon_reg Real.sqrt rhyp (fun prob _ => qt2 prob) sigmaRMSE
          cyDatA [true, true, false, false] [0, 0, 0, 0] [0] [0, 0, 0, 0] 2 2
          (1 / 20) 50).subset) := by
  have h : (0 : ℝ) ≠ 67 / cxt := ne_of_lt (div_pos (by norm_num) cxt_pos)
  refine ⟨rfl, rfl, rfl, rfl, by norm_num [cyDatA, cyDatB], ?_, ?_⟩
  · rw [cy_run_A, cy_run_B]
    simpa using h
  · rw [cy_run_A, cy_run_B]
    simp

/-! ### Equivariance under uniform weight rescaling

Specification devices for the corrected form of claim C9.  Multiplying all
weights by `c = s^2` scales the triangular factor by `s` and the
cross-product vector by `c` while leaving coefficients, residuals,
discrepancies and all subset decisions unchanged — except for the absolute
rank test `|R[i,i]| < sqrt(DBL_EPSILON)` of `fitwls`, which is where the
counterexample above enters.  `scaleV`, `scaleL` and `scaleData` describe
the transformation; the lemmas below prove each embedded routine
equivariant. -/

/-- Pointwise scaling of a vector by `a`. -/
def scaleV (a : ℝ) (v : List ℝ) : List ℝ := v.map (fun x => a * x)

/-- Scaling of a triangular factor in column representation: every stored
entry is multiplied by `a`. -/
def scaleL (a : ℝ) (L : List (ℝ × List ℝ)) : List (ℝ × List ℝ) :=
  L.map (fun col => (a * col.1, scaleV a col.2))

/-- The regression data with every weight multiplied by `c` (design matrix
and response unchanged). -/
def scaleData (c : ℝ) (dat : regdata ℝ) : regdata ℝ :=
  { dat with w := scaleV c dat.w }

theorem scaleV_getD (a : ℝ) (v : List ℝ) (i : ℕ) :
    (scaleV a v).getD i 0 = a * v.getD i 0 := by
  simpa [scaleV] using List.getD_map v 0 (fun x => a * x)

theorem scaleV_headD (a : ℝ) (v : List ℝ) :
    (scaleV a v).headD 0 = a * v.headD 0 := by
  rw [scaleV]
  cases v <;> simp

theorem scaleV_tail (a : ℝ) (v : List ℝ) :
    (scaleV a v).tail = scaleV a v.tail := by
  simp [scaleV, List.map_tail]

theorem scaleV_comp (a b : ℝ) (v : List ℝ) :
    scaleV a (scaleV b v) = scaleV (a * b) v := by
  simp [scaleV, Function.comp, mul_assoc]

theorem scaleV_one (v : List ℝ) : scaleV 1 v = v := by
  simp [scaleV]

theorem dotK_scaleV (a b : ℝ) (x y : List ℝ) :
    dotK (scaleV a x) (scaleV b y) = a * b * dotK x y := by
  induction x generalizing y with
  | nil => simp [dotK, scaleV]
  | cons xh xt ih =>
    cases y with
    | nil => simp [dotK, scaleV]
    | cons yh yt =>
      have ihy := ih yt
      simp only [dotK, scaleV, List.map_cons, List.zipWith_cons_cons,
        List.sum_cons] at ihy ⊢
      rw [mul_add, ihy]
      ring_nf

theorem scaleL_fst_getD (a : ℝ) (L : List (ℝ × List ℝ)) (i : ℕ) :
    ((scaleL a L).getD i (0, [])).1 = a * (L.getD i (0, [])).1 := by
  rcases Nat.lt_or_ge i L.length with h | h
  · rw [List.getD_eq_getElem _ _ (by simpa [scaleL] using h),
      List.getD_eq_getElem _ _ h]
    simp [scaleL]
  · rw [List.getD_eq_default _ _ (by simpa [scaleL] using h),
      List.getD_eq_default _ _ h]
    simp

theorem scaleL_snd_getD (a : ℝ) (L : List (ℝ × List ℝ)) (i : ℕ) :
    ((scaleL a L).getD i (0, [])).2 = scaleV a (L.getD i (0, [])).2 := by
  rcases Nat.lt_or_ge i L.length with h | h
  · rw [List.getD_eq_getElem _ _ (by simpa [scaleL] using h),
      List.getD_eq_getElem _ _ h]
    simp [scaleL]
  · rw [List.getD_eq_default _ _ (by simpa [scaleL] using h),
      List.getD_eq_default _ _ h]
    simp [scaleV]

theorem triEntry_scale (a : ℝ) (L : List (ℝ × List ℝ)) (r c : ℕ) :
    triEntry (scaleL a L) r c = a * triEntry L r c := by
  rw [triEntry, triEntry]
  split
  · exact scaleL_fst_getD a L c
  · split
    · rw [scaleL_snd_getD, scaleV_getD]
    · ring

theorem scaleData_n (c : ℝ) (dat : regdata ℝ) : (scaleData c dat).n = dat.n :=
  rfl

theorem scaleData_p (c : ℝ) (dat : regdata ℝ) : (scaleData c dat).p = dat.p :=
  rfl

theorem scaleData_x (c : ℝ) (dat : regdata ℝ) : (scaleData c dat).x = dat.x :=
  rfl

theorem scaleData_y (c : ℝ) (dat : regdata ℝ) : (scaleData c dat).y = dat.y :=
  rfl

theorem scaleData_w (c : ℝ) (dat : regdata ℝ) :
    (scaleData c dat).w = scaleV c dat.w := rfl

theorem xentry_scale (c : ℝ) (dat : regdata ℝ) (i j : ℕ) :
    xentry (scaleData c dat) i j = xentry dat i j := rfl

theorem effweight_scale (c : ℝ) (subset : List Bool) (w : List ℝ) :
    effweight subset (scaleV c w) = scaleV c (effweight subset w) := by
  induction subset generalizing w with
  | nil => simp [effweight, scaleV]
  | cons sh st ih =>
    cases w with
    | nil => simp [effweight, scaleV]
    | cons wh wt =>
      have ihw := ih wt
      simp only [effweight, scaleV, List.map_cons, List.zipWith_cons_cons] at ihw ⊢
      rw [ihw]
      rcases sh <;> simp

theorem sqrt_sq_scale (s : ℝ) (hs : 0 ≤ s) (x : ℝ) :
    Real.sqrt (s ^ 2 * x) = s * Real.sqrt x := by
  rw [Real.sqrt_mul (by positivity), Real.sqrt_sq hs]

theorem rhyp_scale (s : ℝ) (hs : 0 ≤ s) (a b : ℝ) :
    rhyp (s * a) (s * b) = s * rhyp a b := by
  rw [rhyp, rhyp,
    show (s * a) ^ 2 + (s * b) ^ 2 = s ^ 2 * (a ^ 2 + b ^ 2) by ring,
    sqrt_sq_scale s hs]

theorem zipWith_scaleV (f g : ℝ → ℝ → ℝ) (a b c : ℝ)
    (h : ∀ x y, f (a * x) (b * y) = c * g x y) (l1 : List ℝ) :
    ∀ l2 : List ℝ,
      List.zipWith f (scaleV a l1) (scaleV b l2)
        = scaleV c (List.zipWith g l1 l2) := by
  induction l1 with
  | nil => intro l2; simp [scaleV]
  | cons x xs ih =>
    intro l2
    cases l2 with
    | nil => simp [scaleV]
    | cons y ys =>
      have ihy := ih ys
      simp only [scaleV, List.map_cons, List.zipWith_cons_cons] at ihy ⊢
      rw [h x y, ihy]

theorem up_below_scale (s : ℝ) (hs : 0 < s) (d uv : ℝ)
    (below utail : List ℝ) :
    up_below rhyp (s * d) (s * uv) (scaleV s below) (scaleV s utail)
      = scaleV s (up_below rhyp d uv below utail) := by
  rw [up_below, up_below]
  apply zipWith_scaleV
  intro x y
  rw [rhyp_scale s hs.le, mul_div_mul_left _ _ hs.ne',
    mul_div_mul_left _ _ hs.ne']
  ring

theorem up_u_scale (s : ℝ) (hs : 0 < s) (d uv : ℝ) (below utail : List ℝ) :
    up_u rhyp (s * d) (s * uv) (scaleV s below) (scaleV s utail)
      = scaleV s (up_u rhyp d uv below utail) := by
  rw [up_u, up_u, up_below_scale s hs]
  apply zipWith_scaleV
  intro x y
  rw [rhyp_scale s hs.le, mul_div_mul_left _ _ hs.ne',
    mul_div_mul_left _ _ hs.ne']
  ring

theorem chol_update_scale (s : ℝ) (hs : 0 < s) :
    ∀ (L : List (ℝ × List ℝ)) (u : List ℝ),
      chol_update Real.sqrt rhyp (scaleL s L) (scaleV s u)
        = scaleL s (chol_update Real.sqrt rhyp L u) := by
  intro L
  induction L with
  | nil => intro u; simp [chol_update, scaleL]
  | cons col rest ih =>
    obtain ⟨d, below⟩ := col
    cases rest with
    | nil =>
      intro u
      have h1 : scaleL s [(d, below)] = [(s * d, scaleV s below)] := rfl
      rw [h1]
      simp only [chol_update]
      rw [scaleV_headD s u,
        show (s * d) ^ 2 + (s * u.headD 0) ^ 2
          = s ^ 2 * (d ^ 2 + u.headD 0 ^ 2) by ring,
        sqrt_sq_scale s hs.le]
      rfl
    | cons r rs =>
      intro u
      cases u with
      | nil => simp [chol_update, scaleL, scaleV]
      | cons uv utail =>
        have hL : scaleL s ((d, below) :: r :: rs)
            = (s * d, scaleV s below)
              :: (s * r.1, scaleV s r.2) :: scaleL s rs := by
          cases r
          rfl
        have hu : scaleV s (uv :: utail) = s * uv :: scaleV s utail := rfl
        have hback : (s * r.1, scaleV s r.2) :: scaleL s rs
            = scaleL s (r :: rs) := by
          cases r
          rfl
        rw [hL, hu]
        simp only [chol_update]
        rw [up_below_scale s hs, up_u_scale s hs, hback, ih,
          rhyp_scale s hs.le]
        simp [scaleL]

theorem dd_below_scale (s : ℝ) (hs : 0 < s) (d uv : ℝ)
    (below utail : List ℝ) :
    dd_below Real.sqrt (s * d) (s * uv) (scaleV s below) (scaleV s utail)
      = scaleV s (dd_below Real.sqrt d uv below utail) := by
  rw [dd_below, dd_below]
  apply zipWith_scaleV
  intro x y
  rw [show (s * d) ^ 2 - (s * uv) ^ 2 = s ^ 2 * (d ^ 2 - uv ^ 2) by ring,
    sqrt_sq_scale s hs.le, mul_div_mul_left _ _ hs.ne',
    mul_div_mul_left _ _ hs.ne']
  ring

theorem dd_u_scale (s : ℝ) (hs : 0 < s) (d uv : ℝ) (below utail : List ℝ) :
    dd_u Real.sqrt (s * d) (s * uv) (scaleV s below) (scaleV s utail)
      = scaleV s (dd_u Real.sqrt d uv below utail) := by
  rw [dd_u, dd_u, dd_below_scale s hs]
  apply zipWith_scaleV
  intro x y
  rw [show (s * d) ^ 2 - (s * uv) ^ 2 = s ^ 2 * (d ^ 2 - uv ^ 2) by ring,
    sqrt_sq_scale s hs.le, mul_div_mul_left _ _ hs.ne',
    mul_div_mul_left _ _ hs.ne']
  ring

theorem chol_downdate_scale (s : ℝ) (hs : 0 < s) :
    ∀ (L : List (ℝ × List ℝ)) (u : List ℝ),
      chol_downdate Real.sqrt (scaleL s L) (scaleV s u)
        = (chol_downdate Real.sqrt L u).map (scaleL s) := by
  intro L
  induction L with
  | nil => intro u; simp [chol_downdate, scaleL, Except.map]
  | cons col rest ih =>
    obtain ⟨d, below⟩ := col
    have hsq : ∀ x y : ℝ, (s * x) ^ 2 - (s * y) ^ 2 < 0 ↔ x ^ 2 - y ^ 2 < 0 := by
      intro x y
      rw [show (s * x) ^ 2 - (s * y) ^ 2 = s ^ 2 * (x ^ 2 - y ^ 2) by ring]
      constructor
      · intro h
        by_contra hge
        exact absurd (mul_nonneg (by positivity) (not_lt.mp hge))
          (not_le.mpr h)
      · intro h
        exact mul_neg_of_pos_of_neg (by positivity) h
    cases rest with
    | nil =>
      intro u
      have h1 : scaleL s [(d, below)] = [(s * d, scaleV s below)] := rfl
      rw [h1]
      simp only [chol_downdate]
      rw [scaleV_headD s u]
      rcases lt_or_ge (d ^ 2 - u.headD 0 ^ 2) 0 with hneg | hpos
      · rw [if_pos ((hsq d (u.headD 0)).mpr hneg), if_pos hneg]
        rfl
      · rw [if_neg (by rw [hsq]; exact not_lt.mpr hpos),
          if_neg (not_lt.mpr hpos)]
        simp only [Except.map]
        rw [show (s * d) ^ 2 - (s * u.headD 0) ^ 2
            = s ^ 2 * (d ^ 2 - u.headD 0 ^ 2) by ring, sqrt_sq_scale s hs.le]
        rfl
    | cons r rs =>
      intro u
      cases u with
      | nil => simp [chol_downdate, scaleL, scaleV, Except.map]
      | cons uv utail =>
        have hL : scaleL s ((d, below) :: r :: rs)
            = (s * d, scaleV s below)
              :: (s * r.1, scaleV s r.2) :: scaleL s rs := by
          cases r
          rfl
        have hu : scaleV s (uv :: utail) = s * uv :: scaleV s utail := rfl
        have hback : (s * r.1, scaleV s r.2) :: scaleL s rs
            = scaleL s (r :: rs) := by
          cases r
          rfl
        rw [hL, hu]
        simp only [chol_downdate]
        rcases lt_or_ge (d ^ 2 - uv ^ 2) 0 with hneg | hpos
        · rw [if_pos ((hsq d uv).mpr hneg), if_pos hneg]
          rfl
        · rw [if_neg (by rw [hsq]; exact not_lt.mpr hpos),
            if_neg (not_lt.mpr hpos), dd_u_scale s hs, hback, ih]
          cases hcd : chol_downdate Real.sqrt (r :: rs)
              (dd_u Real.sqrt d uv below utail) with
          | ok rest2 =>
            simp only [Except.map, dd_below_scale s hs]
            rw [show (s * d) ^ 2 - (s * uv) ^ 2
              = s ^ 2 * (d ^ 2 - uv ^ 2) by ring, sqrt_sq_scale s hs.le]
            simp [scaleL]
          | error e => simp [Except.map]

theorem zipWith_scaleV_left (f g : ℝ → ℝ → ℝ) (a c : ℝ)
    (h : ∀ x y, f (a * x) y = c * g x y) (l1 : List ℝ) :
    ∀ l2 : List ℝ,
      List.zipWith f (scaleV a l1) l2 = scaleV c (List.zipWith g l1 l2) := by
  induction l1 with
  | nil => intro l2; simp [scaleV]
  | cons x xs ih =>
    intro l2
    cases l2 with
    | nil => simp [scaleV]
    | cons y ys =>
      have ihy := ih ys
      simp only [scaleV, List.map_cons, List.zipWith_cons_cons] at ihy ⊢
      rw [h x y, ihy]

theorem zipWith_scaleV_right (f g : ℝ → ℝ → ℝ) (a : ℝ)
    (h : ∀ x y, f x (a * y) = g x y) (l1 : List ℝ) :
    ∀ l2 : List ℝ,
      List.zipWith f l1 (scaleV a l2) = List.zipWith g l1 l2 := by
  induction l1 with
  | nil => intro l2; simp [scaleV]
  | cons x xs ih =>
    intro l2
    cases l2 with
    | nil => simp [scaleV]
    | cons y ys =>
      have ihy := ih ys
      simp only [scaleV, List.map_cons, List.zipWith_cons_cons] at ihy ⊢
      rw [h x y, ihy]

theorem dotK_scaleV_right (b : ℝ) (x : List ℝ) :
    ∀ y : List ℝ, dotK x (scaleV b y) = b * dotK x y := by
  induction x with
  | nil => intro y; simp [dotK, scaleV]
  | cons xh xt ih =>
    intro y
    cases y with
    | nil => simp [dotK, scaleV]
    | cons yh yt =>
      have ihy := ih yt
      simp only [dotK, scaleV, List.map_cons, List.zipWith_cons_cons,
        List.sum_cons] at ihy ⊢
      rw [ihy]
      ring

theorem forwardSolve_smul (m : ℝ) :
    ∀ (L : List (ℝ × List ℝ)) (b : List ℝ),
      forwardSolve L (scaleV m b) = scaleV m (forwardSolve L b) := by
  intro L
  induction L with
  | nil => intro b; simp [forwardSolve, scaleV]
  | cons col rest ih =>
    obtain ⟨d, below⟩ := col
    intro b
    simp only [forwardSolve]
    rw [scaleV_headD, scaleV_tail,
      zipWith_scaleV_left
        (fun bi li => bi - m * b.headD 0 / d * li)
        (fun bi li => bi - b.headD 0 / d * li) m m
        (by intro x y; ring) b.tail below, ih]
    simp only [scaleV, List.map_cons]
    rw [mul_div_assoc]

theorem backwardSolve_smul (m : ℝ) :
    ∀ (L : List (ℝ × List ℝ)) (b : List ℝ),
      backwardSolve L (scaleV m b) = scaleV m (backwardSolve L b) := by
  intro L
  induction L with
  | nil => intro b; simp [backwardSolve, scaleV]
  | cons col rest ih =>
    obtain ⟨d, below⟩ := col
    intro b
    simp only [backwardSolve]
    rw [scaleV_headD, scaleV_tail, ih, dotK_scaleV_right]
    simp only [scaleV, List.map_cons]
    rw [show (m * b.headD 0
        - m * dotK below (backwardSolve rest b.tail)) / d
      = m * ((b.headD 0 - dotK below (backwardSolve rest b.tail)) / d)
      by ring]

theorem forwardSolve_scaleL (s : ℝ) (hs : s ≠ 0) :
    ∀ (L : List (ℝ × List ℝ)) (b : List ℝ),
      forwardSolve (scaleL s L) b = scaleV s⁻¹ (forwardSolve L b) := by
  intro L
  induction L with
  | nil => intro b; simp [forwardSolve, scaleL, scaleV]
  | cons col rest ih =>
    obtain ⟨d, below⟩ := col
    intro b
    have h1 : scaleL s ((d, below) :: rest)
        = (s * d, scaleV s below) :: scaleL s rest := rfl
    rw [h1]
    simp only [forwardSolve]
    rw [zipWith_scaleV_right
        (fun bi li => bi - b.headD 0 / (s * d) * li)
        (fun bi li => bi - b.headD 0 / d * li) s
        (by intro x y
            dsimp only
            rw [show b.headD 0 / (s * d) * (s * y)
                = s * (b.headD 0 * y) / (s * d) by ring,
              mul_div_mul_left _ _ hs, mul_div_assoc]
            ring)
        b.tail below, ih]
    simp only [scaleV, List.map_cons]
    rw [show b.headD 0 / (s * d) = s⁻¹ * (b.headD 0 / d) by
      rw [div_eq_mul_inv, div_eq_mul_inv, mul_inv]
      ring]

theorem backwardSolve_scaleL (s : ℝ) (hs : s ≠ 0) :
    ∀ (L : List (ℝ × List ℝ)) (b : List ℝ),
      backwardSolve (scaleL s L) b = scaleV s⁻¹ (backwardSolve L b) := by
  intro L
  induction L with
  | nil => intro b; simp [backwardSolve, scaleL, scaleV]
  | cons col rest ih =>
    obtain ⟨d, below⟩ := col
    intro b
    have h1 : scaleL s ((d, below) :: rest)
        = (s * d, scaleV s below) :: scaleL s rest := rfl
    rw [h1]
    simp only [backwardSolve]
    rw [ih, dotK_scaleV, mul_inv_cancel₀ hs, one_mul]
    simp only [scaleV, List.map_cons]
    rw [show (b.headD 0 - dotK below (backwardSolve rest b.tail)) / (s * d)
        = s⁻¹ * ((b.headD 0 - dotK below (backwardSolve rest b.tail)) / d) by
      rw [div_eq_mul_inv, div_eq_mul_inv, mul_inv]
      ring]

theorem cholesky_reg_scale (s : ℝ) (hs : s ≠ 0) (L : List (ℝ × List ℝ))
    (xty : List ℝ) :
    cholesky_reg (scaleL s L) (scaleV (s ^ 2) xty) = cholesky_reg L xty := by
  rw [cholesky_reg, cholesky_reg, forwardSolve_smul, forwardSolve_scaleL s hs,
    scaleV_comp, backwardSolve_smul, backwardSolve_scaleL s hs, scaleV_comp]
  rw [show s ^ 2 * s⁻¹ * s⁻¹ = 1 by field_simp; ring]
  exact scaleV_one _

theorem trinv_scale (s : ℝ) (hs : s ≠ 0) :
    ∀ L : List (ℝ × List ℝ), trinv (scaleL s L) = scaleL s⁻¹ (trinv L) := by
  intro L
  induction L with
  | nil => simp [trinv, scaleL]
  | cons col rest ih =>
    obtain ⟨d, below⟩ := col
    have h1 : scaleL s ((d, below) :: rest)
        = (s * d, scaleV s below) :: scaleL s rest := rfl
    rw [h1]
    simp only [trinv]
    have hmap : (scaleV s below).map (fun l => -(l / (s * d)))
        = below.map (fun l => -(l / d)) := by
      rw [scaleV, List.map_map]
      apply List.map_congr_left
      intro a _
      simp only [Function.comp]
      rw [mul_div_mul_left _ _ hs]
    rw [hmap, forwardSolve_scaleL s hs, ih,
      show (1 : ℝ) / (s * d) = s⁻¹ * (1 / d) by
        rw [one_div, one_div, mul_inv]]
    simp [scaleL]

theorem sum_range_map_mul_left (a : ℝ) (f : ℕ → ℝ) :
    ∀ q : ℕ,
      ((List.range q).map (fun k => a * f k)).sum
        = a * ((List.range q).map f).sum := by
  intro q
  induction q with
  | zero => simp
  | succ n ih =>
    rw [List.range_succ]
    simp only [List.map_append, List.map_cons, List.map_nil, List.sum_append,
      List.sum_cons, List.sum_nil, ih]
    ring

theorem sum_range_congr (f g : ℕ → ℝ) (q : ℕ) (h : ∀ k, f k = g k) :
    ((List.range q).map f).sum = ((List.range q).map g).sum := by
  congr 1
  exact List.map_congr_left (fun a _ => h a)

theorem hat_matrix_scale (s : ℝ) (hs : s ≠ 0) (dat : regdata ℝ)
    (L : List (ℝ × List ℝ)) :
    hat_matrix (scaleData (s ^ 2) dat) (scaleL s L) = hat_matrix dat L := by
  rw [hat_matrix, hat_matrix]
  have hany : ∀ LL : List (ℝ × List ℝ),
      ((scaleL s LL).map Prod.fst).any (fun d => decide (d = 0))
        = (LL.map Prod.fst).any (fun d => decide (d = 0)) := by
    intro LL
    induction LL with
    | nil => rfl
    | cons c cs ihc =>
      simp only [scaleL, List.map_cons, List.any_cons] at ihc ⊢
      rw [ihc]
      congr 1
      exact decide_eq_decide.mpr (by simp [mul_eq_zero, hs])
  rw [hany]
  cases (L.map Prod.fst).any (fun d => decide (d = 0)) with
  | true => rfl
  | false =>
    simp only [Bool.false_eq_true, if_false]
    congr 1
    rw [scaleData_n]
    apply List.map_congr_left
    intro i _
    rw [scaleData_w, scaleV_getD, scaleData_p]
    have hin : ∀ j : ℕ,
        ((List.range dat.p).map (fun k =>
          xentry (scaleData (s ^ 2) dat) i k
            * triEntry (trinv (scaleL s L)) j k)).sum
          = s⁻¹ * ((List.range dat.p).map (fun k =>
              xentry dat i k * triEntry (trinv L) j k)).sum := by
      intro j
      rw [← sum_range_map_mul_left]
      apply sum_range_congr
      intro k
      rw [xentry_scale, trinv_scale s hs, triEntry_scale]
      ring
    have houter :
        ((List.range dat.p).map (fun j =>
          ((List.range dat.p).map (fun k =>
            xentry (scaleData (s ^ 2) dat) i k
              * triEntry (trinv (scaleL s L)) j k)).sum ^ 2)).sum
          = s⁻¹ ^ 2 * ((List.range dat.p).map (fun j =>
              ((List.range dat.p).map (fun k =>
                xentry dat i k * triEntry (trinv L) j k)).sum ^ 2)).sum := by
      rw [← sum_range_map_mul_left]
      apply sum_range_congr
      intro j
      rw [hin j]
      ring
    rw [houter]
    field_simp
    ring

theorem compute_ti_scale (s : ℝ) (hs : s ≠ 0) (dat : regdata ℝ)
    (L : List (ℝ × List ℝ)) (subset : List Bool) (resid : List ℝ)
    (sigma : ℝ) :
    compute_ti Real.sqrt (scaleData (s ^ 2) dat) (scaleL s L) subset resid
      sigma = compute_ti Real.sqrt dat L subset resid sigma := by
  rw [compute_ti, compute_ti, hat_matrix_scale s hs]
  rfl

theorem cholOfGram_scale (s : ℝ) (hs : 0 < s) :
    ∀ (q : ℕ) (A : ℕ → ℕ → ℝ),
      cholOfGram Real.sqrt q (fun i j => s ^ 2 * A i j)
        = scaleL s (cholOfGram Real.sqrt q A) := by
  intro q
  induction q with
  | zero => intro A; simp [cholOfGram, scaleL]
  | succ n ih =>
    intro A
    simp only [cholOfGram]
    rw [sqrt_sq_scale s hs.le]
    have hent : ∀ X : ℝ, s ^ 2 * X / (s * Real.sqrt (A 0 0))
        = s * (X / Real.sqrt (A 0 0)) := by
      intro X
      rw [show s ^ 2 * X = s * (s * X) by ring,
        mul_div_mul_left _ _ hs.ne', mul_div_assoc]
    have hbelow : (List.range n).map (fun i =>
        s ^ 2 * A (i + 1) 0 / (s * Real.sqrt (A 0 0)))
        = scaleV s ((List.range n).map (fun i =>
            A (i + 1) 0 / Real.sqrt (A 0 0))) := by
      rw [scaleV, List.map_map]
      apply List.map_congr_left
      intro a _
      simp only [Function.comp]
      exact hent _
    have hfun : (fun i j => s ^ 2 * A (i + 1) (j + 1)
        - s ^ 2 * A (i + 1) 0 / (s * Real.sqrt (A 0 0))
          * (s ^ 2 * A (j + 1) 0 / (s * Real.sqrt (A 0 0))))
        = (fun i j => s ^ 2 * (A (i + 1) (j + 1)
            - A (i + 1) 0 / Real.sqrt (A 0 0)
              * (A (j + 1) 0 / Real.sqrt (A 0 0)))) := by
      funext i j
      rw [hent, hent]
      ring
    rw [hbelow, hfun, ih]
    simp [scaleL]

theorem map_scaleV_getD (s : ℝ) (ls : List (List ℝ)) (i : ℕ) :
    (ls.map (scaleV s)).getD i [] = scaleV s (ls.getD i []) := by
  rcases Nat.lt_or_ge i ls.length with h | h
  · rw [List.getD_eq_getElem _ _ (by simpa using h),
      List.getD_eq_getElem _ _ h]
    simp
  · rw [List.getD_eq_default _ _ (by simpa using h),
      List.getD_eq_default _ _ h]
    simp [scaleV]

/-- Proof device: the weighted design matrix `wx` built inside `fitwls`. -/
noncomputable def wxOf (dat : regdata ℝ) (weight : List ℝ) : List (List ℝ) :=
  dat.x.map (fun col => (List.range dat.n).map (fun i =>
    Real.sqrt (weight.getD i 0) * col.getD i 0))

/-- Proof device: the triangular factor computed inside `fitwls`. -/
noncomputable def ROf (dat : regdata ℝ) (weight : List ℝ) : List (ℝ × List ℝ) :=
  cholOfGram Real.sqrt dat.p (fun i j =>
    dotK ((wxOf dat weight).getD i []) ((wxOf dat weight).getD j []))

/-- Proof device: the weighted response `wy` built inside `fitwls`. -/
noncomputable def wyOf (dat : regdata ℝ) (weight : List ℝ) : List ℝ :=
  (List.range dat.n).map (fun i =>
    Real.sqrt (weight.getD i 0) * dat.y.getD i 0)

/-- Proof device: the coefficient vector computed inside `fitwls`. -/
noncomputable def betaOf (dat : regdata ℝ) (weight : List ℝ) : List ℝ :=
  cholesky_reg (ROf dat weight) ((List.range dat.p).map (fun j =>
    dotK ((wxOf dat weight).getD j []) (wyOf dat weight)))

/-- Proof device: the residual vector computed inside `fitwls`. -/
noncomputable def residOf (dat : regdata ℝ) (weight : List ℝ) : List ℝ :=
  (List.range dat.n).map (fun i =>
    dat.y.getD i 0 - ((List.range dat.p).map
      (fun j => xentry dat i j * (betaOf dat weight).getD j 0)).sum)

theorem fitwls_eq (dat : regdata ℝ) (weight b r : List ℝ) :
    fitwls Real.sqrt dat weight b r
      = if (List.range dat.p).any (fun i =>
            decide (|((ROf dat weight).getD i (0, [])).1|
              < Real.sqrt (dblEpsilon ℝ))) then
          ⟨true, b, r, ROf dat weight⟩
        else
          ⟨false, betaOf dat weight, residOf dat weight, ROf dat weight⟩ :=
  rfl

theorem wxOf_scale (s : ℝ) (hs : 0 < s) (dat : regdata ℝ)
    (weight : List ℝ) :
    wxOf (scaleData (s ^ 2) dat) (scaleV (s ^ 2) weight)
      = (wxOf dat weight).map (scaleV s) := by
  simp only [wxOf, scaleData_x, scaleData_n]
  rw [List.map_map]
  apply List.map_congr_left
  intro col _
  simp only [Function.comp]
  conv_rhs => rw [scaleV, List.map_map]
  apply List.map_congr_left
  intro i _
  simp only [Function.comp]
  rw [scaleV_getD, sqrt_sq_scale s hs.le]
  ring

theorem ROf_scale (s : ℝ) (hs : 0 < s) (dat : regdata ℝ)
    (weight : List ℝ) :
    ROf (scaleData (s ^ 2) dat) (scaleV (s ^ 2) weight)
      = scaleL s (ROf dat weight) := by
  simp only [ROf, scaleData_p]
  rw [wxOf_scale s hs]
  have hfun : (fun i j => dotK (((wxOf dat weight).map (scaleV s)).getD i [])
      (((wxOf dat weight).map (scaleV s)).getD j []))
      = fun i j => s ^ 2 * dotK ((wxOf dat weight).getD i [])
          ((wxOf dat weight).getD j []) := by
    funext i j
    rw [map_scaleV_getD, map_scaleV_getD, dotK_scaleV]
    ring
  rw [hfun, cholOfGram_scale s hs]

theorem wyOf_scale (s : ℝ) (hs : 0 < s) (dat : regdata ℝ)
    (weight : List ℝ) :
    wyOf (scaleData (s ^ 2) dat) (scaleV (s ^ 2) weight)
      = scaleV s (wyOf dat weight) := by
  simp only [wyOf, scaleData_y, scaleData_n]
  conv_rhs => rw [scaleV, List.map_map]
  apply List.map_congr_left
  intro i _
  simp only [Function.comp]
  rw [scaleV_getD, sqrt_sq_scale s hs.le]
  ring

theorem betaOf_scale (s : ℝ) (hs : 0 < s) (dat : regdata ℝ)
    (weight : List ℝ) :
    betaOf (scaleData (s ^ 2) dat) (scaleV (s ^ 2) weight)
      = betaOf dat weight := by
  simp only [betaOf, scaleData_p]
  rw [ROf_scale s hs, wxOf_scale s hs, wyOf_scale s hs]
  have hfun : (List.range dat.p).map (fun j =>
      dotK (((wxOf dat weight).map (scaleV s)).getD j [])
        (scaleV s (wyOf dat weight)))
      = scaleV (s ^ 2) ((List.range dat.p).map (fun j =>
          dotK ((wxOf dat weight).getD j []) (wyOf dat weight))) := by
    conv_rhs => rw [scaleV, List.map_map]
    apply List.map_congr_left
    intro j _
    simp only [Function.comp]
    rw [map_scaleV_getD, dotK_scaleV]
    ring
  rw [hfun, cholesky_reg_scale s hs.ne']

theorem residOf_scale (s : ℝ) (hs : 0 < s) (dat : regdata ℝ)
    (weight : List ℝ) :
    residOf (scaleData (s ^ 2) dat) (scaleV (s ^ 2) weight)
      = residOf dat weight := by
  simp only [residOf, scaleData_y, scaleData_n, scaleData_p]
  rw [betaOf_scale s hs]
  rfl

theorem fitwls_scale (s : ℝ) (hs1 : 1 ≤ s) (dat : regdata ℝ)
    (weight b r b2 r2 : List ℝ)
    (hok : (fitwls Real.sqrt dat weight b r).info = false) :
    fitwls Real.sqrt (scaleData (s ^ 2) dat) (scaleV (s ^ 2) weight) b2 r2
      = ⟨false, (fitwls Real.sqrt dat weight b r).beta,
          (fitwls Real.sqrt dat weight b r).resid,
          scaleL s (fitwls Real.sqrt dat weight b r).R⟩ := by
  have hs0 : (0 : ℝ) < s := lt_of_lt_of_le one_pos hs1
  have hchk : ((List.range dat.p).any (fun i =>
      decide (|((ROf dat weight).getD i (0, [])).1|
        < Real.sqrt (dblEpsilon ℝ)))) = false := by
    cases h : (List.range dat.p).any (fun i =>
        decide (|((ROf dat weight).getD i (0, [])).1|
          < Real.sqrt (dblEpsilon ℝ))) with
    | false => rfl
    | true =>
      rw [fitwls_eq, h] at hok
      simp at hok
  have hchk2 : ((List.range (scaleData (s ^ 2) dat).p).any (fun i =>
      decide (|((ROf (scaleData (s ^ 2) dat)
          (scaleV (s ^ 2) weight)).getD i (0, [])).1|
        < Real.sqrt (dblEpsilon ℝ)))) = false := by
    rw [scaleData_p, ROf_scale s hs0]
    cases h2 : (List.range dat.p).any (fun i =>
        decide (|((scaleL s (ROf dat weight)).getD i (0, [])).1|
          < Real.sqrt (dblEpsilon ℝ))) with
    | false => rfl
    | true =>
      exfalso
      rw [List.any_eq_true] at h2
      obtain ⟨i, hi, hpi⟩ := h2
      rw [scaleL_fst_getD, decide_eq_true_iff] at hpi
      have hcontra : (List.range dat.p).any (fun i =>
          decide (|((ROf dat weight).getD i (0, [])).1|
            < Real.sqrt (dblEpsilon ℝ))) = true := by
        refine List.any_eq_true.mpr ⟨i, hi, decide_eq_true ?_⟩
        calc |((ROf dat weight).getD i (0, [])).1|
            ≤ s * |((ROf dat weight).getD i (0, [])).1| :=
              le_mul_of_one_le_left (abs_nonneg _) hs1
          _ = |s * ((ROf dat weight).getD i (0, [])).1| := by
              rw [abs_mul, abs_of_pos hs0]
          _ < Real.sqrt (dblEpsilon ℝ) := hpi
      rw [hchk] at hcontra
      exact absurd hcontra (by simp)
  simp only [fitwls_eq, hchk, hchk2, Bool.false_eq_true, if_false]
  rw [ROf_scale s hs0, betaOf_scale s hs0, residOf_scale s hs0]

theorem xtx_update_scale (s : ℝ) (hs : 0 ≤ s) (dat : regdata ℝ) (i : ℕ) :
    xtx_update Real.sqrt (scaleData (s ^ 2) dat) i
      = scaleV s (xtx_update Real.sqrt dat i) := by
  simp only [xtx_update, scaleData_p, scaleData_w]
  conv_rhs => rw [scaleV, List.map_map]
  apply List.map_congr_left
  intro j _
  simp only [Function.comp]
  rw [xentry_scale, scaleV_getD, sqrt_sq_scale s hs]
  ring

theorem ucx_pass1_step_scale (s : ℝ) (hs : 0 < s) (dat : regdata ℝ)
    (subset0 subset1 : List Bool) (L : List (ℝ × List ℝ)) (xty : List ℝ)
    (stack : List ℕ) (i : ℕ) :
    ucx_pass1_step Real.sqrt rhyp (scaleData (s ^ 2) dat) subset0 subset1
      (scaleL s L, scaleV (s ^ 2) xty, stack) i
      = (scaleL s (ucx_pass1_step Real.sqrt rhyp dat subset0 subset1
            (L, xty, stack) i).1,
         scaleV (s ^ 2) (ucx_pass1_step Real.sqrt rhyp dat subset0 subset1
            (L, xty, stack) i).2.1,
         (ucx_pass1_step Real.sqrt rhyp dat subset0 subset1
            (L, xty, stack) i).2.2) := by
  simp only [ucx_pass1_step]
  cases hA : subset1.getD i false && ! subset0.getD i false with
  | true =>
    simp only [hA, if_true]
    rw [xtx_update_scale s hs.le, chol_update_scale s hs]
    refine congrArg₂ Prod.mk rfl (congrArg₂ Prod.mk ?_ rfl)
    simp only [scaleData_p, scaleData_y, scaleData_w]
    conv_rhs => rw [scaleV, List.map_map]
    apply List.map_congr_left
    intro j _
    simp only [Function.comp]
    rw [xentry_scale, scaleV_getD, scaleV_getD]
    ring
  | false =>
    simp only [hA, Bool.false_eq_true, if_false]
    cases hB : subset0.getD i false && ! subset1.getD i false with
    | true => simp [hB]
    | false => simp [hB]

theorem ucx_pass1_fold_scale (s : ℝ) (hs : 0 < s) (dat : regdata ℝ)
    (subset0 subset1 : List Bool) :
    ∀ (idx : List ℕ) (L : List (ℝ × List ℝ)) (xty : List ℝ)
      (stack : List ℕ),
      idx.foldl (ucx_pass1_step Real.sqrt rhyp (scaleData (s ^ 2) dat)
          subset0 subset1) (scaleL s L, scaleV (s ^ 2) xty, stack)
        = (scaleL s (idx.foldl (ucx_pass1_step Real.sqrt rhyp dat subset0
              subset1) (L, xty, stack)).1,
           scaleV (s ^ 2) (idx.foldl (ucx_pass1_step Real.sqrt rhyp dat
              subset0 subset1) (L, xty, stack)).2.1,
           (idx.foldl (ucx_pass1_step Real.sqrt rhyp dat subset0 subset1)
              (L, xty, stack)).2.2) := by
  intro idx
  induction idx with
  | nil => intro L xty stack; simp
  | cons i rest ih =>
    intro L xty stack
    simp only [List.foldl_cons]
    rw [ucx_pass1_step_scale s hs, ih]

theorem ucx_pass2_scale (s : ℝ) (hs : 0 < s) (dat : regdata ℝ) :
    ∀ (stack : List ℕ) (L : List (ℝ × List ℝ)) (xty : List ℝ),
      ucx_pass2 Real.sqrt (scaleData (s ^ 2) dat) stack (scaleL s L)
        (scaleV (s ^ 2) xty)
        = (ucx_pass2 Real.sqrt dat stack L xty).map
            (fun t => (scaleL s t.1, scaleV (s ^ 2) t.2)) := by
  intro stack
  induction stack with
  | nil => intro L xty; simp [ucx_pass2, Except.map]
  | cons i rest ih =>
    intro L xty
    simp only [ucx_pass2]
    rw [xtx_update_scale s hs.le, chol_downdate_scale s hs]
    cases hcd : chol_downdate Real.sqrt L (xtx_update Real.sqrt dat i) with
    | ok L2 =>
      simp only [Except.map]
      have hxty : (List.range (scaleData (s ^ 2) dat).p).map (fun j =>
          (scaleV (s ^ 2) xty).getD j 0
            - xentry (scaleData (s ^ 2) dat) i j
              * (scaleData (s ^ 2) dat).y.getD i 0
              * (scaleData (s ^ 2) dat).w.getD i 0)
          = scaleV (s ^ 2) ((List.range dat.p).map (fun j =>
              xty.getD j 0
                - xentry dat i j * dat.y.getD i 0 * dat.w.getD i 0)) := by
        simp only [scaleData_p, scaleData_y, scaleData_w]
        conv_rhs => rw [scaleV, List.map_map]
        apply List.map_congr_left
        intro j _
        simp only [Function.comp]
        rw [xentry_scale, scaleV_getD, scaleV_getD]
        ring
      rw [hxty, ih]
      cases ucx_pass2 Real.sqrt dat rest L2
          ((List.range dat.p).map (fun j =>
            xty.getD j 0 - xentry dat i j * dat.y.getD i 0
              * dat.w.getD i 0)) with
      | ok t => rfl
      | error e2 => rfl
    | error e => simp [Except.map]

theorem update_chol_xty_scale (s : ℝ) (hs : 0 < s) (dat : regdata ℝ)
    (subset0 subset1 : List Bool) (L : List (ℝ × List ℝ)) (xty : List ℝ)
    (ia : List ℕ) :
    update_chol_xty Real.sqrt rhyp (scaleData (s ^ 2) dat) subset0 subset1
      (scaleL s L) (scaleV (s ^ 2) xty) ia
      = ((update_chol_xty Real.sqrt rhyp dat subset0 subset1 L xty ia).1,
         scaleL s (update_chol_xty Real.sqrt rhyp dat subset0 subset1 L xty
            ia).2.1,
         scaleV (s ^ 2) (update_chol_xty Real.sqrt rhyp dat subset0 subset1
            L xty ia).2.2.1,
         (update_chol_xty Real.sqrt rhyp dat subset0 subset1 L xty
            ia).2.2.2) := by
  rw [update_chol_xty, update_chol_xty]
  simp only [scaleData_n]
  rw [ucx_pass1_fold_scale s hs, ucx_pass2_scale s hs]
  cases h2 : ucx_pass2 Real.sqrt dat
      ((List.range dat.n).foldl (ucx_pass1_step Real.sqrt rhyp dat subset0
        subset1) (L, xty, [])).2.2
      ((List.range dat.n).foldl (ucx_pass1_step Real.sqrt rhyp dat subset0
        subset1) (L, xty, [])).1
      ((List.range dat.n).foldl (ucx_pass1_step Real.sqrt rhyp dat subset0
        subset1) (L, xty, [])).2.1 with
  | ok t => simp [Except.map]
  | error e => simp [Except.map]

/-- Proof device: the driver state of the rescaled run — the factor is scaled
by `s`, the cross-product vector by `s^2`, and every other buffer (subsets,
coefficients, residuals, discrepancies, `m`, the index work array) is
unchanged. -/
def scaleSt (s : ℝ) (st : Wstate ℝ) : Wstate ℝ :=
  { st with L := scaleL s st.L, xty := scaleV (s ^ 2) st.xty }

theorem scaleSt_mk (s : ℝ) (L : List (ℝ × List ℝ)) (xty beta resid dist : List ℝ)
    (subset0 subset1 : List Bool) (m : ℕ) (iarray : List ℕ) :
    (⟨scaleL s L, scaleV (s ^ 2) xty, beta, resid, dist, subset0, subset1, m,
        iarray⟩ : Wstate ℝ)
      = scaleSt s ⟨L, xty, beta, resid, dist, subset0, subset1, m, iarray⟩ :=
  rfl

theorem scaleL_zero_cols (s : ℝ) (p : ℕ) :
    scaleL s (List.replicate p ((0 : ℝ), [])) = List.replicate p ((0 : ℝ), []) := by
  simp [scaleL, scaleV, List.map_replicate]

theorem scaleV_zero_vec (a : ℝ) (p : ℕ) :
    scaleV a (List.replicate p (0 : ℝ)) = List.replicate p 0 := by
  simp [scaleV, List.map_replicate]

theorem initial_reg_scale (s : ℝ) (hs1 : 1 ≤ s)
    (sigmaOf : List Bool → List ℝ → ℝ) (dat : regdata ℝ) (st : Wstate ℝ)
    (hseed : (fitwls Real.sqrt dat (effweight st.subset0 dat.w) st.beta
      st.resid).info = false) :
    initial_reg Real.sqrt sigmaOf (scaleData (s ^ 2) dat) (scaleSt s st)
      = ((initial_reg Real.sqrt sigmaOf dat st).1,
         scaleSt s (initial_reg Real.sqrt sigmaOf dat st).2) := by
  have hs0 : (0 : ℝ) < s := lt_of_lt_of_le one_pos hs1
  obtain ⟨L0, xty0, b0, r0, d0, s0, s1, m0, ia0⟩ := st
  simp only [scaleSt] at hseed ⊢
  rw [initial_reg, initial_reg]
  simp only [scaleData_w]
  rw [effweight_scale]
  rw [fitwls_scale s hs1 dat (effweight s0 dat.w) b0 r0 b0 r0 hseed]
  simp only [hseed, Bool.false_eq_true, if_false]
  have hxty : (List.range (scaleData (s ^ 2) dat).p).map (fun i =>
      ((List.range (scaleData (s ^ 2) dat).n).map (fun j =>
        if s0.getD j false then
          (scaleV (s ^ 2) dat.w).getD j 0
            * xentry (scaleData (s ^ 2) dat) j i
            * (scaleData (s ^ 2) dat).y.getD j 0
        else 0)).sum)
      = scaleV (s ^ 2) ((List.range dat.p).map (fun i =>
          ((List.range dat.n).map (fun j =>
            if s0.getD j false then
              dat.w.getD j 0 * xentry dat j i * dat.y.getD j 0
            else 0)).sum)) := by
    simp only [scaleData_p, scaleData_n, scaleData_y]
    conv_rhs => rw [scaleV, List.map_map]
    apply List.map_congr_left
    intro i _
    simp only [Function.comp]
    rw [← sum_range_map_mul_left]
    apply sum_range_congr
    intro j
    rw [xentry_scale, scaleV_getD]
    cases hsj : s0.getD j false with
    | true => simp only [if_true]; ring
    | false => simp

  rw [hxty, compute_ti_scale s hs0.ne']
  cases compute_ti Real.sqrt dat
      (fitwls Real.sqrt dat (effweight s0 dat.w) b0 r0).R s0
      (fitwls Real.sqrt dat (effweight s0 dat.w) b0 r0).resid
      (sigmaOf s0
        (fitwls Real.sqrt dat (effweight s0 dat.w) b0 r0).resid) with
  | ok tis => rfl
  | error e => rfl

theorem alg4_recover_scale (s : ℝ) (hs : 0 < s) (dat : regdata ℝ)
    (collect : ℕ) :
    ∀ (fuel : ℕ) (e : Werr) (st : Wstate ℝ),
      alg4_recover Real.sqrt rhyp (scaleData (s ^ 2) dat) collect fuel e
        (scaleSt s st)
        = ((alg4_recover Real.sqrt rhyp dat collect fuel e st).1,
           scaleSt s (alg4_recover Real.sqrt rhyp dat collect fuel e st).2) := by
  intro fuel
  induction fuel with
  | zero => intro e st; rfl
  | succ n ih =>
    intro e st
    obtain ⟨L0, xty0, b0, r0, d0, s0, s1, m0, ia0⟩ := st
    rw [← scaleSt_mk, alg4_recover, alg4_recover]
    simp only [scaleData_p]
    rw [update_chol_xty_scale s hs]
    split
    · next h1 => simp [h1, scaleSt]
    · next h1 =>
      split
      · next h2 => simp [h1, h2, scaleSt]
      · next h2 =>
        rw [scaleSt_mk, ih]

theorem ite_pair_scale (c : Prop) [Decidable c] (s : ℝ) (a1 : Werr)
    (a2 : Wstate ℝ) (r : Werr × Wstate ℝ) :
    (if c then (a1, scaleSt s a2) else (r.1, scaleSt s r.2))
      = ((if c then (a1, a2) else r).1,
         scaleSt s (if c then (a1, a2) else r).2) := by
  split <;> rfl

theorem algorithm_4_scale (s : ℝ) (hs1 : 1 ≤ s)
    (sigmaOf : List Bool → List ℝ → ℝ) (dat : regdata ℝ) (collect : ℕ) :
    ∀ (fuel : ℕ) (st : Wstate ℝ),
      algorithm_4 Real.sqrt rhyp sigmaOf (scaleData (s ^ 2) dat) collect fuel
        (scaleSt s st)
        = ((algorithm_4 Real.sqrt rhyp sigmaOf dat collect fuel st).1,
           scaleSt s (algorithm_4 Real.sqrt rhyp sigmaOf dat collect fuel
             st).2) := by
  have hs0 : (0 : ℝ) < s := lt_of_lt_of_le one_pos hs1
  intro fuel
  induction fuel with
  | zero => intro st; rfl
  | succ n ih =>
    intro st
    obtain ⟨L0, xty0, b0, r0, d0, s0, s1, m0, ia0⟩ := st
    rw [← scaleSt_mk, algorithm_4, algorithm_4]
    simp only [scaleData_p, scaleData_n, scaleData_y, xentry_scale]
    rw [update_chol_xty_scale s hs0, scaleSt_mk, alg4_recover_scale s hs0,
      ite_pair_scale]
    dsimp only
    generalize hQ : (if (update_chol_xty Real.sqrt rhyp dat s0 s1 L0 xty0
          ia0).1 = Werr.ok then
        ((Werr.ok : Werr),
          (⟨(update_chol_xty Real.sqrt rhyp dat s0 s1 L0 xty0 ia0).2.1,
            (update_chol_xty Real.sqrt rhyp dat s0 s1 L0 xty0 ia0).2.2.1,
            b0, r0, d0, s0, s1, m0,
            (update_chol_xty Real.sqrt rhyp dat s0 s1 L0 xty0
              ia0).2.2.2⟩ : Wstate ℝ))
      else
        alg4_recover Real.sqrt rhyp dat collect (dat.p * collect - m0)
          (update_chol_xty Real.sqrt rhyp dat s0 s1 L0 xty0 ia0).1
          ⟨(update_chol_xty Real.sqrt rhyp dat s0 s1 L0 xty0 ia0).2.1,
            (update_chol_xty Real.sqrt rhyp dat s0 s1 L0 xty0 ia0).2.2.1,
            b0, r0, d0, s0, s1, m0,
            (update_chol_xty Real.sqrt rhyp dat s0 s1 L0 xty0 ia0).2.2.2⟩)
      = q
    obtain ⟨e2, st2⟩ := q
    obtain ⟨L2, xty2, b2, r2, d2, s02, s12, m2, ia2⟩ := st2
    dsimp only
    by_cases h2 : e2 = Werr.ok
    · simp only [h2, ne_eq, not_true_eq_false, if_false]
      rw [show scaleSt s ⟨L2, xty2, b2, r2, d2, s02, s12, m2, ia2⟩
          = ⟨scaleL s L2, scaleV (s ^ 2) xty2, b2, r2, d2, s02, s12, m2,
            ia2⟩ from rfl]
      dsimp only
      rw [cholesky_reg_scale s hs0.ne', compute_ti_scale s hs0.ne']
      split
      · next e heq => rfl
      · next tis heq =>
        split
        · next h3 => rfl
        · next h3 =>
          rw [scaleSt_mk, ih]
    · simp only [h2, ne_eq, not_false_eq_true, if_true]

/-- Proof device mirroring `algorithm_5`: `true` exactly when every weighted
least-squares fit the refinement phase performs on this run passes the rank
check of `fitwls` (the loop stops caring after a `compute_ti` failure or a
converged iteration, and exhausted fuel checks nothing).  This is the
hypothesis under which the refinement phase is weight-scale equivariant. -/
noncomputable def alg5FitsOK (qtL : ℝ → ℝ → ℝ)
    (sigmaOf : List Bool → List ℝ → ℝ) (dat : regdata ℝ) (alpha : ℝ) :
    ℕ → Wstate ℝ → Bool
  | 0, _ => true
  | fuel + 1, st =>
      let f := fitwls Real.sqrt dat (effweight st.subset0 dat.w) st.beta
        st.resid
      if f.info then false
      else
        let st1 : Wstate ℝ := { st with
          beta := f.beta
          resid := f.resid
          L := f.R }
        match compute_ti Real.sqrt dat st1.L st1.subset0 st1.resid
            (sigmaOf st1.subset0 st1.resid) with
        | .error _ => true
        | .ok tis =>
            let st2 : Wstate ℝ := { st1 with dist := tis }
            let cutoff := qtL (1 - alpha / (2 * ((st2.m : ℝ) + 1)))
              ((st2.m : ℝ) - (dat.p : ℝ))
            let s1 := (List.range dat.n).map
              (fun i => decide (st2.dist.getD i 0 < cutoff))
            let st3 : Wstate ℝ := { st2 with
              subset1 := s1
              m := s1.count true }
            if st3.subset0 = st3.subset1 then true
            else alg5FitsOK qtL sigmaOf dat alpha fuel
              { st3 with subset0 := st3.subset1 }

theorem algorithm_5_scale (s : ℝ) (hs1 : 1 ≤ s) (qtL : ℝ → ℝ → ℝ)
    (sigmaOf : List Bool → List ℝ → ℝ) (dat : regdata ℝ) (alpha : ℝ) :
    ∀ (fuel iter : ℕ) (st : Wstate ℝ),
      alg5FitsOK qtL sigmaOf dat alpha fuel st = true →
      algorithm_5 Real.sqrt qtL sigmaOf (scaleData (s ^ 2) dat) alpha fuel
        iter (scaleSt s st)
        = ((algorithm_5 Real.sqrt qtL sigmaOf dat alpha fuel iter st).1,
           (algorithm_5 Real.sqrt qtL sigmaOf dat alpha fuel iter st).2.1,
           scaleSt s (algorithm_5 Real.sqrt qtL sigmaOf dat alpha fuel iter
             st).2.2) := by
  have hs0 : (0 : ℝ) < s := lt_of_lt_of_le one_pos hs1
  intro fuel
  induction fuel with
  | zero => intro iter st hfit; rfl
  | succ n ih =>
    intro iter st hfit
    obtain ⟨L0, xty0, b0, r0, d0, s0, s1, m0, ia0⟩ := st
    rw [alg5FitsOK] at hfit
    rw [← scaleSt_mk, algorithm_5, algorithm_5]
    simp only [scaleData_p, scaleData_n, scaleData_w]
    dsimp only at hfit ⊢
    by_cases hinfo : (fitwls Real.sqrt dat (effweight s0 dat.w) b0 r0).info
      = true
    · rw [hinfo] at hfit
      simp at hfit
    · have hinfo2 : (fitwls Real.sqrt dat (effweight s0 dat.w) b0 r0).info
          = false := by
        cases hval : (fitwls Real.sqrt dat (effweight s0 dat.w) b0 r0).info
        · rfl
        · exact absurd hval hinfo
      rw [effweight_scale,
        fitwls_scale s hs1 dat (effweight s0 dat.w) b0 r0 b0 r0 hinfo2]
      rw [hinfo2] at hfit
      simp only [hinfo2, Bool.false_eq_true, if_false] at hfit ⊢
      rw [compute_ti_scale s hs0.ne']
      split
      · next e heq => rfl
      · next tis heq =>
        rw [heq] at hfit
        dsimp only at hfit
        split
        · next hconv => rfl
        · next hconv =>
          rw [if_neg hconv] at hfit
          rw [scaleSt_mk, ih _ _ hfit]

theorem scaleSt_dist (s : ℝ) (st : Wstate ℝ) :
    (scaleSt s st).dist = st.dist := rfl

theorem scaleSt_update_msub (s : ℝ) (st : Wstate ℝ) (m : ℕ)
    (sub : List Bool) :
    (⟨(scaleSt s st).L, (scaleSt s st).xty, (scaleSt s st).beta,
      (scaleSt s st).resid, st.dist, (scaleSt s st).subset0, sub, m,
      (scaleSt s st).iarray⟩ : Wstate ℝ)
      = scaleSt s ⟨st.L, st.xty, st.beta, st.resid, st.dist, st.subset0,
          sub, m, st.iarray⟩ := rfl

theorem scaleSt_swap (s : ℝ) (st : Wstate ℝ) :
    { scaleSt s st with
        subset0 := (scaleSt s st).subset1
        subset1 := (scaleSt s st).subset0 }
      = scaleSt s { st with subset0 := st.subset1, subset1 := st.subset0 } :=
  rfl

theorem wbacon_steps01_scale (s : ℝ) (hs1 : 1 ≤ s)
    (sigmaOf : List Bool → List ℝ → ℝ) (dat : regdata ℝ)
    (subset0 : List Bool) (dist0 beta0 resid0 : List ℝ) (m0 collect : ℕ)
    (hseed : (fitwls Real.sqrt dat (effweight subset0 dat.w) beta0
      resid0).info = false) :
    wbacon_steps01 Real.sqrt rhyp sigmaOf (scaleData (s ^ 2) dat) subset0
      dist0 beta0 resid0 m0 collect
      = ((wbacon_steps01 Real.sqrt rhyp sigmaOf dat subset0 dist0 beta0
            resid0 m0 collect).1,
         scaleSt s (wbacon_steps01 Real.sqrt rhyp sigmaOf dat subset0 dist0
            beta0 resid0 m0 collect).2) := by
  rw [wbacon_steps01, wbacon_steps01]
  simp only [scaleData_p, scaleData_n]
  have hzero : (⟨List.replicate dat.p ((0 : ℝ), []), List.replicate dat.p 0,
      beta0, resid0, dist0, subset0, List.replicate dat.n false, m0,
      List.replicate dat.n 0⟩ : Wstate ℝ)
      = scaleSt s ⟨List.replicate dat.p ((0 : ℝ), []),
          List.replicate dat.p 0, beta0, resid0, dist0, subset0,
          List.replicate dat.n false, m0, List.replicate dat.n 0⟩ := by
    simp [scaleSt, scaleL_zero_cols, scaleV_zero_vec]
  conv_lhs => rw [hzero]
  rw [initial_reg_scale s hs1 sigmaOf dat
    ⟨List.replicate dat.p ((0 : ℝ), []), List.replicate dat.p 0, beta0,
      resid0, dist0, subset0, List.replicate dat.n false, m0,
      List.replicate dat.n 0⟩ hseed]
  dsimp only
  split
  · next h => rfl
  · next h =>
    rw [scaleSt_dist, scaleSt_update_msub, algorithm_4_scale s hs1]

/-- Claim C9, corrected: uniform weight rescaling is equivariant, not
invariant.  Multiplying all weights by `c ≥ 1` leaves the returned
coefficient vector and the final subset membership of `wbacon_reg`
unchanged *provided* every weighted least-squares fit performed along the
unscaled run passes the rank check of `fitwls`: the seed fit of
`initial_reg` succeeds (`hseed`) and every refinement iteration's fit
succeeds (`halg5`, phrased over the state that enters `algorithm_5` after
the subset-array swap that `wbacon_reg` performs).  Without that proviso
the claim is false — see the counterexample — because the rank test
`|R[i,i]| < sqrt(DBL_EPSILON)` compares against an absolute threshold
while the factor scales with `sqrt(c)`. -/
theorem claim_C9_weight_scaling (c : ℝ) (hc : 1 ≤ c) (qtL : ℝ → ℝ → ℝ)
    (sigmaOf : List Bool → List ℝ → ℝ) (dat : regdata ℝ)
    (subset0 : List Bool) (dist0 beta0 resid0 : List ℝ) (m0 collect : ℕ)
    (alpha : ℝ) (maxiter : ℕ)
    (hseed : (fitwls Real.sqrt dat (effweight subset0 dat.w) beta0
      resid0).info = false)
    (halg5 : alg5FitsOK qtL sigmaOf dat alpha maxiter
      { (wbacon_steps01 Real.sqrt rhyp sigmaOf dat subset0 dist0 beta0
          resid0 m0 collect).2 with
        subset0 := (wbacon_steps01 Real.sqrt rhyp sigmaOf dat subset0 dist0
          beta0 resid0 m0 collect).2.subset1
        subset1 := (wbacon_steps01 Real.sqrt rhyp sigmaOf dat subset0 dist0
          beta0 resid0 m0 collect).2.subset0 } = true) :
    (wbacon_reg Real.sqrt rhyp qtL sigmaOf (scaleData c dat) subset0 dist0
        beta0 resid0 m0 collect alpha maxiter).beta
      = (wbacon_reg Real.sqrt rhyp qtL sigmaOf dat subset0 dist0 beta0
          resid0 m0 collect alpha maxiter).beta
    ∧ (wbacon_reg Real.sqrt rhyp qtL sigmaOf (scaleData c dat) subset0
        dist0 beta0 resid0 m0 collect alpha maxiter).subset
      = (wbacon_reg Real.sqrt rhyp qtL sigmaOf dat subset0 dist0 beta0
          resid0 m0 collect alpha maxiter).subset := by
  have hc0 : (0 : ℝ) ≤ c := le_trans zero_le_one hc
  have hs1 : 1 ≤ Real.sqrt c := by
    rw [show (1 : ℝ) = Real.sqrt 1 from Real.sqrt_one.symm]
    exact Real.sqrt_le_sqrt hc
  have hcs : scaleData c dat = scaleData (Real.sqrt c ^ 2) dat := by
    rw [Real.sq_sqrt hc0]
  rw [hcs, wbacon_reg, wbacon_reg,
    wbacon_steps01_scale (Real.sqrt c) hs1 sigmaOf dat subset0 dist0 beta0
      resid0 m0 collect hseed]
  dsimp only
  split
  · next h => exact ⟨rfl, rfl⟩
  · next h =>
    rw [scaleSt_swap,
      algorithm_5_scale (Real.sqrt c) hs1 qtL sigmaOf dat alpha maxiter 1 _
        halg5]
    exact ⟨rfl, rfl⟩

/-- Clean one-observation instance for the C9 witness: `n = p = 1`,
design entry `1`, response `1`, weight `1`. -/
noncomputable def w9dat : regdata ℝ := ⟨1, 1, [[1]], [1], [1]⟩

theorem w9dat_n : w9dat.n = 1 := rfl

theorem w9dat_p : w9dat.p = 1 := rfl

theorem w9dat_x : w9dat.x = [[1]] := rfl

theorem w9dat_y : w9dat.y = [1] := rfl

theorem w9dat_w : w9dat.w = [1] := rfl

theorem w9_fit (b r : List ℝ) :
    fitwls Real.sqrt w9dat (effweight [true] [1]) b r
      = ⟨false, [1], [0], [((1 : ℝ), [])]⟩ := by
  norm_num [fitwls, cholOfGram, dotK, effweight, xentry, cholesky_reg,
    forwardSolve, backwardSolve, w9dat, List.range_succ, Real.sqrt_one,
    sqrt_dblEpsilon_eq]

theorem w9_ct :
    compute_ti Real.sqrt w9dat [((1 : ℝ), [])] [true] [0] 1 = .ok [0] := by
  rw [compute_ti]
  norm_num [hat_matrix, trinv, forwardSolve, triEntry, xentry, w9dat,
    List.range_succ, Real.sqrt_zero]

theorem w9_init :
    initial_reg Real.sqrt (fun _ _ => (1 : ℝ)) w9dat
      ⟨[((0 : ℝ), [])], [0], [0], [0], [0], [true], [false], 1, [0]⟩
      = (.ok, ⟨[((1 : ℝ), [])], [1], [1], [0], [0], [true], [false], 1,
          [0]⟩) := by
  rw [initial_reg]
  norm_num [w9_fit, w9_ct, w9dat_n, w9dat_p, w9dat_x, w9dat_y, w9dat_w,
    xentry, List.range_succ]

theorem w9_sel : select_subset ([0] : List ℝ) 2 1 = [true] := by
  have h00 : decide ((0 : ℝ) ≤ 0) = true := by simp
  norm_num [select_subset, kthSmallest, List.mergeSort, h00, List.range_succ]

theorem w9_alg4 :
    algorithm_4 Real.sqrt rhyp (fun _ _ => (1 : ℝ)) w9dat 2 4
      ⟨[((1 : ℝ), [])], [1], [1], [0], [0], [true], [true], 2, [0]⟩
      = (.ok, ⟨[((1 : ℝ), [])], [1], [1], [0], [0], [true], [true], 3,
          [0]⟩) := by
  rw [algorithm_4]
  norm_num [update_chol_xty_self, cholesky_reg, forwardSolve, backwardSolve,
    dotK, w9_ct, w9dat_n, w9dat_p, w9dat_x, w9dat_y, xentry,
    List.range_succ]

theorem w9_steps :
    wbacon_steps01 Real.sqrt rhyp (fun _ _ => (1 : ℝ)) w9dat [true] [0] [0]
      [0] 1 2
      = (.ok, ⟨[((1 : ℝ), [])], [1], [1], [0], [0], [true], [true], 3,
          [0]⟩) := by
  rw [wbacon_steps01]
  norm_num [w9dat_n, w9dat_p, w9_init, w9_sel, w9_alg4]

theorem w9_fitsOK :
    alg5FitsOK (fun _ _ => (1 : ℝ)) (fun _ _ => (1 : ℝ)) w9dat (1 / 2) 1
      ⟨[((1 : ℝ), [])], [1], [1], [0], [0], [true], [true], 3, [0]⟩
      = true := by
  rw [show (1 : ℕ) = 0 + 1 from rfl, alg5FitsOK]
  norm_num [w9_fit, w9_ct, w9dat_n, w9dat_p, w9dat_w, List.range_succ]

/-- Witness for the corrected C9 at a concrete input: quadrupling the unit
weight of the clean one-observation problem leaves the coefficient and the
subset unchanged, the hypotheses being checked by evaluation. -/
theorem claim_C9_weight_scaling_witness :
    ((1 : ℝ) ≤ 4 ∧
      (fitwls Real.sqrt w9dat (effweight [true] w9dat.w) [0] [0]).info
        = false ∧
      alg5FitsOK (fun _ _ => (1 : ℝ)) (fun _ _ => (1 : ℝ)) w9dat (1 / 2) 1
        { (wbacon_steps01 Real.sqrt rhyp (fun _ _ => (1 : ℝ)) w9dat [true]
            [0] [0] [0] 1 2).2 with
          subset0 := (wbacon_steps01 Real.sqrt rhyp (fun _ _ => (1 : ℝ))
            w9dat [true] [0] [0] [0] 1 2).2.subset1
          subset1 := (wbacon_steps01 Real.sqrt rhyp (fun _ _ => (1 : ℝ))
            w9dat [true] [0] [0] [0] 1 2).2.subset0 } = true) ∧
    ((wbacon_reg Real.sqrt rhyp (fun _ _ => (1 : ℝ)) (fun _ _ => (1 : ℝ))
        (scaleData 4 w9dat) [true] [0] [0] [0] 1 2 (1 / 2) 1).beta
      = (wbacon_reg Real.sqrt rhyp (fun _ _ => (1 : ℝ))
          (fun _ _ => (1 : ℝ)) w9dat [true] [0] [0] [0] 1 2 (1 / 2) 1).beta
    ∧ (wbacon_reg Real.sqrt rhyp (fun _ _ => (1 : ℝ)) (fun _ _ => (1 : ℝ))
        (scaleData 4 w9dat) [true] [0] [0] [0] 1 2 (1 / 2) 1).subset
      = (wbacon_reg Real.sqrt rhyp (fun _ _ => (1 : ℝ))
          (fun _ _ => (1 : ℝ)) w9dat [true] [0] [0] [0] 1 2 (1 / 2)
          1).subset) :=
  ⟨⟨by norm_num,
    by rw [w9dat_w, w9_fit],
    by rw [w9_steps]; exact w9_fitsOK⟩,
   claim_C9_weight_scaling 4 (by norm_num) (fun _ _ => (1 : ℝ))
     (fun _ _ => (1 : ℝ)) w9dat [true] [0] [0] [0] 1 2 (1 / 2) 1
     (by rw [w9dat_w, w9_fit])
     (by rw [w9_steps]; exact w9_fitsOK)⟩

end WBacon
